import Mathlib

/-!
# Skip list (`skiplist.go`): shallow embedding and verification

The Go program keeps its nodes on the garbage-collected heap and links them
with pointers.  The embedding makes the heap explicit: a heap is a list of
nodes, a non-nil pointer is an index into that list, and `nil` is `none`.
The sentinel head is the first node ever allocated, so its address is `0`.

Every operation returns in `Except Fault`:

* `Fault.levelOutOfRange` is the explicit `"level %v out of range %v"`
  panic of `Keys`, `Values`, `ToMap` (and the error of `Get`);
* `Fault.indexOutOfRange` is the Go runtime panic of a slice index that is
  negative or not below the length;
* `Fault.nilDeref` is the Go runtime panic of a field access through a
  nil pointer (or an address at which no node is stored);
* `Fault.outOfFuel` stands for a loop that does not finish: each pointer
  chasing loop is given as many steps as there are nodes on the heap, and
  the counting loop of `Get` more steps than its counter has values.

Keys are any linearly ordered type (Go: `cmp.Ordered` without NaN), values
are arbitrary; both need a zero value for the sentinel.  Go's `int` is
modelled by `Int`: the counters `level` and `size` stay far below `2^63`
for any heap that fits in memory; the counter of the loop of `Get`, which
can pass the least `int`, is decremented with `wrap64`.  The level drawn by
`randomlevel` is an argument of `Insert`.
-/

namespace Skiplist

/-- Reasons for which an operation stops without a result. -/
inductive Fault where
  | levelOutOfRange
  | indexOutOfRange
  | nilDeref
  | outOfFuel
  deriving DecidableEq, Repr

/-- Go `SkipNode[K, V]`: `Forward[i]` is `none` for nil, `some a` for the
node stored at address `a`. -/
structure SkipNode (K V : Type) where
  Key : K
  Value : V
  Forward : List (Option Nat)
  deriving DecidableEq, Repr

/-- Go `SkipList[K, V]` together with the heap its pointers live in.  The
field `random` is left out: its draws are arguments of `Insert`. -/
structure SkipList (K V : Type) where
  heap : List (SkipNode K V)
  level : Int
  size : Int
  deriving DecidableEq, Repr

variable {K V : Type}

/-- Address of the sentinel (`s.Head`): the first allocated node. -/
def SkipList.Head (_s : SkipList K V) : Nat := 0

/-- Field access through a pointer. -/
def deref (heap : List (SkipNode K V)) (a : Nat) : Except Fault (SkipNode K V) :=
  match heap[a]? with
  | some n => .ok n
  | none => .error .nilDeref

/-- Slice read `l[i]` with a natural index. -/
def idx {α : Type} (l : List α) (i : Nat) : Except Fault α :=
  match l[i]? with
  | some v => .ok v
  | none => .error .indexOutOfRange

/-- Slice read `l[i]` with a Go `int` index. -/
def index {α : Type} (l : List α) (i : Int) : Except Fault α :=
  if i < 0 then .error .indexOutOfRange else idx l i.toNat

/-- Slice write `l[i] = v`. -/
def setIdx {α : Type} (l : List α) (i : Nat) (v : α) : Except Fault (List α) :=
  if i < l.length then .ok (l.set i v) else .error .indexOutOfRange

/-- Go builtin `copy(dst, src)`: the first `min (len dst) (len src)` elements
of `dst` are overwritten. -/
def goCopy {α : Type} (dst src : List α) : List α :=
  src.take dst.length ++ dst.drop src.length

/-- Go `NewSkipNode(key, value, level)`. -/
def NewSkipNode (key : K) (value : V) (level : Int) : SkipNode K V :=
  { Key := key, Value := value, Forward := List.replicate (level + 1).toNat none }

/-- Go `NewSkipList()`. -/
def NewSkipList [Inhabited K] [Inhabited V] : SkipList K V :=
  { heap := [NewSkipNode default default 0], level := -1, size := 0 }

/-- Go `s.Level()`. -/
def SkipList.Level (s : SkipList K V) : Int := s.level

/-- Go `s.Size()`. -/
def SkipList.Size (s : SkipList K V) : Int := s.size

/-- Go `s.adjusthead(newlevel)`. -/
def adjusthead (s : SkipList K V) (newlevel : Int) : Except Fault (SkipList K V) := do
  let head ← deref s.heap s.Head
  let temp := goCopy (List.replicate (newlevel + 1).toNat none) head.Forward
  pure { s with heap := s.heap.set s.Head { head with Forward := temp }, level := newlevel }

section Ordered
variable [LinearOrder K]

/-- The inner loop shared by `Find`, `Insert` and `Remove`:
`for x.Forward[i] != nil && x.Forward[i].Key < key { x = x.Forward[i] }`. -/
def advance (heap : List (SkipNode K V)) (key : K) (i : Nat) : Nat → Nat → Except Fault Nat
  | 0, _ => .error .outOfFuel
  | fuel + 1, x => do
    let n ← deref heap x
    let p ← idx n.Forward i
    match p with
    | none => pure x
    | some y => do
      let m ← deref heap y
      if m.Key < key then advance heap key i fuel y else pure x

/-- The outer loop of `Find`, `for i := s.level; i >= 0; i--`; the counter
is `i + 1`. -/
def findLoop (heap : List (SkipNode K V)) (key : K) : Nat → Nat → Except Fault Nat
  | 0, x => pure x
  | i + 1, x => do
    let x' ← advance heap key i heap.length x
    findLoop heap key i x'

/-- The outer loop of `Insert` and `Remove`, which also records
`update[i] = x`; the counter is `i + 1`. -/
def searchLoop (heap : List (SkipNode K V)) (key : K) :
    Nat → Nat → List (Option Nat) → Except Fault (Nat × List (Option Nat))
  | 0, x, update => pure (x, update)
  | i + 1, x, update => do
    let x' ← advance heap key i heap.length x
    let update' ← setIdx update i (some x')
    searchLoop heap key i x' update'

/-- Go `s.Find(key)`: the address of the node found, or `none` for nil. -/
def Find (s : SkipList K V) (key : K) : Except Fault (Option Nat) := do
  let x ← findLoop s.heap key (s.level + 1).toNat s.Head
  let n ← deref s.heap x
  let p ← idx n.Forward 0
  match p with
  | none => pure none
  | some a => do
    let m ← deref s.heap a
    if m.Key = key then pure (some a) else pure none

/-- The splice loop of `Insert`, `for i := 0; i <= newlevel; i++`, with
`x` the address of the new node; the first counter is the number of
iterations left. -/
def spliceLoop (x : Nat) (update : List (Option Nat)) :
    Nat → Nat → List (SkipNode K V) → Except Fault (List (SkipNode K V))
  | 0, _, heap => pure heap
  | r + 1, i, heap => do
    let u ← idx update i
    match u with
    | none => .error .nilDeref
    | some ua => do
      let un ← deref heap ua
      let t ← idx un.Forward i
      let xn ← deref heap x
      let xf ← setIdx xn.Forward i t
      let heap1 := heap.set x { xn with Forward := xf }
      let un1 ← deref heap1 ua
      let uf ← setIdx un1.Forward i (some x)
      let heap2 := heap1.set ua { un1 with Forward := uf }
      spliceLoop x update r (i + 1) heap2

/-- Go `s.Insert(key, value)`, where `newlevel` is the value returned by
`s.randomlevel()`. -/
def Insert (s : SkipList K V) (key : K) (value : V) (newlevel : Nat) :
    Except Fault (SkipList K V) := do
  let s1 ← if (newlevel : Int) > s.level then adjusthead s newlevel else pure s
  let update0 : List (Option Nat) := List.replicate (s1.level + 1).toNat none
  let (x, update) ← searchLoop s1.heap key (s1.level + 1).toNat s1.Head update0
  let n ← deref s1.heap x
  let p ← idx n.Forward 0
  let found ← (match p with
    | none => pure none
    | some a => do
      let m ← deref s1.heap a
      if m.Key = key then pure (some (a, m)) else pure none :
    Except Fault (Option (Nat × SkipNode K V)))
  match found with
  | some (a, m) => pure { s1 with heap := s1.heap.set a { m with Value := value } }
  | none => do
    let heap0 := s1.heap ++ [NewSkipNode key value newlevel]
    let heap1 ← spliceLoop s1.heap.length update (newlevel + 1) 0 heap0
    pure { s1 with heap := heap1, size := s1.size + 1 }

/-- The unlink loop of `Remove`, `for i := 0; i < s.level; i++`; the first
counter is the number of iterations left. -/
def unlinkLoop (key : K) (update : List (Option Nat)) :
    Nat → Nat → List (SkipNode K V) → Except Fault (List (SkipNode K V))
  | 0, _, heap => pure heap
  | r + 1, i, heap => do
    let u ← idx update i
    match u with
    | none => .error .nilDeref
    | some ua => do
      let un ← deref heap ua
      let curr ← idx un.Forward i
      match curr with
      | none => unlinkLoop key update r (i + 1) heap
      | some c => do
        let cn ← deref heap c
        if cn.Key ≠ key then unlinkLoop key update r (i + 1) heap
        else do
          let cf ← idx cn.Forward i
          let uf ← setIdx un.Forward i cf
          unlinkLoop key update r (i + 1) (heap.set ua { un with Forward := uf })

/-- Go `s.Remove(key)`. -/
def Remove (s : SkipList K V) (key : K) : Except Fault (SkipList K V) := do
  let update0 : List (Option Nat) := List.replicate (s.level + 1).toNat none
  let (_, update) ← searchLoop s.heap key (s.level + 1).toNat s.Head update0
  let heap1 ← unlinkLoop key update s.level.toNat 0 s.heap
  pure { s with heap := heap1 }

end Ordered

/-- The loop of `Keys`, `Values` and `ToMap`,
`for cur := x.Forward[level]; cur != nil; { ...; cur = cur.Forward[level] }`,
returning the nodes visited, in order. -/
def collect (heap : List (SkipNode K V)) (level : Int) :
    Nat → Option Nat → List (SkipNode K V) → Except Fault (List (SkipNode K V))
  | _, none, acc => pure acc
  | 0, some _, _ => .error .outOfFuel
  | fuel + 1, some a, acc => do
    let n ← deref heap a
    let nxt ← index n.Forward level
    collect heap level fuel nxt (acc ++ [n])

/-- The common part of `Keys`, `Values` and `ToMap`: the level check and
the traversal. -/
def traverse (s : SkipList K V) (level : Int) : Except Fault (List (SkipNode K V)) :=
  if level > s.level then .error .levelOutOfRange
  else do
    let x ← deref s.heap s.Head
    let cur ← index x.Forward level
    collect s.heap level s.heap.length cur []

/-- Go `int` arithmetic: the 64-bit two's complement value of `i`. -/
def wrap64 (i : Int) : Int := (i + 2 ^ 63) % 2 ^ 64 - 2 ^ 63

/-- The inner loop of `Get`,
`for x.Forward[level] != nil { x = x.Forward[level] }`. -/
def walkEnd (heap : List (SkipNode K V)) (level : Int) : Nat → Nat → Except Fault Nat
  | 0, _ => .error .outOfFuel
  | fuel + 1, x => do
    let n ← deref heap x
    let p ← index n.Forward level
    match p with
    | none => pure x
    | some y => walkEnd heap level fuel y

/-- The outer loop of `Get`, `for i := 0; i >= index; i-- { ... }`, with the
counter `i` a Go `int`. -/
def getLoop (heap : List (SkipNode K V)) (index level : Int) :
    Nat → Int → Nat → Except Fault Nat
  | 0, _, _ => .error .outOfFuel
  | fuel + 1, i, x =>
    if i ≥ index then do
      let x1 ← walkEnd heap level heap.length x
      getLoop heap index level fuel (wrap64 (i - 1)) x1
    else pure x

/-- Go `s.Get(index, level)`: the address of the node returned, or the
fault `levelOutOfRange` for the returned error.  The counter of the outer
loop has `2 ^ 64` values, so a run of more than `2 ^ 64` iterations never
ends. -/
def Get (s : SkipList K V) (index level : Int) : Except Fault Nat :=
  if level > s.level then .error .levelOutOfRange
  else getLoop s.heap index level (2 ^ 64 + 1) 0 s.Head

/-- Go `s.Keys(level)`. -/
def Keys (s : SkipList K V) (level : Int) : Except Fault (List K) := do
  let ns ← traverse s level
  pure (ns.map (fun n => n.Key))

/-- Go `s.Values(level)`. -/
def Values (s : SkipList K V) (level : Int) : Except Fault (List V) := do
  let ns ← traverse s level
  pure (ns.map (fun n => n.Value))

/-- Go `map[K]V` as an association list: `mapSet` is `m[k] = v`. -/
def mapSet [DecidableEq K] (m : List (K × V)) (k : K) (v : V) : List (K × V) :=
  match m with
  | [] => [(k, v)]
  | (k', v') :: rest => if k' = k then (k, v) :: rest else (k', v') :: mapSet rest k v

/-- Go `v, ok := m[k]`. -/
def mapGet [DecidableEq K] (m : List (K × V)) (k : K) : Option V :=
  (m.find? (fun kv => decide (kv.1 = k))).map Prod.snd

/-- Go `s.ToMap(level)`. -/
def ToMap [DecidableEq K] (s : SkipList K V) (level : Int) : Except Fault (List (K × V)) := do
  let ns ← traverse s level
  pure (ns.foldl (fun m n => mapSet m n.Key n.Value) [])

/-- A run of `Insert` calls: each entry is the key, the value and the level
drawn for that call. -/
def insertAll [LinearOrder K] (s : SkipList K V) :
    List (K × V × Nat) → Except Fault (SkipList K V)
  | [] => pure s
  | (k, v, nl) :: ops => do
    let s1 ← Insert s k v nl
    insertAll s1 ops

/-- Go `NewSkipListMap(maps)`: `entries` lists the pairs of the map in the
order in which the `range` loop visits them, each with the level drawn by
its `Insert`. -/
def NewSkipListMap [LinearOrder K] [Inhabited K] [Inhabited V] (entries : List (K × V × Nat)) :
    Except Fault (SkipList K V) :=
  insertAll NewSkipList entries

/-- Key and value of the node addressed by a pointer that `Find` returned
(`none` for nil). -/
def SkipList.entry (s : SkipList K V) (p : Option Nat) : Option (K × V) :=
  p.bind (fun a => (s.heap[a]?).map (fun n => (n.Key, n.Value)))

/-- One call of the mutating interface; an `Insert` comes with the level
drawn for it. -/
inductive Op (K V : Type) where
  | insert (key : K) (value : V) (newlevel : Nat)
  | remove (key : K)

/-- A run of `Insert` and `Remove` calls. -/
def runOps [LinearOrder K] (s : SkipList K V) : List (Op K V) → Except Fault (SkipList K V)
  | [] => pure s
  | Op.insert k v nl :: ops => do
    let s1 ← Insert s k v nl
    runOps s1 ops
  | Op.remove k :: ops => do
    let s1 ← Remove s k
    runOps s1 ops

/-! ## Vocabulary of the proofs -/

/-- The content of slot `a.Forward[i]`, when the node and the slot exist. -/
def nextAt (heap : List (SkipNode K V)) (i a : Nat) : Option (Option Nat) :=
  (heap[a]?).bind (fun n => n.Forward[i]?)

/-- The key stored at address `a` (the zero key when nothing is there). -/
def keyAt [Inhabited K] (heap : List (SkipNode K V)) (a : Nat) : K :=
  ((heap[a]?).map (fun n => n.Key)).getD default

/-- The value stored at address `a`. -/
def valAt (heap : List (SkipNode K V)) (a : Nat) : Option V :=
  (heap[a]?).map (fun n => n.Value)

/-- Chain predicate `Linked heap i x l`: following `Forward[i]` from the node at `x` visits
exactly the addresses `l` and then reaches nil. -/
def Linked (heap : List (SkipNode K V)) (i : Nat) : Nat → List Nat → Prop
  | x, [] => nextAt heap i x = some none
  | x, b :: l => nextAt heap i x = some (some b) ∧ Linked heap i b l

/-- The node on which the inner loop stops when it starts at `x` and the
chain after `x` is `l`. -/
def lastBelow (P : Nat → Bool) : Nat → List Nat → Nat
  | x, [] => x
  | x, b :: l => if P b then lastBelow P b l else x

/-- The loop test `x.Forward[i].Key < key`, as a test on addresses. -/
def below [LinearOrder K] [Inhabited K] (heap : List (SkipNode K V)) (key : K) : Nat → Bool :=
  fun a => decide (keyAt heap a < key)

/-- Well-formedness of a list whose level `i` chain is `ch i`: what every
list built by insertions alone satisfies. -/
structure WF [LinearOrder K] [Inhabited K] (s : SkipList K V) (ch : Nat → List Nat) : Prop where
  level_ge : -1 ≤ s.level
  linked : ∀ i : Nat, (i : Int) ≤ s.level → Linked s.heap i 0 (ch i)
  linked0 : Linked s.heap 0 0 (ch 0)
  above : ∀ i : Nat, s.level < (i : Int) → ch i = []
  headlen : ∃ h, s.heap[0]? = some h ∧ (h.Forward.length : Int) = max 1 (s.level + 1)
  sorted : ∀ i, (ch i).Pairwise (fun a b => keyAt s.heap a < keyAt s.heap b)
  sub : ∀ i, (ch (i + 1)).Sublist (ch i)
  nohead : 0 ∉ ch 0
  heaplen : s.heap.length = (ch 0).length + 1
  size : s.size = (ch 0).length

/-- The chain `l` with the new address `N` put where the search stops. -/
def insAt (P : Nat → Bool) (N : Nat) (l : List Nat) : List Nat :=
  l.takeWhile P ++ N :: l.dropWhile P

/-- The node `Find` looks at after the descent, kept when its key is `key`. -/
def hit [LinearOrder K] [Inhabited K] (heap : List (SkipNode K V)) (key : K)
    (l : List Nat) : Option Nat :=
  match (l.dropWhile (below heap key)).head? with
  | some a => if keyAt heap a = key then some a else none
  | none => none

/-- The nodes stored at the addresses `l`. -/
def nodesAt (heap : List (SkipNode K V)) (l : List Nat) : List (SkipNode K V) :=
  l.filterMap (fun a => heap[a]?)

/-- Key, value and number of forward slots of the node at `a`: what the
splice and unlink loops leave unchanged. -/
def shapeAt (heap : List (SkipNode K V)) (a : Nat) : Option (K × V × Nat) :=
  (heap[a]?).map (fun n => (n.Key, n.Value, n.Forward.length))

/-- The part of `Insert` that follows the adjustment of the head. -/
def insertBody [LinearOrder K] (s1 : SkipList K V) (key : K) (value : V) (newlevel : Nat) :
    Except Fault (SkipList K V) := do
  let update0 : List (Option Nat) := List.replicate (s1.level + 1).toNat none
  let (x, update) ← searchLoop s1.heap key (s1.level + 1).toNat s1.Head update0
  let n ← deref s1.heap x
  let p ← idx n.Forward 0
  let found ← (match p with
    | none => pure none
    | some a => do
      let m ← deref s1.heap a
      if m.Key = key then pure (some (a, m)) else pure none :
    Except Fault (Option (Nat × SkipNode K V)))
  match found with
  | some (a, m) => pure { s1 with heap := s1.heap.set a { m with Value := value } }
  | none => do
    let heap0 := s1.heap ++ [NewSkipNode key value newlevel]
    let heap1 ← spliceLoop s1.heap.length update (newlevel + 1) 0 heap0
    pure { s1 with heap := heap1, size := s1.size + 1 }

/-- Representation predicate `Rep s m`: the list `s` is well-formed and its level 0 chain holds
exactly the bindings of the finite map `m`. -/
def Rep [LinearOrder K] [Inhabited K] (s : SkipList K V) (m : K → Option V) : Prop :=
  ∃ ch, WF s ch ∧
    ∀ k v, m k = some v ↔ ∃ a ∈ ch 0, keyAt s.heap a = k ∧ valAt s.heap a = some v

/-- The finite map after a run of insertions: each one overwrites the
binding of its key. -/
def applyOps [DecidableEq K] (m : K → Option V) : List (K × V × Nat) → K → Option V
  | [] => m
  | (k, v, _) :: ops => applyOps (Function.update m k (some v)) ops

/-- The content of slot `u.Forward[j]` after the iteration `j` of the unlink
loop of `Remove`, which bypasses the successor of `u` when its key is `key`. -/
def unlinked [DecidableEq K] [Inhabited K] (heap : List (SkipNode K V)) (key : K) (j u : Nat) :
    Option (Option Nat) :=
  match nextAt heap j u with
  | some (some c) => if keyAt heap c = key then nextAt heap j c else some (some c)
  | r => r

/-- The order in which forward links run, as a test: the head comes first,
then the nodes by ascending key and, for equal keys, by descending address. -/
def beforeB [LinearOrder K] [Inhabited K] (heap : List (SkipNode K V)) (a b : Nat) : Bool :=
  decide (b ≠ 0) && (decide (a = 0) || decide (keyAt heap a < keyAt heap b) ||
    (decide (keyAt heap a = keyAt heap b) && decide (b < a)))

/-- The number of addresses of the heap that come after `a` in that order:
it bounds the number of steps a pointer chase from `a` can take. -/
def rankOf [LinearOrder K] [Inhabited K] (heap : List (SkipNode K V)) (a : Nat) : Nat :=
  ((Finset.range heap.length).filter (fun b => beforeB heap a b = true)).card

/-- Every non-nil forward slot, on any level `i`, holds the address of a
node other than the head that has a slot `i` itself and comes later in the
order of the links; on level 0 its key is larger. -/
def LinkOK [LinearOrder K] [Inhabited K] (heap : List (SkipNode K V)) : Prop :=
  ∀ i a b, nextAt heap i a = some (some b) →
    (∃ q, nextAt heap i b = some q) ∧ b ≠ 0 ∧
      (a = 0 ∨ keyAt heap a < keyAt heap b ∨
        (0 < i ∧ keyAt heap a = keyAt heap b ∧ b < a))

/-- What every list reachable by `Insert` and `Remove` satisfies. -/
structure Sound [LinearOrder K] [Inhabited K] (s : SkipList K V) : Prop where
  level_ge : -1 ≤ s.level
  headlen : ∃ h, s.heap[0]? = some h ∧ (h.Forward.length : Int) = max 1 (s.level + 1)
  link : LinkOK s.heap

/-- Where the inner loop for `key` on level `i` stops: on the head or a
node below `key` whose slot `i` is nil or holds a node not below `key`. -/
def Stop [LinearOrder K] [Inhabited K] (heap : List (SkipNode K V)) (key : K) (i x : Nat) :
    Prop :=
  (x = 0 ∨ keyAt heap x < key) ∧
    ∃ t, nextAt heap i x = some t ∧ ∀ b, t = some b → ¬ keyAt heap b < key

/-- The lists reachable from the new list by `Insert` and `Remove` calls. -/
def Reachable [LinearOrder K] [Inhabited K] [Inhabited V] (s : SkipList K V) : Prop :=
  ∃ ops, runOps (NewSkipList : SkipList K V) ops = .ok s

/-- The list left by `Insert(5)`, `Remove 5`, `Insert(7)` (each with level
1), `Insert(3)`, `Insert(1)` and `Insert(2)` (each with level 0): the node
of key 5 is unlinked from level 0 and still on level 1, the node of key 7
hangs behind it, and the keys 1, 2, 3 are on level 0. -/
def afterRemoveInsert : SkipList Int String :=
  ⟨[⟨0, "", [some 4, some 1]⟩, ⟨5, "Five", [some 2, some 2]⟩, ⟨7, "Seven", [none, none]⟩,
    ⟨3, "Three", [none]⟩, ⟨1, "One", [some 5]⟩, ⟨2, "Two", [some 3]⟩], 1, 5⟩

/-- The list left by `Insert(5)`, `Remove 5` and `Insert(5)` again, each
with level 1: two nodes of key 5 are on level 1. -/
def twiceInserted : SkipList Int String :=
  ⟨[⟨0, "", [some 2, some 2]⟩, ⟨5, "Five", [none, none]⟩, ⟨5, "Cinq", [none, some 1]⟩], 1, 2⟩

/-- The list left by `Insert(1, "One")` with level 0 drawn on the new
list. -/
def holdsOne : SkipList Int String :=
  ⟨[⟨0, "", [some 1]⟩, ⟨1, "One", [none]⟩], 0, 1⟩

/-- The addresses of `l` whose key is larger than the key of `x`. -/
def aboveOf [LinearOrder K] [Inhabited K] (heap : List (SkipNode K V)) (x : Nat)
    (l : List Nat) : List Nat :=
  l.filter (fun a => decide (keyAt heap x < keyAt heap a))

/-- The addresses of `l` whose key is not `key`. -/
def without [LinearOrder K] [Inhabited K] (heap : List (SkipNode K V)) (key : K)
    (l : List Nat) : List Nat :=
  l.filter (fun a => decide (keyAt heap a ≠ key))

/-- What the descent of `Find` needs of a list whose level `i` chain is
`ch i`: sorted chains, and from every node of a level `j`, on every level
`i ≤ j`, a chain that is the part of `ch i` with larger keys.  A list built
by insertions satisfies it, and still does after one `Remove`, which may
leave the removed node on the top level. -/
structure Desc [LinearOrder K] [Inhabited K] (s : SkipList K V) (ch : Nat → List Nat) :
    Prop where
  level_ge : -1 ≤ s.level
  linked : ∀ i : Nat, (i : Int) ≤ max s.level 0 → Linked s.heap i 0 (ch i)
  above : ∀ i : Nat, s.level < (i : Int) → ch i = []
  sorted : ∀ i, (ch i).Pairwise (fun a b => keyAt s.heap a < keyAt s.heap b)
  short : ∀ i, (ch i).length < s.heap.length
  desc : ∀ i j : Nat, i ≤ j → (j : Int) ≤ s.level → ∀ x ∈ ch j,
    Linked s.heap i x (aboveOf s.heap x (ch i))

/-! ## Chains of forward links -/

theorem nextAt_eq_some {heap : List (SkipNode K V)} {i a : Nat} {p : Option Nat} :
    nextAt heap i a = some p ↔ ∃ n, heap[a]? = some n ∧ n.Forward[i]? = some p := by
  unfold nextAt
  cases h : heap[a]? <;> simp

theorem deref_idx_of_nextAt {heap : List (SkipNode K V)} {i a : Nat} {p : Option Nat}
    (h : nextAt heap i a = some p) :
    ∃ n, deref heap a = .ok n ∧ idx n.Forward i = .ok p ∧ heap[a]? = some n := by
  obtain ⟨n, h1, h2⟩ := nextAt_eq_some.1 h
  exact ⟨n, by simp [deref, h1], by simp [idx, h2], h1⟩

theorem Linked.head_some {heap : List (SkipNode K V)} {i x : Nat} {l : List Nat}
    (h : Linked heap i x l) : ∃ p, nextAt heap i x = some p := by
  cases l with
  | nil => exact ⟨_, h⟩
  | cons b l => exact ⟨_, h.1⟩

theorem keyAt_of_get [Inhabited K] {heap : List (SkipNode K V)} {a : Nat} {n : SkipNode K V}
    (h : heap[a]? = some n) : keyAt heap a = n.Key := by
  simp [keyAt, h]


theorem Linked.congr {h h' : List (SkipNode K V)} {i : Nat} :
    ∀ {l : List Nat} {x : Nat}, (∀ a ∈ x :: l, nextAt h' i a = nextAt h i a) →
      Linked h i x l → Linked h' i x l := by
  intro l
  induction l with
  | nil =>
    intro x hc hl
    simp only [Linked] at hl ⊢
    rw [hc x (by simp)]; exact hl
  | cons b l ih =>
    intro x hc hl
    refine ⟨?_, ih (fun a ha => hc a (List.mem_cons_of_mem _ ha)) hl.2⟩
    rw [hc x (by simp)]; exact hl.1

theorem nextAt_lt_length {h : List (SkipNode K V)} {i a : Nat} {p : Option Nat}
    (hn : nextAt h i a = some p) : a < h.length := by
  obtain ⟨n, h1, -⟩ := nextAt_eq_some.1 hn
  exact (List.getElem?_eq_some.1 h1).1

theorem Linked.lt_length {h : List (SkipNode K V)} {i : Nat} :
    ∀ {l : List Nat} {x : Nat}, Linked h i x l → ∀ a ∈ x :: l, a < h.length := by
  intro l
  induction l with
  | nil =>
    intro x hl a ha
    simp at ha; subst ha
    exact nextAt_lt_length hl
  | cons b l ih =>
    intro x hl a ha
    rcases List.mem_cons.1 ha with rfl | ha
    · exact nextAt_lt_length hl.1
    · exact ih hl.2 a ha

theorem Linked.suffix {h : List (SkipNode K V)} {i : Nat} {y : Nat} {suf : List Nat} :
    ∀ {pre : List Nat} {x : Nat}, Linked h i x (pre ++ y :: suf) → Linked h i y suf := by
  intro pre
  induction pre with
  | nil => intro x hl; exact hl.2
  | cons b pre ih => intro x hl; exact ih hl.2

theorem lastBelow_append {P : Nat → Bool} {y : Nat} {suf : List Nat} :
    ∀ {pre : List Nat} {x : Nat}, (∀ a ∈ pre, P a = true) → P y = true →
      lastBelow P x (pre ++ y :: suf) = lastBelow P y suf := by
  intro pre
  induction pre with
  | nil => intro x _ hy; simp [lastBelow, hy]
  | cons b pre ih =>
    intro x hp hy
    have hb : P b = true := hp b (by simp)
    simp only [List.cons_append, lastBelow, hb, if_true]
    exact ih (fun a ha => hp a (List.mem_cons_of_mem _ ha)) hy

theorem lastBelow_mem {P : Nat → Bool} :
    ∀ (l : List Nat) (x : Nat), lastBelow P x l = x ∨
      (lastBelow P x l ∈ l ∧ P (lastBelow P x l) = true) := by
  intro l
  induction l with
  | nil => intro x; simp [lastBelow]
  | cons b l ih =>
    intro x
    by_cases hb : P b = true
    · simp only [lastBelow, hb, if_true]
      rcases ih b with h | ⟨h1, h2⟩
      · right; rw [h]; exact ⟨by simp, hb⟩
      · right; exact ⟨List.mem_cons_of_mem _ h1, h2⟩
    · simp [lastBelow, hb]

theorem Linked.lastBelow_linked {h : List (SkipNode K V)} {i : Nat} {P : Nat → Bool} :
    ∀ {l : List Nat} {x : Nat}, Linked h i x l →
      Linked h i (lastBelow P x l) (l.dropWhile P) := by
  intro l
  induction l with
  | nil => intro x hl; simpa [lastBelow] using hl
  | cons b l ih =>
    intro x hl
    by_cases hb : P b = true
    · simp only [lastBelow, hb, if_true, List.dropWhile_cons_of_pos]
      exact ih hl.2
    · simp only [lastBelow, hb, if_false]
      rw [List.dropWhile_cons_of_neg hb]
      exact hl

theorem Linked.nextAt_head {h : List (SkipNode K V)} {i x : Nat} {l : List Nat}
    (hl : Linked h i x l) : nextAt h i x = some l.head? := by
  cases l with
  | nil => exact hl
  | cons b l => exact hl.1

section Ordered
variable [LinearOrder K] [Inhabited K]

theorem advance_spec (heap : List (SkipNode K V)) (key : K) (i : Nat) :
    ∀ (l : List Nat) (x fuel : Nat), Linked heap i x l → l.length < fuel →
      advance heap key i fuel x = .ok (lastBelow (below heap key) x l) := by
  intro l
  induction l with
  | nil =>
    intro x fuel hl hf
    obtain ⟨n, h1, h2, -⟩ := deref_idx_of_nextAt hl
    obtain ⟨f, rfl⟩ : ∃ f, fuel = f + 1 := ⟨fuel - 1, by simp at hf; omega⟩
    simp [advance, h1, h2, lastBelow, bind, Except.bind, pure, Except.pure]
  | cons b l ih =>
    intro x fuel hl hf
    obtain ⟨n, h1, h2, -⟩ := deref_idx_of_nextAt hl.1
    obtain ⟨pb, hpb⟩ := hl.2.head_some
    obtain ⟨m, h3, -, h5⟩ := deref_idx_of_nextAt hpb
    obtain ⟨f, rfl⟩ : ∃ f, fuel = f + 1 := ⟨fuel - 1, by simp at hf; omega⟩
    have hk : keyAt heap b = m.Key := keyAt_of_get h5
    simp only [advance, h1, h2, h3, lastBelow, bind, Except.bind, pure, Except.pure, below, hk]
    by_cases hlt : m.Key < key
    · simp only [hlt, if_true, decide_True]
      have := ih b f hl.2 (by simp at hf; omega)
      simpa [below] using this
    · simp [hlt]

/-! ## Lists built by insertions: the search on a well-formed list -/

theorem WF.sub_zero {s : SkipList K V} {ch : Nat → List Nat} (hwf : WF s ch) :
    ∀ i, (ch i).Sublist (ch 0) := by
  intro i
  induction i with
  | zero => exact List.Sublist.refl _
  | succ i ih => exact (hwf.sub i).trans ih

theorem WF.length_lt {s : SkipList K V} {ch : Nat → List Nat} (hwf : WF s ch) (i : Nat) :
    (ch i).length < s.heap.length := by
  have := (hwf.sub_zero i).length_le
  have := hwf.heaplen
  omega

theorem WF.linked' {s : SkipList K V} {ch : Nat → List Nat} (hwf : WF s ch) (i : Nat)
    (hi : (i : Int) ≤ max s.level 0) : Linked s.heap i 0 (ch i) := by
  by_cases h : (i : Int) ≤ s.level
  · exact hwf.linked i h
  · have h0 : i = 0 := by
      rcases le_max_iff.1 hi with h' | h'
      · exact absurd h' h
      · omega
    subst h0
    exact hwf.linked0

/-- One level of the descent: started on the node where the level above
stopped, the inner loop stops on the last node of level `i` below `key`. -/
theorem WF.advance_level {s : SkipList K V} {ch : Nat → List Nat} (hwf : WF s ch) (key : K)
    (i x : Nat) (hi : (i : Int) ≤ max s.level 0)
    (hx : x = 0 ∨ (x ∈ ch (i + 1) ∧ below s.heap key x = true)) :
    advance s.heap key i s.heap.length x = .ok (lastBelow (below s.heap key) 0 (ch i)) := by
  have hl := hwf.linked' i hi
  rcases hx with rfl | ⟨hx, hp⟩
  · exact advance_spec s.heap key i (ch i) 0 _ hl (hwf.length_lt i)
  · have hxi : x ∈ ch i := (hwf.sub i).subset hx
    obtain ⟨pre, suf, hsplit⟩ := List.append_of_mem hxi
    have hs := hwf.sorted i
    rw [hsplit] at hl hs
    have hpre : ∀ a ∈ pre, below s.heap key a = true := by
      intro a ha
      have h1 : keyAt s.heap a < keyAt s.heap x :=
        (List.pairwise_append.1 hs).2.2 a ha x (by simp)
      have h2 : keyAt s.heap x < key := by simpa [below] using hp
      simpa [below] using lt_trans h1 h2
    have hlen : suf.length < s.heap.length := by
      have := hwf.length_lt i
      rw [hsplit] at this
      simp at this
      omega
    rw [advance_spec s.heap key i suf x _ hl.suffix hlen, hsplit, lastBelow_append hpre hp]

theorem WF.findLoop_spec {s : SkipList K V} {ch : Nat → List Nat} (hwf : WF s ch) (key : K) :
    ∀ (n x : Nat), (n : Int) ≤ s.level + 1 →
      (x = 0 ∨ (x ∈ ch n ∧ below s.heap key x = true)) →
      findLoop s.heap key n x =
        .ok (if n = 0 then x else lastBelow (below s.heap key) 0 (ch 0)) := by
  intro n
  induction n with
  | zero => intro x _ _; simp [findLoop, pure, Except.pure]
  | succ i ih =>
    intro x hn hx
    have hi : (i : Int) ≤ max s.level 0 := le_max_of_le_left (by push_cast at hn; omega)
    have hx' := lastBelow_mem (P := below s.heap key) (ch i) 0
    simp only [findLoop, hwf.advance_level key i x hi hx, bind, Except.bind]
    rw [ih _ (by push_cast at hn; omega) hx']
    by_cases h0 : i = 0
    · subst h0; simp
    · simp [h0]

theorem WF.searchLoop_spec {s : SkipList K V} {ch : Nat → List Nat} (hwf : WF s ch) (key : K) :
    ∀ (n x : Nat) (upd : List (Option Nat)), (n : Int) ≤ s.level + 1 → n ≤ upd.length →
      (x = 0 ∨ (x ∈ ch n ∧ below s.heap key x = true)) →
      ∃ upd', searchLoop s.heap key n x upd =
          .ok (if n = 0 then x else lastBelow (below s.heap key) 0 (ch 0), upd') ∧
        upd'.length = upd.length ∧
        ∀ j, upd'[j]? = if j < n then some (some (lastBelow (below s.heap key) 0 (ch j)))
          else upd[j]? := by
  intro n
  induction n with
  | zero => intro x upd _ _ _; exact ⟨upd, by simp [searchLoop, pure, Except.pure]⟩
  | succ i ih =>
    intro x upd hn hlen hx
    have hi : (i : Int) ≤ max s.level 0 := le_max_of_le_left (by push_cast at hn; omega)
    have hx' := lastBelow_mem (P := below s.heap key) (ch i) 0
    have hset : setIdx upd i (some (lastBelow (below s.heap key) 0 (ch i))) =
        .ok (upd.set i (some (lastBelow (below s.heap key) 0 (ch i)))) := by
      simp [setIdx]; omega
    obtain ⟨upd', h1, h2, h3⟩ := ih (lastBelow (below s.heap key) 0 (ch i))
      (upd.set i (some (lastBelow (below s.heap key) 0 (ch i))))
      (by push_cast at hn; omega) (by simp; omega) hx'
    refine ⟨upd', ?_, by simpa using h2, ?_⟩
    · simp only [searchLoop, hwf.advance_level key i x hi hx, bind, Except.bind, hset]
      rw [h1]
      by_cases h0 : i = 0
      · subst h0; simp
      · simp [h0]
    · intro j
      rw [h3 j]
      by_cases hj : j < i
      · simp [hj, Nat.lt_succ_of_lt hj]
      · by_cases hji : j = i
        · subst hji
          simp [List.getElem?_set_self (show j < upd.length by omega)]
        · have : ¬ j < i + 1 := by omega
          simp [hj, this, List.getElem?_set_ne (Ne.symm hji)]

theorem hit_eq_some {heap : List (SkipNode K V)} {key : K} :
    ∀ {l : List Nat}, l.Pairwise (fun a b => keyAt heap a < keyAt heap b) →
      ∀ a, hit heap key l = some a ↔ (a ∈ l ∧ keyAt heap a = key) := by
  intro l
  induction l with
  | nil => intro _ a; simp [hit]
  | cons b l ih =>
    intro hs a
    have hb := (List.pairwise_cons.1 hs).1
    have ih' := ih (List.pairwise_cons.1 hs).2 a
    by_cases hp : keyAt heap b < key
    · have hpb : below heap key b = true := by simp [below, hp]
      have e : hit heap key (b :: l) = hit heap key l := by
        simp [hit, List.dropWhile_cons_of_pos hpb]
      rw [e, ih']
      constructor
      · rintro ⟨h1, h2⟩; exact ⟨List.mem_cons_of_mem _ h1, h2⟩
      · rintro ⟨h1, h2⟩
        rcases List.mem_cons.1 h1 with rfl | h1
        · exact absurd h2 (ne_of_lt hp)
        · exact ⟨h1, h2⟩
    · have hpb : ¬ below heap key b = true := by simp [below, hp]
      have e : hit heap key (b :: l) = if keyAt heap b = key then some b else none := by
        simp [hit, List.dropWhile_cons_of_neg hpb]
      rw [e]
      constructor
      · intro h
        by_cases hk : keyAt heap b = key
        · simp [hk] at h; subst h; exact ⟨by simp, hk⟩
        · simp [hk] at h
      · rintro ⟨h1, h2⟩
        rcases List.mem_cons.1 h1 with rfl | h1
        · simp [h2]
        · exact absurd (h2 ▸ hb a h1) hp

theorem hit_eq_none {heap : List (SkipNode K V)} {key : K} {l : List Nat}
    (hs : l.Pairwise (fun a b => keyAt heap a < keyAt heap b)) :
    hit heap key l = none ↔ ∀ a ∈ l, keyAt heap a ≠ key := by
  constructor
  · intro h a ha hk
    have := (hit_eq_some hs a).2 ⟨ha, hk⟩
    rw [h] at this; cases this
  · intro h
    cases hh : hit heap key l with
    | none => rfl
    | some a => exact absurd ((hit_eq_some hs a).1 hh).2 (h a ((hit_eq_some hs a).1 hh).1)

/-- What the code after the descent computes from the slot `x.Forward[0]`. -/
theorem WF.candidate {s : SkipList K V} {ch : Nat → List Nat} (hwf : WF s ch) (key : K) :
    ∃ n, deref s.heap (lastBelow (below s.heap key) 0 (ch 0)) = .ok n ∧
      idx n.Forward 0 = .ok ((ch 0).dropWhile (below s.heap key)).head? := by
  have h := (hwf.linked0.lastBelow_linked (P := below s.heap key)).nextAt_head
  obtain ⟨n, h1, h2, -⟩ := deref_idx_of_nextAt h
  exact ⟨n, h1, h2⟩

theorem WF.deref_mem {s : SkipList K V} {ch : Nat → List Nat} (hwf : WF s ch) {i a : Nat}
    (ha : a ∈ ch i) : ∃ n, s.heap[a]? = some n ∧ deref s.heap a = .ok n ∧
      keyAt s.heap a = n.Key := by
  have h0 : a ∈ ch 0 := (hwf.sub_zero i).subset ha
  obtain ⟨pre, suf, hsplit⟩ := List.append_of_mem h0
  have hl := hwf.linked0
  rw [hsplit] at hl
  obtain ⟨p, hp⟩ := hl.suffix.head_some
  obtain ⟨n, h1, -, h3⟩ := deref_idx_of_nextAt hp
  exact ⟨n, h3, h1, keyAt_of_get h3⟩

theorem WF.Find_spec {s : SkipList K V} {ch : Nat → List Nat} (hwf : WF s ch) (key : K) :
    Find s key = .ok (hit s.heap key (ch 0)) := by
  have hloop := hwf.findLoop_spec key (s.level + 1).toNat 0
    (by have := hwf.level_ge; omega) (Or.inl rfl)
  obtain ⟨n, h1, h2⟩ := hwf.candidate key
  have hx : (if (s.level + 1).toNat = 0 then 0 else lastBelow (below s.heap key) 0 (ch 0)) =
      lastBelow (below s.heap key) 0 (ch 0) := by
    by_cases h0 : (s.level + 1).toNat = 0
    · have hlev : s.level = -1 := by have := hwf.level_ge; omega
      have : ch 0 = [] := hwf.above 0 (by rw [hlev]; decide)
      simp [h0, this, lastBelow]
    · simp [h0]
  rw [hx] at hloop
  simp only [Find, SkipList.Head, hloop, bind, Except.bind, h1, h2, hit]
  cases hc : ((ch 0).dropWhile (below s.heap key)).head? with
  | none => simp [pure, Except.pure]
  | some a =>
    have ha : a ∈ ch 0 :=
      (List.dropWhile_sublist _).subset (List.mem_of_mem_head? hc)
    obtain ⟨m, -, hm, hk⟩ := hwf.deref_mem ha
    simp only [hm, hk]
    by_cases hkey : m.Key = key <;> simp [hkey, pure, Except.pure]

omit [LinearOrder K] [Inhabited K] in
theorem collect_spec (heap : List (SkipNode K V)) (i : Nat) :
    ∀ (l : List Nat) (x fuel : Nat) (acc : List (SkipNode K V)), Linked heap i x l →
      l.length ≤ fuel → collect heap i fuel l.head? acc = .ok (acc ++ nodesAt heap l) := by
  intro l
  induction l with
  | nil => intro x fuel acc _ _; cases fuel <;> simp [collect, nodesAt, pure, Except.pure]
  | cons b l ih =>
    intro x fuel acc hl hf
    obtain ⟨f, rfl⟩ : ∃ f, fuel = f + 1 := ⟨fuel - 1, by simp at hf; omega⟩
    obtain ⟨n, h1, h2, h3⟩ := deref_idx_of_nextAt hl.2.nextAt_head
    have h4 : index n.Forward (i : Int) = .ok l.head? := by
      simp [index, h2]
    simp only [List.head?_cons, collect, h1, h4, bind, Except.bind]
    rw [ih b f _ hl.2 (by simp at hf; omega)]
    simp [nodesAt, h3]

theorem WF.traverse_spec {s : SkipList K V} {ch : Nat → List Nat} (hwf : WF s ch) (i : Nat)
    (hi : (i : Int) ≤ s.level) : traverse s i = .ok (nodesAt s.heap (ch i)) := by
  have hl := hwf.linked i hi
  obtain ⟨n, h1, h2, -⟩ := deref_idx_of_nextAt hl.nextAt_head
  have h4 : index n.Forward (i : Int) = .ok (ch i).head? := by simp [index, h2]
  have hc := collect_spec s.heap i (ch i) 0 s.heap.length [] hl (le_of_lt (hwf.length_lt i))
  simp only [traverse, not_lt.2 hi, if_false, SkipList.Head, h1, h4, bind, Except.bind, hc,
    List.nil_append, gt_iff_lt]

theorem WF.nodesAt_map_key {s : SkipList K V} {ch : Nat → List Nat} (hwf : WF s ch) (i : Nat) :
    (nodesAt s.heap (ch i)).map (fun n => n.Key) = (ch i).map (keyAt s.heap) := by
  have : ∀ l : List Nat, (∀ a ∈ l, a ∈ ch i) →
      (nodesAt s.heap l).map (fun n => n.Key) = l.map (keyAt s.heap) := by
    intro l
    induction l with
    | nil => intro _; simp [nodesAt]
    | cons b l ih =>
      intro h
      obtain ⟨n, h1, -, h3⟩ := hwf.deref_mem (h b (by simp))
      have := ih (fun a ha => h a (List.mem_cons_of_mem _ ha))
      simp only [nodesAt] at this ⊢
      simp [List.filterMap_cons, h1, h3, this]
  exact this _ (fun _ h => h)

theorem WF.Keys_spec {s : SkipList K V} {ch : Nat → List Nat} (hwf : WF s ch) (i : Nat)
    (hi : (i : Int) ≤ s.level) : Keys s i = .ok ((ch i).map (keyAt s.heap)) := by
  simp only [Keys, hwf.traverse_spec i hi, bind, Except.bind, pure, Except.pure,
    hwf.nodesAt_map_key]

/-! ## Lists built by insertions: `Insert` keeps the list well-formed -/

omit [LinearOrder K] [Inhabited K] in
/-- Effect on the links of overwriting the node at `a`. -/
theorem nextAt_set {heap : List (SkipNode K V)} {a : Nat} {n : SkipNode K V} (j b : Nat)
    (ha : a < heap.length) :
    nextAt (heap.set a n) j b = if b = a then n.Forward[j]? else nextAt heap j b := by
  unfold nextAt
  by_cases hb : b = a
  · subst hb; simp [List.getElem?_set_self ha]
  · simp [hb, List.getElem?_set_ne (Ne.symm hb)]

omit [LinearOrder K] in
theorem keyAt_set {heap : List (SkipNode K V)} {a : Nat} {n m : SkipNode K V}
    (ha : heap[a]? = some m) (hk : n.Key = m.Key) (b : Nat) :
    keyAt (heap.set a n) b = keyAt heap b := by
  unfold keyAt
  have hlt := (List.getElem?_eq_some.1 ha).1
  by_cases hb : b = a
  · subst hb; simp [List.getElem?_set_self hlt, ha, hk]
  · simp [List.getElem?_set_ne (Ne.symm hb)]

omit [LinearOrder K] [Inhabited K] in
theorem valAt_set {heap : List (SkipNode K V)} {a : Nat} {n : SkipNode K V} (b : Nat)
    (ha : a < heap.length) :
    valAt (heap.set a n) b = if b = a then some n.Value else valAt heap b := by
  unfold valAt
  by_cases hb : b = a
  · subst hb; simp [List.getElem?_set_self ha]
  · simp [hb, List.getElem?_set_ne (Ne.symm hb)]

omit [LinearOrder K] [Inhabited K] in
theorem nextAt_append {heap : List (SkipNode K V)} {n : SkipNode K V} (j b : Nat) :
    nextAt (heap ++ [n]) j b =
      if b = heap.length then n.Forward[j]? else nextAt heap j b := by
  unfold nextAt
  by_cases hb : b = heap.length
  · subst hb; simp
  · rcases Nat.lt_or_gt_of_ne hb with h | h
    · simp [hb, List.getElem?_append_left h]
    · have h1 : heap[b]? = none := List.getElem?_eq_none (le_of_lt h)
      have h2 : (heap ++ [n])[b]? = none := List.getElem?_eq_none (by simp; omega)
      simp [hb, h1, h2]

omit [LinearOrder K] in
theorem keyAt_append {heap : List (SkipNode K V)} {n : SkipNode K V} {b : Nat}
    (hb : b < heap.length) : keyAt (heap ++ [n]) b = keyAt heap b := by
  unfold keyAt
  rw [List.getElem?_append_left hb]

omit [LinearOrder K] in
theorem keyAt_append_new {heap : List (SkipNode K V)} {n : SkipNode K V} :
    keyAt (heap ++ [n]) heap.length = n.Key := by
  unfold keyAt
  simp

omit [LinearOrder K] [Inhabited K] in
theorem valAt_append {heap : List (SkipNode K V)} {n : SkipNode K V} (b : Nat) :
    valAt (heap ++ [n]) b = if b = heap.length then some n.Value else valAt heap b := by
  unfold valAt
  by_cases hb : b = heap.length
  · subst hb; simp
  · rcases Nat.lt_or_gt_of_ne hb with h | h
    · simp [hb, List.getElem?_append_left h]
    · have h1 : heap[b]? = none := List.getElem?_eq_none (le_of_lt h)
      have h2 : (heap ++ [n])[b]? = none := List.getElem?_eq_none (by simp; omega)
      simp [hb, h1, h2]

omit [LinearOrder K] [Inhabited K] in
theorem goCopy_grow {α : Type} (src : List α) (n : Nat) (d : α) (h : src.length ≤ n) :
    goCopy (List.replicate n d) src = src ++ List.replicate (n - src.length) d := by
  simp [goCopy, List.take_of_length_le h]

/-- The head with its forward slice grown to `nl + 1` slots keeps a
well-formed list well-formed, with the same chains: the new levels are
empty. -/
theorem WF.grow_head {s : SkipList K V} {ch : Nat → List Nat} (hwf : WF s ch)
    (nl : Nat) (hnl : s.level < (nl : Int)) (hd hd' : SkipNode K V) (hhd : s.heap[0]? = some hd)
    (hK : hd'.Key = hd.Key) (hV : hd'.Value = hd.Value)
    (hF : hd'.Forward = hd.Forward ++ List.replicate (nl + 1 - hd.Forward.length) none) :
    WF { heap := s.heap.set 0 hd', level := nl, size := s.size } ch ∧
      (∀ a, keyAt (s.heap.set 0 hd') a = keyAt s.heap a) ∧
      (∀ a, valAt (s.heap.set 0 hd') a = valAt s.heap a) := by
  obtain ⟨hd0, hhd0, hlen⟩ := hwf.headlen
  have : hd0 = hd := by rw [hhd] at hhd0; exact (Option.some.inj hhd0).symm
  subst this
  have hlev := hwf.level_ge
  have h0lt : 0 < s.heap.length := (List.getElem?_eq_some.1 hhd).1
  have hnext : ∀ j b, nextAt (s.heap.set 0 hd') j b =
      if b = 0 ∧ hd0.Forward.length ≤ j then (if j < nl + 1 then some none else none)
      else nextAt s.heap j b := by
    intro j b
    rw [nextAt_set j b h0lt, hF]
    by_cases hb : b = 0
    · subst hb
      by_cases hj : hd0.Forward.length ≤ j
      · simp only [hj, and_self, if_true, List.getElem?_append_right hj]
        rw [List.getElem?_replicate]
        by_cases hj2 : j < nl + 1
        · simp [hj2]; omega
        · simp [hj2]; omega
      · have hj' : j < hd0.Forward.length := by omega
        simp [hj, List.getElem?_append_left hj', nextAt, hhd]
    · simp [hb]
  have hkey : ∀ a, keyAt (s.heap.set 0 hd') a = keyAt s.heap a :=
    fun a => keyAt_set hhd hK a
  have hlink : ∀ i : Nat, (i : Int) ≤ max s.level 0 →
      Linked (s.heap.set 0 hd') i 0 (ch i) := by
    intro i hi
    refine Linked.congr ?_ (hwf.linked' i hi)
    intro a _
    rw [hnext i a]
    have : ¬ hd0.Forward.length ≤ i := by
      have h1 : (i : Int) < hd0.Forward.length := by
        rw [hlen]
        rcases le_max_iff.1 hi with h | h
        · exact lt_max_of_lt_right (by omega)
        · exact lt_max_of_lt_left (by omega)
      have : i < hd0.Forward.length := by exact_mod_cast h1
      omega
    simp [this]
  refine ⟨?_, hkey, ?_⟩
  · constructor
    · show (-1 : Int) ≤ nl
      omega
    · intro i hi
      by_cases h : (i : Int) ≤ max s.level 0
      · exact hlink i h
      · have hlt : s.level < (i : Int) := by
          by_contra hc
          exact h (le_max_of_le_left (not_lt.1 hc))
        have h0 : (0 : Int) < i := by
          by_contra hc
          exact h (le_max_of_le_right (not_lt.1 hc))
        rw [hwf.above i hlt]
        show nextAt _ i 0 = some none
        rw [hnext i 0]
        have h1 : hd0.Forward.length ≤ i := by
          have : (hd0.Forward.length : Int) ≤ i := by
            rw [hlen]; exact max_le (by omega) (by omega)
          exact_mod_cast this
        have h2 : i < nl + 1 := by
          have : (i : Int) ≤ nl := hi
          omega
        simp [h1, h2]
    · exact hlink 0 (le_max_of_le_right (by simp))
    · intro i hi
      exact hwf.above i (lt_trans hnl hi)
    · refine ⟨hd', ?_, ?_⟩
      · show (s.heap.set 0 _)[0]? = _
        rw [List.getElem?_set_self h0lt]
      · show ((hd'.Forward).length : Int) = max 1 ((nl : Int) + 1)
        have hdlen : (hd0.Forward.length : Int) ≤ nl + 1 := by
          rw [hlen]; exact max_le (by omega) (by omega)
        rw [max_eq_right (by omega), hF]
        simp
        omega
    · intro i
      refine (hwf.sorted i).imp ?_
      intro a b hab
      show keyAt (s.heap.set 0 _) a < keyAt (s.heap.set 0 _) b
      rw [hkey a, hkey b]; exact hab
    · exact hwf.sub
    · exact hwf.nohead
    · show (s.heap.set 0 _).length = _
      rw [List.length_set]; exact hwf.heaplen
    · exact hwf.size
  · intro a
    rw [valAt_set a h0lt]
    by_cases ha : a = 0
    · subst ha; simp [valAt, hhd, hV]
    · simp [ha]

/-- Go `adjusthead` on a well-formed list. -/
theorem WF.adjusthead_spec {s : SkipList K V} {ch : Nat → List Nat} (hwf : WF s ch)
    (nl : Nat) (hnl : s.level < (nl : Int)) :
    ∃ s1, adjusthead s nl = .ok s1 ∧ WF s1 ch ∧ s1.level = nl ∧ s1.size = s.size ∧
      s1.heap.length = s.heap.length ∧ (∀ a, keyAt s1.heap a = keyAt s.heap a) ∧
      (∀ a, valAt s1.heap a = valAt s.heap a) := by
  obtain ⟨hd, hhd, hlen⟩ := hwf.headlen
  have hlev := hwf.level_ge
  have hdlen : hd.Forward.length ≤ nl + 1 := by
    have : (hd.Forward.length : Int) ≤ nl + 1 := by
      rw [hlen]; exact max_le (by omega) (by omega)
    exact_mod_cast this
  have hcopy : goCopy (List.replicate ((nl : Int) + 1).toNat none) hd.Forward =
      hd.Forward ++ List.replicate (nl + 1 - hd.Forward.length) none := by
    have : ((nl : Int) + 1).toNat = nl + 1 := by omega
    rw [this]; exact goCopy_grow _ _ _ hdlen
  obtain ⟨h1, h2, h3⟩ := hwf.grow_head nl hnl hd
    { hd with Forward := goCopy (List.replicate ((nl : Int) + 1).toNat none) hd.Forward }
    hhd rfl rfl hcopy
  refine ⟨_, ?_, h1, rfl, rfl, by simp, h2, h3⟩
  simp [adjusthead, SkipList.Head, deref, hhd, bind, Except.bind, pure, Except.pure]

omit [LinearOrder K] [Inhabited K] in
/-- Splicing the new node `N` after the node `u` on which the search
stopped turns the chain `l` into `insAt P N l`. -/
theorem Linked.splice {h h' : List (SkipNode K V)} {i N u : Nat} {P : Nat → Bool} :
    ∀ {l : List Nat} {x : Nat}, Linked h i x l → (x :: l).Nodup → N ∉ x :: l →
      u = lastBelow P x l → (∀ a, a ≠ u → a ≠ N → nextAt h' i a = nextAt h i a) →
      nextAt h' i u = some (some N) → nextAt h' i N = nextAt h i u →
      Linked h' i x (insAt P N l) := by
  intro l
  induction l with
  | nil =>
    intro x hl _ _ hu _ h2 h3
    simp only [lastBelow] at hu
    subst hu
    simp only [Linked] at hl
    refine ⟨h2, ?_⟩
    show nextAt h' i N = some none
    rw [h3]; exact hl
  | cons b l ih =>
    intro x hl hnd hN hu h1 h2 h3
    have hxb : x ∉ b :: l := (List.nodup_cons.1 hnd).1
    have hNx : x ≠ N := fun e => hN (by simp [e])
    by_cases hb : P b = true
    · simp only [lastBelow, hb, if_true] at hu
      have hux : x ≠ u := by
        intro e
        rcases lastBelow_mem (P := P) l b with h | ⟨h, -⟩
        · exact hxb (by rw [e, hu, h]; simp)
        · exact hxb (by rw [e, hu]; exact List.mem_cons_of_mem _ h)
      have e : insAt P N (b :: l) = b :: insAt P N l := by
        simp [insAt, List.takeWhile_cons_of_pos hb, List.dropWhile_cons_of_pos hb]
      rw [e]
      refine ⟨by rw [h1 x hux hNx]; exact hl.1, ?_⟩
      exact ih hl.2 (List.nodup_cons.1 hnd).2 (fun hm => hN (List.mem_cons_of_mem _ hm)) hu
        h1 h2 h3
    · simp only [lastBelow, hb, if_false] at hu
      subst hu
      have e : insAt P N (b :: l) = N :: b :: l := by
        simp [insAt, List.takeWhile_cons_of_neg hb, List.dropWhile_cons_of_neg hb]
      rw [e]
      refine ⟨h2, by rw [h3]; exact hl.1, ?_⟩
      refine Linked.congr ?_ hl.2
      intro a ha
      exact h1 a (fun e => hxb (e ▸ ha)) (fun e => hN (List.mem_cons_of_mem _ (e ▸ ha)))

omit [LinearOrder K] [Inhabited K] in
theorem takeWhile_eq_filter_of_pairwise {R : Nat → Nat → Prop} {P : Nat → Bool}
    (hmono : ∀ a b, R a b → P b = true → P a = true) :
    ∀ {l : List Nat}, l.Pairwise R → l.takeWhile P = l.filter P ∧
      l.dropWhile P = l.filter (fun a => !P a) := by
  intro l
  induction l with
  | nil => intro _; simp
  | cons b l ih =>
    intro hs
    obtain ⟨hb, hs'⟩ := List.pairwise_cons.1 hs
    obtain ⟨ih1, ih2⟩ := ih hs'
    by_cases hp : P b = true
    · simp [List.takeWhile_cons_of_pos hp, List.dropWhile_cons_of_pos hp, hp, ih1, ih2]
    · have hall : ∀ c ∈ l, ¬ P c = true := fun c hc hpc => hp (hmono b c (hb c hc) hpc)
      have e1 : l.filter P = [] := List.filter_eq_nil_iff.2 hall
      have e2 : l.filter (fun a => !P a) = l :=
        List.filter_eq_self.2 (fun c hc => by simpa using hall c hc)
      simp [List.takeWhile_cons_of_neg hp, List.dropWhile_cons_of_neg hp, hp, e1, e2]

theorem below_mono (heap : List (SkipNode K V)) (key : K) :
    ∀ a b, keyAt heap a < keyAt heap b → below heap key b = true → below heap key a = true := by
  intro a b hab hb
  have : keyAt heap b < key := by simpa [below] using hb
  simpa [below] using lt_trans hab this

/-- The chain with the new node is sorted for the keys of the new heap. -/
theorem insAt_sorted {heap heap' : List (SkipNode K V)} {key : K} {N : Nat} {l : List Nat}
    (hs : l.Pairwise (fun a b => keyAt heap a < keyAt heap b))
    (hk : ∀ a ∈ l, keyAt heap' a = keyAt heap a) (hN : keyAt heap' N = key)
    (hne : ∀ a ∈ l, keyAt heap a ≠ key) :
    (insAt (below heap key) N l).Pairwise (fun a b => keyAt heap' a < keyAt heap' b) := by
  obtain ⟨e1, e2⟩ := takeWhile_eq_filter_of_pairwise (below_mono heap key) hs
  have hs' : l.Pairwise (fun a b => keyAt heap' a < keyAt heap' b) := by
    refine hs.imp_of_mem ?_
    intro a b ha hb hab
    rw [hk a ha, hk b hb]; exact hab
  have hsplit : l.takeWhile (below heap key) ++ l.dropWhile (below heap key) = l :=
    List.takeWhile_append_dropWhile _ _
  rw [← hsplit] at hs'
  obtain ⟨p1, p2, p3⟩ := List.pairwise_append.1 hs'
  unfold insAt
  refine List.pairwise_append.2 ⟨p1, List.pairwise_cons.2 ⟨?_, p2⟩, ?_⟩
  · intro c hc
    rw [e2] at hc
    obtain ⟨hcl, hcp⟩ := List.mem_filter.1 hc
    have h1 : ¬ keyAt heap c < key := by simpa [below] using hcp
    rw [hN, hk c hcl]
    exact lt_of_le_of_ne (not_lt.1 h1) (Ne.symm (hne c hcl))
  · intro a ha b hb
    rcases List.mem_cons.1 hb with rfl | hb
    · rw [e1] at ha
      obtain ⟨hal, hap⟩ := List.mem_filter.1 ha
      rw [hN, hk a hal]
      simpa [below] using hap
    · exact p3 a ha b hb

omit [LinearOrder K] [Inhabited K] in
theorem insAt_sublist {R : Nat → Nat → Prop} {P : Nat → Bool}
    (hmono : ∀ a b, R a b → P b = true → P a = true) {l1 l0 : List Nat} (N : Nat)
    (h0 : l0.Pairwise R) (hsub : l1.Sublist l0) : (insAt P N l1).Sublist (insAt P N l0) := by
  obtain ⟨a1, a2⟩ := takeWhile_eq_filter_of_pairwise hmono h0
  obtain ⟨b1, b2⟩ := takeWhile_eq_filter_of_pairwise hmono (h0.sublist hsub)
  unfold insAt
  rw [a1, a2, b1, b2]
  exact (hsub.filter _).append ((hsub.filter _).cons₂ N)

omit [LinearOrder K] [Inhabited K] in
theorem sublist_insAt (P : Nat → Bool) (N : Nat) (l : List Nat) : l.Sublist (insAt P N l) := by
  unfold insAt
  conv_lhs => rw [← List.takeWhile_append_dropWhile P l]
  exact (List.Sublist.refl _).append (List.sublist_cons_self _ _)

omit [LinearOrder K] [Inhabited K] in
theorem mem_insAt {P : Nat → Bool} {N a : Nat} {l : List Nat} :
    a ∈ insAt P N l ↔ a = N ∨ a ∈ l := by
  unfold insAt
  rw [List.mem_append, List.mem_cons]
  conv_rhs => rw [← List.takeWhile_append_dropWhile P l, List.mem_append]
  tauto

omit [LinearOrder K] [Inhabited K] in
theorem length_insAt (P : Nat → Bool) (N : Nat) (l : List Nat) :
    (insAt P N l).length = l.length + 1 := by
  unfold insAt
  have := congrArg List.length (List.takeWhile_append_dropWhile P l)
  rw [List.length_append] at this
  rw [List.length_append, List.length_cons]
  omega

omit [LinearOrder K] [Inhabited K] in
/-- Effect of the assignment `a.Forward[i] = p` on the heap. -/
theorem setFwd_facts {h : List (SkipNode K V)} {a i : Nat} {p : Option Nat}
    {n : SkipNode K V} (n' : SkipNode K V) (hn : h[a]? = some n) (hi : i < n.Forward.length)
    (hK : n'.Key = n.Key) (hV : n'.Value = n.Value) (hF : n'.Forward = n.Forward.set i p) :
    (∀ j b, nextAt (h.set a n') j b = if b = a ∧ j = i then some p else nextAt h j b) ∧
      (∀ b, shapeAt (h.set a n') b = shapeAt h b) ∧ (h.set a n').length = h.length ∧
      (∀ b, b ≠ a → (h.set a n')[b]? = h[b]?) := by
  have ha : a < h.length := (List.getElem?_eq_some.1 hn).1
  refine ⟨?_, ?_, by simp, ?_⟩
  · intro j b
    rw [nextAt_set j b ha, hF]
    by_cases hb : b = a
    · subst hb
      by_cases hj : j = i
      · subst hj; simp [List.getElem?_set_self hi]
      · simp [hj, List.getElem?_set_ne (Ne.symm hj), nextAt, hn]
    · simp [hb]
  · intro b
    unfold shapeAt
    by_cases hb : b = a
    · subst hb; simp [List.getElem?_set_self ha, hn, hK, hV, hF]
    · simp [List.getElem?_set_ne (Ne.symm hb)]
  · intro b hb
    exact List.getElem?_set_ne (Ne.symm hb)

theorem WF.nodup_path {s : SkipList K V} {ch : Nat → List Nat} (hwf : WF s ch) (i : Nat) :
    (0 :: ch i).Nodup := by
  refine List.nodup_cons.2 ⟨fun h => hwf.nohead ((hwf.sub_zero i).subset h), ?_⟩
  refine (hwf.sorted i).imp ?_
  intro a b hab e
  rw [e] at hab
  exact lt_irrefl _ hab

theorem WF.lt_heap {s : SkipList K V} {ch : Nat → List Nat} (hwf : WF s ch) (i : Nat) :
    ∀ a ∈ 0 :: ch i, a < s.heap.length := by
  intro a ha
  have : a ∈ 0 :: ch 0 := by
    rcases List.mem_cons.1 ha with h | h
    · simp [h]
    · exact List.mem_cons_of_mem _ ((hwf.sub_zero i).subset h)
  exact hwf.linked0.lt_length a this

omit [LinearOrder K] [Inhabited K] in
theorem shapeAt_eq_some {h : List (SkipNode K V)} {a : Nat} {n : SkipNode K V}
    (hn : h[a]? = some n) : shapeAt h a = some (n.Key, n.Value, n.Forward.length) := by
  simp [shapeAt, hn]

/-- The splice loop of `Insert` on a well-formed list, for a key that is
not yet there: level `j ≤ nl` gets the new node at its sorted place, the
levels above are untouched. -/
theorem WF.spliceLoop_spec {s : SkipList K V} {ch : Nat → List Nat} (hwf : WF s ch)
    (key : K) (value : V) (nl : Nat) (hnl : (nl : Int) ≤ s.level) (upd : List (Option Nat))
    (hupd : ∀ j, j ≤ nl → upd[j]? = some (some (lastBelow (below s.heap key) 0 (ch j)))) :
    ∀ (r i : Nat) (h : List (SkipNode K V)), r + i = nl + 1 →
      h.length = s.heap.length + 1 →
      (∀ a, shapeAt h a = shapeAt (s.heap ++ [NewSkipNode key value nl]) a) →
      (∀ j a, i ≤ j → nextAt h j a = nextAt (s.heap ++ [NewSkipNode key value nl]) j a) →
      (∀ j, j < i → Linked h j 0 (insAt (below s.heap key) s.heap.length (ch j))) →
      ∃ h', spliceLoop s.heap.length upd r i h = .ok h' ∧
        h'.length = s.heap.length + 1 ∧
        (∀ a, shapeAt h' a = shapeAt (s.heap ++ [NewSkipNode key value nl]) a) ∧
        (∀ j a, nl + 1 ≤ j →
          nextAt h' j a = nextAt (s.heap ++ [NewSkipNode key value nl]) j a) ∧
        (∀ j, j < nl + 1 → Linked h' j 0 (insAt (below s.heap key) s.heap.length (ch j))) := by
  intro r
  induction r with
  | zero =>
    intro i h hri hlen hshape hnext hlinked
    have hi : i = nl + 1 := by omega
    subst hi
    exact ⟨h, by simp [spliceLoop, pure, Except.pure], hlen, hshape, hnext, hlinked⟩
  | succ r ih =>
    intro i h hri hlen hshape hnext hlinked
    have hile : i ≤ nl := by omega
    have hiL : (i : Int) ≤ s.level := by omega
    -- the predecessor recorded by the search
    have hu := hupd i hile
    have hidx : idx upd i = .ok (some (lastBelow (below s.heap key) 0 (ch i))) := by
      simp [idx, hu]
    have hl0 := hwf.linked i hiL
    have hult : lastBelow (below s.heap key) 0 (ch i) < s.heap.length := by
      apply hwf.lt_heap i
      rcases lastBelow_mem (P := below s.heap key) (ch i) 0 with e | ⟨e, -⟩
      · rw [e]; simp
      · exact List.mem_cons_of_mem _ e
    have hold : ∀ a, a < s.heap.length → nextAt h i a = nextAt s.heap i a := by
      intro a ha
      rw [hnext i a (le_refl _), nextAt_append]
      simp [Nat.ne_of_lt ha]
    have hut := (hl0.lastBelow_linked (P := below s.heap key)).nextAt_head
    rw [← hold _ hult] at hut
    obtain ⟨un, hun1, hun2, hun3⟩ := deref_idx_of_nextAt hut
    -- the new node
    have hnew : nextAt h i s.heap.length = some none := by
      rw [hnext i _ (le_refl _), nextAt_append]
      simp [NewSkipNode, List.getElem?_replicate]
      omega
    obtain ⟨xn, hxn1, hxn2, hxn3⟩ := deref_idx_of_nextAt hnew
    have hxi : i < xn.Forward.length := by
      have : xn.Forward[i]? = some none := by
        have := nextAt_eq_some.1 hnew
        obtain ⟨n, h1, h2⟩ := this
        rw [hxn3] at h1; cases h1; exact h2
      exact (List.getElem?_eq_some.1 this).1
    have hui : i < un.Forward.length := by
      have := nextAt_eq_some.1 hut
      obtain ⟨n, h1, h2⟩ := this
      rw [hun3] at h1; cases h1
      exact (List.getElem?_eq_some.1 h2).1
    have hset1 : setIdx xn.Forward i ((ch i).dropWhile (below s.heap key)).head? =
        .ok (xn.Forward.set i ((ch i).dropWhile (below s.heap key)).head?) := by
      simp [setIdx, hxi]
    obtain ⟨f1, f2, f3, f4⟩ := setFwd_facts (p := ((ch i).dropWhile (below s.heap key)).head?)
      { xn with Forward := xn.Forward.set i ((ch i).dropWhile (below s.heap key)).head? }
      hxn3 hxi rfl rfl rfl
    have hune : lastBelow (below s.heap key) 0 (ch i) ≠ s.heap.length := Nat.ne_of_lt hult
    have hun3' := hun3
    rw [← f4 _ hune] at hun3'
    have hderef1 : deref (h.set s.heap.length
        { xn with Forward := xn.Forward.set i ((ch i).dropWhile (below s.heap key)).head? })
        (lastBelow (below s.heap key) 0 (ch i)) = .ok un := by
      simp only [deref, hun3']
    have hset2 : setIdx un.Forward i (some s.heap.length) =
        .ok (un.Forward.set i (some s.heap.length)) := by
      simp [setIdx, hui]
    obtain ⟨g1, g2, g3, -⟩ := setFwd_facts (p := some s.heap.length)
      { un with Forward := un.Forward.set i (some s.heap.length) }
      hun3' hui rfl rfl rfl
    -- the heap after this iteration
    have hnext2 : ∀ j a, nextAt ((h.set s.heap.length
        { xn with Forward := xn.Forward.set i ((ch i).dropWhile (below s.heap key)).head? }).set
        (lastBelow (below s.heap key) 0 (ch i))
        { un with Forward := un.Forward.set i (some s.heap.length) }) j a =
        if a = lastBelow (below s.heap key) 0 (ch i) ∧ j = i then some (some s.heap.length)
        else if a = s.heap.length ∧ j = i then
          some ((ch i).dropWhile (below s.heap key)).head?
        else nextAt h j a := by
      intro j a
      rw [g1 j a, f1 j a]
    obtain ⟨h', e1, e2, e3, e4, e5⟩ := ih (i + 1) _ (by omega) (by rw [g3, f3, hlen])
      (fun a => by rw [g2 a, f2 a, hshape a])
      (fun j a hj => by
        rw [hnext2 j a, ← hnext j a (by omega)]
        have : j ≠ i := by omega
        simp [this])
      (fun j hj => by
        by_cases hji : j = i
        · subst hji
          have hlh : Linked h j 0 (ch j) :=
            Linked.congr (fun a ha => hold a (hwf.lt_heap j a ha)) hl0
          refine hlh.splice (hwf.nodup_path j)
            (fun hm => Nat.lt_irrefl _ (hwf.lt_heap j _ hm)) rfl ?_ ?_ ?_
          · intro a ha1 ha2
            rw [hnext2 j a]; simp [ha1, ha2]
          · rw [hnext2]; simp
          · rw [hnext2, hut]; simp [hune.symm]
        · have hlt : j < i := by omega
          refine Linked.congr ?_ (hlinked j hlt)
          intro a _
          rw [hnext2 j a]; simp [hji])
    refine ⟨h', ?_, e2, e3, e4, e5⟩
    simp only [spliceLoop, hidx, bind, Except.bind, hun1, hun2, hxn1, hset1, hderef1, hset2]
    exact e1

omit [LinearOrder K] in
theorem keyAt_of_shapeAt {h h' : List (SkipNode K V)} {a : Nat}
    (e : shapeAt h' a = shapeAt h a) : keyAt h' a = keyAt h a := by
  unfold shapeAt at e
  unfold keyAt
  cases h1 : h'[a]? <;> cases h2 : h[a]? <;> simp [h1, h2] at e ⊢
  exact e.1

omit [LinearOrder K] [Inhabited K] in
theorem valAt_of_shapeAt {h h' : List (SkipNode K V)} {a : Nat}
    (e : shapeAt h' a = shapeAt h a) : valAt h' a = valAt h a := by
  unfold shapeAt at e
  unfold valAt
  cases h1 : h'[a]? <;> cases h2 : h[a]? <;> simp [h1, h2] at e ⊢
  exact e.2.1

omit [LinearOrder K] [Inhabited K] in
theorem shapeAt_append {heap : List (SkipNode K V)} {n : SkipNode K V} {b : Nat}
    (hb : b < heap.length) : shapeAt (heap ++ [n]) b = shapeAt heap b := by
  unfold shapeAt
  rw [List.getElem?_append_left hb]

/-- Overwriting the value of a node keeps the list well-formed. -/
theorem WF.set_value {s : SkipList K V} {ch : Nat → List Nat} (hwf : WF s ch) {a : Nat}
    {m m' : SkipNode K V} (hm : s.heap[a]? = some m) (hK : m'.Key = m.Key)
    (hF : m'.Forward = m.Forward) :
    WF { heap := s.heap.set a m', level := s.level, size := s.size } ch := by
  have ha : a < s.heap.length := (List.getElem?_eq_some.1 hm).1
  have hnext : ∀ j b, nextAt (s.heap.set a m') j b = nextAt s.heap j b := by
    intro j b
    rw [nextAt_set j b ha]
    by_cases hb : b = a
    · subst hb; simp [nextAt, hm, hF]
    · simp [hb]
  have hkey : ∀ b, keyAt (s.heap.set a m') b = keyAt s.heap b := fun b => keyAt_set hm hK b
  constructor
  · exact hwf.level_ge
  · intro i hi
    exact Linked.congr (fun b _ => hnext i b) (hwf.linked i hi)
  · exact Linked.congr (fun b _ => hnext 0 b) hwf.linked0
  · exact hwf.above
  · obtain ⟨hd, h1, h2⟩ := hwf.headlen
    by_cases h0 : a = 0
    · subst h0
      rw [hm] at h1; cases h1
      refine ⟨m', ?_, by rw [hF]; exact h2⟩
      show (s.heap.set 0 m')[0]? = _
      rw [List.getElem?_set_self ha]
    · refine ⟨hd, ?_, h2⟩
      show (s.heap.set a m')[0]? = _
      rw [List.getElem?_set_ne h0]; exact h1
  · intro i
    refine (hwf.sorted i).imp ?_
    intro x y hxy
    show keyAt (s.heap.set a m') x < keyAt (s.heap.set a m') y
    rw [hkey, hkey]; exact hxy
  · exact hwf.sub
  · exact hwf.nohead
  · show (s.heap.set a m').length = _
    rw [List.length_set]; exact hwf.heaplen
  · exact hwf.size

/-- The state left by the splice loop is well-formed, with the new node in
the chains of the levels `0 .. nl`. -/
theorem WF.splice_result {s : SkipList K V} {ch : Nat → List Nat} (hwf : WF s ch)
    (key : K) (value : V) (nl : Nat) (hnl : (nl : Int) ≤ s.level)
    (hnone : ∀ a ∈ ch 0, keyAt s.heap a ≠ key) (h' : List (SkipNode K V))
    (hlen : h'.length = s.heap.length + 1)
    (hshape : ∀ a, shapeAt h' a = shapeAt (s.heap ++ [NewSkipNode key value nl]) a)
    (hnext : ∀ j a, nl + 1 ≤ j →
      nextAt h' j a = nextAt (s.heap ++ [NewSkipNode key value nl]) j a)
    (hlinked : ∀ j, j < nl + 1 →
      Linked h' j 0 (insAt (below s.heap key) s.heap.length (ch j))) :
    WF { heap := h', level := s.level, size := s.size + 1 }
      (fun j => if j ≤ nl then insAt (below s.heap key) s.heap.length (ch j) else ch j) := by
  have hkold : ∀ i, ∀ a ∈ ch i, keyAt h' a = keyAt s.heap a := by
    intro i a ha
    rw [keyAt_of_shapeAt (hshape a),
      keyAt_append (hwf.lt_heap i a (List.mem_cons_of_mem _ ha))]
  have hknew : keyAt h' s.heap.length = key := by
    rw [keyAt_of_shapeAt (hshape _), keyAt_append_new]; rfl
  constructor
  · exact hwf.level_ge
  · intro i hi
    show Linked h' i 0 (if i ≤ nl then _ else _)
    by_cases hle : i ≤ nl
    · rw [if_pos hle]; exact hlinked i (by omega)
    · rw [if_neg hle]
      refine Linked.congr ?_ (hwf.linked i hi)
      intro a ha
      rw [hnext i a (by omega), nextAt_append]
      simp [Nat.ne_of_lt (hwf.lt_heap i a ha)]
  · show Linked h' 0 0 (if 0 ≤ nl then _ else _)
    rw [if_pos (Nat.zero_le _)]; exact hlinked 0 (by omega)
  · intro i hi
    show (if i ≤ nl then _ else _) = _
    have : ¬ i ≤ nl := by
      have : s.level < (i : Int) := hi
      omega
    rw [if_neg this]
    exact hwf.above i hi
  · obtain ⟨hd, h1, h2⟩ := hwf.headlen
    have h0 : 0 < s.heap.length := (List.getElem?_eq_some.1 h1).1
    have e := hshape 0
    rw [shapeAt_append h0, shapeAt_eq_some h1] at e
    unfold shapeAt at e
    cases hh : h'[0]? with
    | none => simp [hh] at e
    | some n =>
      simp [hh] at e
      exact ⟨n, rfl, by rw [e.2.2]; exact h2⟩
  · intro i
    show (if i ≤ nl then _ else _ : List Nat).Pairwise _
    by_cases hle : i ≤ nl
    · rw [if_pos hle]
      exact insAt_sorted (hwf.sorted i) (hkold i) hknew
        (fun a ha => hnone a ((hwf.sub_zero i).subset ha))
    · rw [if_neg hle]
      refine (hwf.sorted i).imp_of_mem ?_
      intro a b ha hb hab
      show keyAt h' a < keyAt h' b
      rw [hkold i a ha, hkold i b hb]; exact hab
  · intro i
    show (if i + 1 ≤ nl then _ else _ : List Nat).Sublist (if i ≤ nl then _ else _)
    by_cases h1 : i + 1 ≤ nl
    · rw [if_pos h1, if_pos (by omega)]
      exact insAt_sublist (below_mono s.heap key) _ (hwf.sorted i) (hwf.sub i)
    · rw [if_neg h1]
      by_cases h2 : i ≤ nl
      · rw [if_pos h2]
        exact (hwf.sub i).trans (sublist_insAt _ _ _)
      · rw [if_neg h2]; exact hwf.sub i
  · show 0 ∉ (if 0 ≤ nl then _ else _ : List Nat)
    rw [if_pos (Nat.zero_le _), mem_insAt]
    rintro (h | h)
    · have := hwf.heaplen; omega
    · exact hwf.nohead h
  · show h'.length = (if 0 ≤ nl then _ else _ : List Nat).length + 1
    rw [if_pos (Nat.zero_le _), length_insAt, hlen, hwf.heaplen]
  · show s.size + 1 = ((if 0 ≤ nl then _ else _ : List Nat).length : Int)
    rw [if_pos (Nat.zero_le _), length_insAt, hwf.size]
    push_cast; rfl

omit [Inhabited K] in
theorem Insert_eq (s : SkipList K V) (key : K) (value : V) (nl : Nat) :
    Insert s key value nl =
      (if (nl : Int) > s.level then adjusthead s nl else pure s) >>=
        fun s1 => insertBody s1 key value nl := by
  unfold Insert insertBody
  by_cases h : (nl : Int) > s.level
  · simp only [h, if_true]
  · simp only [h, if_false]

omit [LinearOrder K] in
theorem keyAt_append_eq {heap : List (SkipNode K V)} {n : SkipNode K V} (b : Nat) :
    keyAt (heap ++ [n]) b = if b = heap.length then n.Key else keyAt heap b := by
  by_cases hb : b = heap.length
  · subst hb; simp [keyAt_append_new]
  · rcases Nat.lt_or_gt_of_ne hb with h | h
    · simp [hb, keyAt_append h]
    · have h1 : heap[b]? = none := List.getElem?_eq_none (le_of_lt h)
      have h2 : (heap ++ [n])[b]? = none := List.getElem?_eq_none (by simp; omega)
      simp [hb, keyAt, h1, h2]

/-- Go `Insert` on a well-formed list whose head is tall enough: either the
key is there and only the value of its node changes, or a node is
allocated at the first free address and linked into the levels `0 .. nl`. -/
theorem WF.insertBody_spec {s : SkipList K V} {ch : Nat → List Nat} (hwf : WF s ch)
    (key : K) (value : V) (nl : Nat) (hnl : (nl : Int) ≤ s.level) :
    ∃ s' ch', insertBody s key value nl = .ok s' ∧ WF s' ch' ∧ s'.level = s.level ∧
      ((∃ a, hit s.heap key (ch 0) = some a ∧ ch' = ch ∧ s'.size = s.size ∧
          s'.heap.length = s.heap.length ∧
          (∀ b, keyAt s'.heap b = keyAt s.heap b) ∧
          (∀ b, valAt s'.heap b = if b = a then some value else valAt s.heap b)) ∨
        (hit s.heap key (ch 0) = none ∧
          ch' = (fun j => if j ≤ nl then insAt (below s.heap key) s.heap.length (ch j)
            else ch j) ∧
          s'.size = s.size + 1 ∧ s'.heap.length = s.heap.length + 1 ∧
          (∀ b, keyAt s'.heap b = if b = s.heap.length then key else keyAt s.heap b) ∧
          (∀ b, valAt s'.heap b = if b = s.heap.length then some value
            else valAt s.heap b))) := by
  have hn0 : (s.level + 1).toNat ≠ 0 := by omega
  obtain ⟨upd, hs1, hs2, hs3⟩ := hwf.searchLoop_spec key (s.level + 1).toNat 0
    (List.replicate (s.level + 1).toNat none) (by omega) (by simp) (Or.inl rfl)
  rw [if_neg hn0] at hs1
  obtain ⟨n, hd1, hd2⟩ := hwf.candidate key
  cases hc : ((ch 0).dropWhile (below s.heap key)).head? with
  | none =>
    have hhit : hit s.heap key (ch 0) = none := by simp [hit, hc]
    have hnone := (hit_eq_none (hwf.sorted 0)).1 hhit
    obtain ⟨h', e1, e2, e3, e4, e5⟩ := hwf.spliceLoop_spec key value nl hnl upd
      (fun j hj => by rw [hs3 j]; simp; omega) (nl + 1) 0
      (s.heap ++ [NewSkipNode key value nl]) (by omega) (by simp) (fun _ => rfl)
      (fun _ _ _ => rfl) (fun j hj => absurd hj (Nat.not_lt_zero _))
    refine ⟨⟨h', s.level, s.size + 1⟩, _, ?_,
      hwf.splice_result key value nl hnl hnone h' e2 e3 e4 e5, rfl,
      Or.inr ⟨hhit, rfl, rfl, e2, ?_, ?_⟩⟩
    · simp only [insertBody, SkipList.Head, hs1, bind, Except.bind, hd1, hd2, hc, pure,
        Except.pure, e1]
    · intro b
      show keyAt h' b = _
      rw [keyAt_of_shapeAt (e3 b), keyAt_append_eq]; rfl
    · intro b
      show valAt h' b = _
      rw [valAt_of_shapeAt (e3 b), valAt_append]; rfl
  | some a =>
    have ha : a ∈ ch 0 := (List.dropWhile_sublist _).subset (List.mem_of_mem_head? hc)
    obtain ⟨m, hm1, hm2, hm3⟩ := hwf.deref_mem ha
    by_cases hk : m.Key = key
    · have hhit : hit s.heap key (ch 0) = some a := by simp [hit, hc, hm3, hk]
      have halt : a < s.heap.length := (List.getElem?_eq_some.1 hm1).1
      refine ⟨⟨s.heap.set a ⟨m.Key, value, m.Forward⟩, s.level, s.size⟩, ch, ?_,
        hwf.set_value hm1 rfl rfl, rfl,
        Or.inl ⟨a, hhit, rfl, rfl, by simp, ?_, ?_⟩⟩
      · simp only [insertBody, SkipList.Head, hs1, bind, Except.bind, hd1, hd2, hc, pure,
          Except.pure, hm2, hk, if_true]
      · intro b
        exact keyAt_set (n := ⟨m.Key, value, m.Forward⟩) hm1 rfl b
      · intro b
        show valAt (s.heap.set a _) b = _
        rw [valAt_set b halt]
    · have hhit : hit s.heap key (ch 0) = none := by simp [hit, hc, hm3, hk]
      have hnone := (hit_eq_none (hwf.sorted 0)).1 hhit
      obtain ⟨h', e1, e2, e3, e4, e5⟩ := hwf.spliceLoop_spec key value nl hnl upd
        (fun j hj => by rw [hs3 j]; simp; omega) (nl + 1) 0
        (s.heap ++ [NewSkipNode key value nl]) (by omega) (by simp) (fun _ => rfl)
        (fun _ _ _ => rfl) (fun j hj => absurd hj (Nat.not_lt_zero _))
      refine ⟨⟨h', s.level, s.size + 1⟩, _, ?_,
        hwf.splice_result key value nl hnl hnone h' e2 e3 e4 e5, rfl,
        Or.inr ⟨hhit, rfl, rfl, e2, ?_, ?_⟩⟩
      · simp only [insertBody, SkipList.Head, hs1, bind, Except.bind, hd1, hd2, hc, pure,
          Except.pure, hm2, hk, if_false, e1]
      · intro b
        show keyAt h' b = _
        rw [keyAt_of_shapeAt (e3 b), keyAt_append_eq]; rfl
      · intro b
        show valAt h' b = _
        rw [valAt_of_shapeAt (e3 b), valAt_append]; rfl

theorem below_congr {h h' : List (SkipNode K V)} (e : ∀ a, keyAt h' a = keyAt h a) (key : K) :
    below h' key = below h key := by
  funext a
  simp [below, e a]

theorem hit_congr {h h' : List (SkipNode K V)} (e : ∀ a, keyAt h' a = keyAt h a) (key : K)
    (l : List Nat) : hit h' key l = hit h key l := by
  unfold hit
  rw [below_congr e key]
  cases (l.dropWhile (below h key)).head? with
  | none => rfl
  | some a => simp [e a]

/-- Go `Insert` on a well-formed list. -/
theorem WF.Insert_spec {s : SkipList K V} {ch : Nat → List Nat} (hwf : WF s ch)
    (key : K) (value : V) (nl : Nat) :
    ∃ s' ch', Insert s key value nl = .ok s' ∧ WF s' ch' ∧ s'.level = max s.level nl ∧
      ((∃ a, hit s.heap key (ch 0) = some a ∧ ch' = ch ∧ s'.size = s.size ∧
          s'.heap.length = s.heap.length ∧
          (∀ b, keyAt s'.heap b = keyAt s.heap b) ∧
          (∀ b, valAt s'.heap b = if b = a then some value else valAt s.heap b)) ∨
        (hit s.heap key (ch 0) = none ∧
          ch' = (fun j => if j ≤ nl then insAt (below s.heap key) s.heap.length (ch j)
            else ch j) ∧
          s'.size = s.size + 1 ∧ s'.heap.length = s.heap.length + 1 ∧
          (∀ b, keyAt s'.heap b = if b = s.heap.length then key else keyAt s.heap b) ∧
          (∀ b, valAt s'.heap b = if b = s.heap.length then some value
            else valAt s.heap b))) := by
  rw [Insert_eq]
  by_cases h : (nl : Int) > s.level
  · obtain ⟨s1, a1, a2, a3, a4, a5, a6, a7⟩ := hwf.adjusthead_spec nl h
    obtain ⟨s', ch', b1, b2, b3, b4⟩ := a2.insertBody_spec key value nl (le_of_eq a3.symm)
    refine ⟨s', ch', ?_, b2, ?_, ?_⟩
    · simp only [h, if_true, a1, bind, Except.bind, b1]
    · rw [b3, a3, max_eq_right (le_of_lt h)]
    · rw [hit_congr a6, below_congr a6, a4, a5] at b4
      simpa only [a6, a7] using b4
  · obtain ⟨s', ch', b1, b2, b3, b4⟩ := hwf.insertBody_spec key value nl (not_lt.1 h)
    refine ⟨s', ch', ?_, b2, ?_, b4⟩
    · simp only [h, if_false, pure, Except.pure, bind, Except.bind, b1]
    · rw [b3, max_eq_left (not_lt.1 h)]

/-! ## Lists built by insertions: the finite map they represent -/

theorem WF.key_inj {s : SkipList K V} {ch : Nat → List Nat} (hwf : WF s ch) {i a b : Nat}
    (ha : a ∈ ch i) (hb : b ∈ ch i) (e : keyAt s.heap a = keyAt s.heap b) : a = b := by
  by_contra hne
  have hp : (ch i).Pairwise (fun x y => keyAt s.heap x ≠ keyAt s.heap y) :=
    (hwf.sorted i).imp (fun h => ne_of_lt h)
  exact hp.forall (fun x y hxy => hxy.symm) ha hb hne e

theorem WF.valAt_mem {s : SkipList K V} {ch : Nat → List Nat} (hwf : WF s ch) {i a : Nat}
    (ha : a ∈ ch i) : ∃ v, valAt s.heap a = some v := by
  obtain ⟨n, h1, -, -⟩ := hwf.deref_mem ha
  exact ⟨n.Value, by simp [valAt, h1]⟩

/-- One insertion overwrites the binding of its key in the represented map. -/
theorem Rep_Insert {s : SkipList K V} {m : K → Option V} (hrep : Rep s m)
    (key : K) (value : V) (nl : Nat) :
    ∃ s', Insert s key value nl = .ok s' ∧ Rep s' (Function.update m key (some value)) ∧
      s'.level = max s.level nl := by
  obtain ⟨ch, hwf, hm⟩ := hrep
  obtain ⟨s', ch', h1, h2, h3, h4⟩ := hwf.Insert_spec key value nl
  refine ⟨s', h1, ⟨ch', h2, ?_⟩, h3⟩
  intro k v
  rcases h4 with ⟨a, c1, c2, -, -, c5, c6⟩ | ⟨c1, c2, -, -, c5, c6⟩
  · obtain ⟨ha, hka⟩ := (hit_eq_some (hwf.sorted 0) a).1 c1
    subst c2
    by_cases hk : k = key
    · subst hk
      simp only [Function.update_same, Option.some.injEq]
      constructor
      · rintro rfl
        exact ⟨a, ha, by rw [c5, hka], by rw [c6]; simp⟩
      · rintro ⟨b, hb, hkb, hvb⟩
        have : b = a := hwf.key_inj hb ha (by rw [← c5 b, hkb, hka])
        subst this
        rw [c6] at hvb
        simpa using hvb
    · rw [Function.update_noteq hk, hm k v]
      constructor
      · rintro ⟨b, hb, hkb, hvb⟩
        have hba : b ≠ a := fun e => hk (by rw [← hkb, e, hka])
        exact ⟨b, hb, by rw [c5, hkb], by rw [c6]; simp [hba, hvb]⟩
      · rintro ⟨b, hb, hkb, hvb⟩
        rw [c5] at hkb
        have hba : b ≠ a := fun e => hk (by rw [← hkb, e, hka])
        rw [c6] at hvb
        simp only [hba, if_false] at hvb
        exact ⟨b, hb, hkb, hvb⟩
  · have hnone := (hit_eq_none (hwf.sorted 0)).1 c1
    have hfresh : ∀ b ∈ ch 0, b ≠ s.heap.length :=
      fun b hb => Nat.ne_of_lt (hwf.lt_heap 0 b (List.mem_cons_of_mem _ hb))
    have hmem : ∀ b, b ∈ ch' 0 ↔ b = s.heap.length ∨ b ∈ ch 0 := by
      intro b
      rw [c2]
      simp only [Nat.zero_le, if_true]
      exact mem_insAt
    by_cases hk : k = key
    · subst hk
      simp only [Function.update_same, Option.some.injEq]
      constructor
      · rintro rfl
        exact ⟨s.heap.length, (hmem _).2 (Or.inl rfl), by rw [c5]; simp, by rw [c6]; simp⟩
      · rintro ⟨b, hb, hkb, hvb⟩
        rcases (hmem b).1 hb with rfl | hb0
        · rw [c6] at hvb; simpa using hvb
        · rw [c5] at hkb
          simp only [hfresh b hb0, if_false] at hkb
          exact absurd hkb (hnone b hb0)
    · rw [Function.update_noteq hk, hm k v]
      constructor
      · rintro ⟨b, hb, hkb, hvb⟩
        refine ⟨b, (hmem b).2 (Or.inr hb), ?_, ?_⟩
        · rw [c5]; simp [hfresh b hb, hkb]
        · rw [c6]; simp [hfresh b hb, hvb]
      · rintro ⟨b, hb, hkb, hvb⟩
        rcases (hmem b).1 hb with rfl | hb0
        · rw [c5] at hkb
          simp only [if_true] at hkb
          exact absurd hkb.symm hk
        · rw [c5] at hkb
          rw [c6] at hvb
          simp only [hfresh b hb0, if_false] at hkb hvb
          exact ⟨b, hb0, hkb, hvb⟩

/-- A run of insertions applies its bindings, in order, to the represented
map; the level never goes down and is at least 0 after a first call. -/
theorem Rep_insertAll (ops : List (K × V × Nat)) :
    ∀ {s : SkipList K V} {m : K → Option V}, Rep s m →
      ∃ s', insertAll s ops = .ok s' ∧ Rep s' (applyOps m ops) ∧ s.level ≤ s'.level ∧
        (ops ≠ [] → 0 ≤ s'.level) := by
  induction ops with
  | nil =>
    intro s m hrep
    exact ⟨s, rfl, hrep, le_refl _, fun h => absurd rfl h⟩
  | cons op ops ih =>
    intro s m hrep
    obtain ⟨k, v, nl⟩ := op
    obtain ⟨s1, h1, h2, h3⟩ := Rep_Insert hrep k v nl
    obtain ⟨s', g1, g2, g3, -⟩ := ih h2
    refine ⟨s', ?_, g2, ?_, fun _ => ?_⟩
    · simp only [insertAll, h1, bind, Except.bind, g1]
    · exact le_trans (by rw [h3]; exact le_max_left _ _) g3
    · refine le_trans ?_ g3
      rw [h3]
      exact le_max_of_le_right (by omega)

theorem Rep_new [Inhabited V] : Rep (NewSkipList : SkipList K V) (fun _ => none) := by
  refine ⟨fun _ => [], ?_, ?_⟩
  · constructor
    · show (-1 : Int) ≤ -1
      exact le_refl _
    · intro i hi
      have : (i : Int) ≤ -1 := hi
      omega
    · show nextAt _ 0 0 = some none
      simp [nextAt, NewSkipList, NewSkipNode]
    · intro _ _; rfl
    · refine ⟨_, rfl, ?_⟩
      show ((1 : Nat) : Int) = max 1 (-1 + 1)
      simp
    · intro _; exact List.Pairwise.nil
    · intro _; exact List.Sublist.refl _
    · simp
    · rfl
    · rfl
  · intro k v
    simp

omit [Inhabited K] in
theorem applyOps_eq_none (ops : List (K × V × Nat)) :
    ∀ (m : K → Option V) (k : K),
      applyOps m ops k = none ↔ m k = none ∧ ∀ op ∈ ops, op.1 ≠ k := by
  induction ops with
  | nil => intro m k; simp [applyOps]
  | cons op ops ih =>
    intro m k
    obtain ⟨k', v, nl⟩ := op
    simp only [applyOps, ih, List.mem_cons, forall_eq_or_imp]
    by_cases hk : k = k'
    · subst hk; simp
    · rw [Function.update_noteq hk]
      have : k' ≠ k := fun e => hk e.symm
      simp [this]

omit [Inhabited K] in
theorem applyOps_last (pre post : List (K × V × Nat)) (k : K) (v : V) (nl : Nat)
    (hpost : ∀ op ∈ post, op.1 ≠ k) :
    ∀ (m : K → Option V), applyOps m (pre ++ (k, v, nl) :: post) k = some v := by
  have hkeep : ∀ (l : List (K × V × Nat)), (∀ op ∈ l, op.1 ≠ k) →
      ∀ m : K → Option V, applyOps m l k = m k := by
    intro l
    induction l with
    | nil => intro _ m; rfl
    | cons op l ih =>
      intro h m
      obtain ⟨k', v', nl'⟩ := op
      have h1 : k' ≠ k := h (k', v', nl') (by simp)
      simp only [applyOps]
      rw [ih (fun op hop => h op (List.mem_cons_of_mem _ hop)),
        Function.update_noteq (Ne.symm h1)]
  induction pre with
  | nil =>
    intro m
    simp only [List.nil_append, applyOps]
    rw [hkeep post hpost]; simp
  | cons op pre ih =>
    intro m
    obtain ⟨k', v', nl'⟩ := op
    simp only [List.cons_append, applyOps]
    exact ih _

/-- In a list that represents `m`, the keys of level 0 are the keys bound
in `m`. -/
theorem rep_mem_keys {s : SkipList K V} {ch : Nat → List Nat} {m : K → Option V}
    (hwf : WF s ch)
    (hm : ∀ k v, m k = some v ↔ ∃ a ∈ ch 0, keyAt s.heap a = k ∧ valAt s.heap a = some v)
    (k : K) : k ∈ (ch 0).map (keyAt s.heap) ↔ m k ≠ none := by
  rw [List.mem_map]
  constructor
  · rintro ⟨a, ha, hk⟩ hnone
    obtain ⟨v, hv⟩ := hwf.valAt_mem ha
    have := (hm k v).2 ⟨a, ha, hk, hv⟩
    rw [hnone] at this; cases this
  · intro hne
    cases hmk : m k with
    | none => exact absurd hmk hne
    | some v =>
      obtain ⟨a, ha, hk, -⟩ := (hm k v).1 hmk
      exact ⟨a, ha, hk⟩

/-! ## Reachable lists: the loops of `Insert` and `Remove` slot by slot -/

omit [LinearOrder K] [Inhabited K] in
theorem shapeAt_flen {h : List (SkipNode K V)} {a : Nat} {n : SkipNode K V} {k : K} {v : V}
    {len : Nat} (hn : h[a]? = some n) (e : shapeAt h a = some (k, v, len)) :
    n.Forward.length = len := by
  simp [shapeAt, hn] at e
  exact e.2.2

omit [LinearOrder K] [Inhabited K] in
/-- The splice loop of `Insert` in terms of slots: when `update[j]` is the
node `U j`, with a slot `j`, for every `j ≤ nl`, the loop succeeds, writes
the address of the new node into slot `j` of `U j`, the old content of that
slot into slot `j` of the new node, and nothing else. -/
theorem spliceLoop_char (base : List (SkipNode K V)) (nd : SkipNode K V) (nl : Nat)
    (hnd : nd.Forward.length = nl + 1) (upd : List (Option Nat)) (U : Nat → Nat)
    (hU : ∀ j, j ≤ nl → upd[j]? = some (some (U j)) ∧ ∃ t, nextAt base j (U j) = some t) :
    ∀ (r i : Nat) (h : List (SkipNode K V)), r + i = nl + 1 →
      h.length = base.length + 1 →
      (∀ a, shapeAt h a = shapeAt (base ++ [nd]) a) →
      (∀ j a, nextAt h j a =
        if j < i ∧ a = U j then some (some base.length)
        else if j < i ∧ a = base.length then nextAt base j (U j)
        else nextAt (base ++ [nd]) j a) →
      ∃ h', spliceLoop base.length upd r i h = .ok h' ∧
        h'.length = base.length + 1 ∧
        (∀ a, shapeAt h' a = shapeAt (base ++ [nd]) a) ∧
        (∀ j a, nextAt h' j a =
          if j < nl + 1 ∧ a = U j then some (some base.length)
          else if j < nl + 1 ∧ a = base.length then nextAt base j (U j)
          else nextAt (base ++ [nd]) j a) := by
  intro r
  induction r with
  | zero =>
    intro i h hri hlen hshape hnext
    have hi : i = nl + 1 := by omega
    subst hi
    exact ⟨h, by simp [spliceLoop, pure, Except.pure], hlen, hshape, hnext⟩
  | succ r ih =>
    intro i h hri hlen hshape hnext
    have hile : i ≤ nl := by omega
    obtain ⟨hu, t, ht⟩ := hU i hile
    have hidx : idx upd i = .ok (some (U i)) := by simp [idx, hu]
    have hult : U i < base.length := nextAt_lt_length ht
    have hune : U i ≠ base.length := Nat.ne_of_lt hult
    have hut : nextAt h i (U i) = some t := by
      rw [hnext i (U i), nextAt_append]
      simp [hune, ht]
    obtain ⟨un, hun1, hun2, hun3⟩ := deref_idx_of_nextAt hut
    have hui : i < un.Forward.length := (List.getElem?_eq_some.1 (by
      obtain ⟨n, h1, h2⟩ := nextAt_eq_some.1 hut
      rw [hun3] at h1; cases h1; exact h2)).1
    obtain ⟨xn, hxn3⟩ : ∃ xn, h[base.length]? = some xn := by
      have hlt : base.length < h.length := by omega
      exact ⟨h[base.length], List.getElem?_eq_getElem hlt⟩
    have hxn1 : deref h base.length = .ok xn := by simp [deref, hxn3]
    have hxi : i < xn.Forward.length := by
      have e := hshape base.length
      have e2 : shapeAt (base ++ [nd]) base.length = some (nd.Key, nd.Value, nd.Forward.length) :=
        shapeAt_eq_some (by simp)
      rw [e2] at e
      rw [shapeAt_flen hxn3 e, hnd]; omega
    have hset1 : setIdx xn.Forward i t = .ok (xn.Forward.set i t) := by simp [setIdx, hxi]
    obtain ⟨f1, f2, f3, f4⟩ := setFwd_facts (p := t) { xn with Forward := xn.Forward.set i t }
      hxn3 hxi rfl rfl rfl
    have hun3' := hun3
    rw [← f4 _ hune] at hun3'
    have hderef1 : deref (h.set base.length { xn with Forward := xn.Forward.set i t })
        (U i) = .ok un := by
      simp only [deref, hun3']
    have hset2 : setIdx un.Forward i (some base.length) =
        .ok (un.Forward.set i (some base.length)) := by
      simp [setIdx, hui]
    obtain ⟨g1, g2, g3, -⟩ := setFwd_facts (p := some base.length)
      { un with Forward := un.Forward.set i (some base.length) } hun3' hui rfl rfl rfl
    obtain ⟨h', e1, e2, e3, e4⟩ := ih (i + 1) _ (by omega) (by rw [g3, f3, hlen])
      (fun a => by rw [g2 a, f2 a, hshape a])
      (fun j a => by
        rw [g1 j a, f1 j a, hnext j a]
        by_cases hji : j = i
        · subst hji
          by_cases ha : a = U j
          · subst ha; simp
          · by_cases ha2 : a = base.length
            · subst ha2; simp [ha, ht]
            · simp [ha, ha2]
        · have h1 : (j < i + 1) = (j < i) := by
            apply propext; constructor <;> intro h <;> omega
          simp only [hji, and_false, if_false, h1])
    refine ⟨h', ?_, e2, e3, e4⟩
    simp only [spliceLoop, hidx, bind, Except.bind, hun1, hun2, hxn1, hset1, hderef1, hset2]
    exact e1

/-- The unlink loop of `Remove` in terms of slots: when `update[j]` is the
node `U j`, with a slot `j` whose content has a slot `j` too, for every
`j < lvl`, the loop succeeds and rewrites slot `j` of `U j` as `unlinked`
says, and nothing else. -/
theorem unlinkLoop_char (base : List (SkipNode K V)) (key : K) (lvl : Nat)
    (upd : List (Option Nat)) (U : Nat → Nat)
    (hU : ∀ j, j < lvl → upd[j]? = some (some (U j)) ∧ ∃ t, nextAt base j (U j) = some t ∧
      ∀ c, t = some c → ∃ q, nextAt base j c = some q) :
    ∀ (r i : Nat) (h : List (SkipNode K V)), r + i = lvl →
      (∀ a, shapeAt h a = shapeAt base a) →
      (∀ j a, nextAt h j a =
        if j < i ∧ a = U j then unlinked base key j (U j) else nextAt base j a) →
      ∃ h', unlinkLoop key upd r i h = .ok h' ∧
        (∀ a, shapeAt h' a = shapeAt base a) ∧
        (∀ j a, nextAt h' j a =
          if j < lvl ∧ a = U j then unlinked base key j (U j) else nextAt base j a) := by
  intro r
  induction r with
  | zero =>
    intro i h hri hshape hnext
    have hi : i = lvl := by omega
    subst hi
    exact ⟨h, by simp [unlinkLoop, pure, Except.pure], hshape, hnext⟩
  | succ r ih =>
    intro i h hri hshape hnext
    have hilt : i < lvl := by omega
    obtain ⟨hu, t, ht, hc⟩ := hU i hilt
    have hidx : idx upd i = .ok (some (U i)) := by simp [idx, hu]
    have hsame : ∀ a, nextAt h i a = nextAt base i a := by
      intro a
      rw [hnext i a]; simp
    have hut : nextAt h i (U i) = some t := by rw [hsame, ht]
    obtain ⟨un, hun1, hun2, hun3⟩ := deref_idx_of_nextAt hut
    have hui : i < un.Forward.length := (List.getElem?_eq_some.1 (by
      obtain ⟨n, h1, h2⟩ := nextAt_eq_some.1 hut
      rw [hun3] at h1; cases h1; exact h2)).1
    -- the invariant for the next iteration when the heap is not written
    have hkeep : unlinked base key i (U i) = nextAt base i (U i) →
        ∀ j a, nextAt h j a =
          if j < i + 1 ∧ a = U j then unlinked base key j (U j) else nextAt base j a := by
      intro e j a
      rw [hnext j a]
      by_cases hji : j = i
      · subst hji
        by_cases ha : a = U j
        · subst ha; simp [e]
        · simp [ha]
      · have h1 : (j < i + 1) = (j < i) := by
          apply propext; constructor <;> intro h <;> omega
        simp only [h1]
    cases t with
    | none =>
      have e : unlinked base key i (U i) = nextAt base i (U i) := by simp [unlinked, ht]
      obtain ⟨h', e1, e2, e3⟩ := ih (i + 1) h (by omega) hshape (hkeep e)
      refine ⟨h', ?_, e2, e3⟩
      simp only [unlinkLoop, hidx, bind, Except.bind, hun1, hun2]
      exact e1
    | some c =>
      obtain ⟨q, hq⟩ := hc c rfl
      have hcq : nextAt h i c = some q := by rw [hsame, hq]
      obtain ⟨cn, hcn1, hcn2, hcn3⟩ := deref_idx_of_nextAt hcq
      have hck : cn.Key = keyAt base c := by
        rw [← keyAt_of_shapeAt (hshape c), keyAt_of_get hcn3]
      by_cases hk : cn.Key = key
      · have e : unlinked base key i (U i) = some q := by
          simp [unlinked, ht, ← hck, hk, hq]
        have hset : setIdx un.Forward i q = .ok (un.Forward.set i q) := by simp [setIdx, hui]
        obtain ⟨g1, g2, -, -⟩ := setFwd_facts (p := q) { un with Forward := un.Forward.set i q }
          hun3 hui rfl rfl rfl
        obtain ⟨h', e1, e2, e3⟩ := ih (i + 1) _ (by omega)
          (fun a => by rw [g2 a, hshape a])
          (fun j a => by
            rw [g1 j a, hnext j a]
            by_cases hji : j = i
            · subst hji
              by_cases ha : a = U j
              · subst ha; simp [e]
              · simp [ha]
            · have h1 : (j < i + 1) = (j < i) := by
                apply propext; constructor <;> intro h <;> omega
              simp only [hji, and_false, if_false, h1])
        refine ⟨h', ?_, e2, e3⟩
        simp only [unlinkLoop, hidx, bind, Except.bind, hun1, hun2, hcn1, hk, ne_eq,
          not_true_eq_false, if_false, hcn2, hset]
        exact e1
      · have e : unlinked base key i (U i) = nextAt base i (U i) := by
          simp [unlinked, ht, ← hck, hk]
        obtain ⟨h', e1, e2, e3⟩ := ih (i + 1) h (by omega) hshape (hkeep e)
        refine ⟨h', ?_, e2, e3⟩
        simp only [unlinkLoop, hidx, bind, Except.bind, hun1, hun2, hcn1, hk, ne_eq,
          not_false_eq_true, if_true]
        exact e1

/-! ## Reachable lists: the links stay sound, so every loop returns -/

theorem beforeB_iff {heap : List (SkipNode K V)} {a b : Nat} :
    beforeB heap a b = true ↔ b ≠ 0 ∧ (a = 0 ∨ keyAt heap a < keyAt heap b ∨
      (keyAt heap a = keyAt heap b ∧ b < a)) := by
  simp [beforeB, or_assoc]

theorem beforeB_irrefl (heap : List (SkipNode K V)) (a : Nat) : ¬ beforeB heap a a = true := by
  rw [beforeB_iff]
  rintro ⟨h0, h | h | ⟨-, h⟩⟩
  · exact h0 h
  · exact lt_irrefl _ h
  · exact Nat.lt_irrefl _ h

theorem beforeB_trans {heap : List (SkipNode K V)} {a b c : Nat}
    (hab : beforeB heap a b = true) (hbc : beforeB heap b c = true) :
    beforeB heap a c = true := by
  rw [beforeB_iff] at hab hbc ⊢
  obtain ⟨hb0, hab⟩ := hab
  obtain ⟨hc0, hbc⟩ := hbc
  refine ⟨hc0, ?_⟩
  rcases hab with h | h | ⟨h1, h2⟩
  · exact Or.inl h
  · rcases hbc with g | g | ⟨g1, g2⟩
    · exact absurd g hb0
    · exact Or.inr (Or.inl (lt_trans h g))
    · exact Or.inr (Or.inl (g1 ▸ h))
  · rcases hbc with g | g | ⟨g1, g2⟩
    · exact absurd g hb0
    · exact Or.inr (Or.inl (h1 ▸ g))
    · exact Or.inr (Or.inr ⟨h1.trans g1, lt_trans g2 h2⟩)

theorem rankOf_lt_of_before {heap : List (SkipNode K V)} {a b : Nat}
    (hab : beforeB heap a b = true) (hb : b < heap.length) : rankOf heap b < rankOf heap a := by
  unfold rankOf
  apply Finset.card_lt_card
  rw [Finset.ssubset_iff_of_subset]
  · exact ⟨b, by simp [hb, hab], by simp [beforeB_irrefl]⟩
  · intro c hc
    simp only [Finset.mem_filter, Finset.mem_range] at hc ⊢
    exact ⟨hc.1, beforeB_trans hab hc.2⟩

theorem rankOf_lt_length {heap : List (SkipNode K V)} {a : Nat} (ha : a < heap.length) :
    rankOf heap a < heap.length := by
  have h : rankOf heap a < (Finset.range heap.length).card := by
    unfold rankOf
    apply Finset.card_lt_card
    rw [Finset.ssubset_iff_of_subset (Finset.filter_subset _ _)]
    exact ⟨a, by simp [ha], by simp [beforeB_irrefl]⟩
  simpa using h

theorem LinkOK.before {heap : List (SkipNode K V)} (hl : LinkOK heap) {i a b : Nat}
    (h : nextAt heap i a = some (some b)) : beforeB heap a b = true := by
  obtain ⟨-, h0, h1⟩ := hl i a b h
  rw [beforeB_iff]
  refine ⟨h0, ?_⟩
  rcases h1 with h | h | ⟨-, h2, h3⟩
  · exact Or.inl h
  · exact Or.inr (Or.inl h)
  · exact Or.inr (Or.inr ⟨h2, h3⟩)

omit [LinearOrder K] [Inhabited K] in
theorem nextAt_slot_below {heap : List (SkipNode K V)} {i j a : Nat} {q : Option Nat}
    (h : nextAt heap i a = some q) (hj : j ≤ i) : ∃ q', nextAt heap j a = some q' := by
  obtain ⟨n, h1, h2⟩ := nextAt_eq_some.1 h
  have hi : i < n.Forward.length := (List.getElem?_eq_some.1 h2).1
  have hjl : j < n.Forward.length := by omega
  exact ⟨n.Forward[j], nextAt_eq_some.2 ⟨n, h1, List.getElem?_eq_getElem hjl⟩⟩

/-- The inner loop on a heap with sound links: it does not run out of
steps, does not leave the heap, and stops where `Stop` says. -/
theorem LinkOK.advance_ok {heap : List (SkipNode K V)} (hl : LinkOK heap) (key : K) (i : Nat) :
    ∀ (fuel x : Nat), rankOf heap x < fuel → (∃ q, nextAt heap i x = some q) →
      (x = 0 ∨ keyAt heap x < key) →
      ∃ x', advance heap key i fuel x = .ok x' ∧ Stop heap key i x' := by
  intro fuel
  induction fuel with
  | zero => intro x h; exact absurd h (Nat.not_lt_zero _)
  | succ f ih =>
    intro x hr hq hx
    obtain ⟨q, hq⟩ := hq
    obtain ⟨n, h1, h2, -⟩ := deref_idx_of_nextAt hq
    cases q with
    | none =>
      refine ⟨x, ?_, hx, none, hq, fun b hb => by cases hb⟩
      simp [advance, h1, h2, bind, Except.bind, pure, Except.pure]
    | some y =>
      obtain ⟨⟨q', hq'⟩, -, -⟩ := hl i x y hq
      obtain ⟨m, h3, -, h5⟩ := deref_idx_of_nextAt hq'
      have hk : keyAt heap y = m.Key := keyAt_of_get h5
      by_cases hlt : m.Key < key
      · have hylt : y < heap.length := nextAt_lt_length hq'
        have hry : rankOf heap y < f := by
          have := rankOf_lt_of_before (hl.before hq) hylt
          omega
        obtain ⟨x', e1, e2⟩ := ih y hry ⟨q', hq'⟩ (Or.inr (hk ▸ hlt))
        refine ⟨x', ?_, e2⟩
        simp only [advance, h1, h2, h3, bind, Except.bind, hlt, if_true]
        exact e1
      · refine ⟨x, ?_, hx, some y, hq, fun b hb => ?_⟩
        · simp [advance, h1, h2, h3, bind, Except.bind, pure, Except.pure, hlt]
        · cases hb; rw [hk]; exact hlt

/-- The outer loop of `Insert` and `Remove` on a heap with sound links:
it succeeds and leaves in `update[j]`, for every level `j` it visits, a
node on which the inner loop of level `j` stopped. -/
theorem LinkOK.searchLoop_ok {heap : List (SkipNode K V)} (hl : LinkOK heap) (key : K) :
    ∀ (n x : Nat) (upd : List (Option Nat)), n ≤ upd.length → x < heap.length →
      (∀ i, n = i + 1 → ∃ q, nextAt heap i x = some q) → (x = 0 ∨ keyAt heap x < key) →
      ∃ x' upd', searchLoop heap key n x upd = .ok (x', upd') ∧
        upd'.length = upd.length ∧
        (∀ j, j < n → ∃ u, upd'[j]? = some (some u) ∧ Stop heap key j u) ∧
        (∀ j, n ≤ j → upd'[j]? = upd[j]?) ∧
        (n = 0 → x' = x) ∧ (0 < n → upd'[0]? = some (some x')) := by
  intro n
  induction n with
  | zero =>
    intro x upd _ _ _ _
    exact ⟨x, upd, by simp [searchLoop, pure, Except.pure], rfl,
      fun j hj => absurd hj (Nat.not_lt_zero _), fun _ _ => rfl, fun _ => rfl,
      fun h => absurd h (Nat.lt_irrefl _)⟩
  | succ i ih =>
    intro x upd hlen hxlt hslot hx
    obtain ⟨x1, a1, a2⟩ := hl.advance_ok key i heap.length x (rankOf_lt_length hxlt)
      (hslot i rfl) hx
    obtain ⟨t, ht, -⟩ := a2.2
    have hset : setIdx upd i (some x1) = .ok (upd.set i (some x1)) := by
      simp [setIdx]; omega
    obtain ⟨x', upd', b1, b2, b3, b4, b5, b6⟩ := ih x1 (upd.set i (some x1))
      (by simp; omega) (nextAt_lt_length ht)
      (fun i' hi' => nextAt_slot_below ht (by omega)) a2.1
    refine ⟨x', upd', ?_, by simpa using b2, ?_, ?_, fun h => absurd h (Nat.succ_ne_zero _), ?_⟩
    · simp only [searchLoop, a1, hset, bind, Except.bind]
      exact b1
    · intro j hj
      by_cases hji : j < i
      · exact b3 j hji
      · have : j = i := by omega
        subst this
        refine ⟨x1, ?_, a2⟩
        rw [b4 j (le_refl _), List.getElem?_set_self (by omega)]
    · intro j hj
      rw [b4 j (by omega), List.getElem?_set_ne (by omega)]
    · intro _
      by_cases h0 : i = 0
      · subst h0
        rw [b4 0 (le_refl _), List.getElem?_set_self (by omega), b5 rfl]
      · exact b6 (by omega)

omit [Inhabited K] in
theorem findLoop_of_searchLoop (heap : List (SkipNode K V)) (key : K) :
    ∀ (n x : Nat) (upd : List (Option Nat)) (r : Nat × List (Option Nat)),
      searchLoop heap key n x upd = .ok r → findLoop heap key n x = .ok r.1 := by
  intro n
  induction n with
  | zero =>
    intro x upd r h
    simp only [searchLoop, pure, Except.pure] at h
    cases h
    rfl
  | succ i ih =>
    intro x upd r h
    simp only [searchLoop, bind, Except.bind] at h
    simp only [findLoop, bind, Except.bind]
    cases ha : advance heap key i heap.length x with
    | error e => rw [ha] at h; cases h
    | ok x1 =>
      rw [ha] at h
      simp only at h ⊢
      cases hs : setIdx upd i (some x1) with
      | error e => rw [hs] at h; cases h
      | ok upd1 =>
        rw [hs] at h
        exact ih x1 upd1 r h

omit [LinearOrder K] [Inhabited K] in
theorem shapeAt_head {h h' : List (SkipNode K V)} {hd : SkipNode K V} (e : shapeAt h' 0 = shapeAt h 0)
    (hhd : h[0]? = some hd) : ∃ n, h'[0]? = some n ∧ n.Forward.length = hd.Forward.length := by
  rw [shapeAt_eq_some hhd] at e
  unfold shapeAt at e
  cases hh : h'[0]? with
  | none => simp [hh] at e
  | some n =>
    simp [hh] at e
    exact ⟨n, rfl, e.2.2⟩

/-- The node recorded in `update[j]`. -/
theorem updAt_eq {upd : List (Option Nat)} {j u : Nat} (h : upd[j]? = some (some u)) :
    ((upd[j]?).getD none).getD 0 = u := by
  simp [h]

theorem Stop.unlinked_some {heap : List (SkipNode K V)} (hl : LinkOK heap) {key : K} {j u : Nat}
    (hs : Stop heap key j u) : ∃ q, unlinked heap key j u = some q := by
  obtain ⟨t, ht, -⟩ := hs.2
  cases t with
  | none => exact ⟨none, by simp [unlinked, ht]⟩
  | some c =>
    by_cases hk : keyAt heap c = key
    · obtain ⟨⟨q, hq⟩, -, -⟩ := hl j u c ht
      exact ⟨q, by simp [unlinked, ht, hk, hq]⟩
    · exact ⟨some c, by simp [unlinked, ht, hk]⟩

/-- The heap left by the unlink loop has sound links. -/
theorem LinkOK.unlink {heap h' : List (SkipNode K V)} (hl : LinkOK heap) (key : K) (lvl : Nat)
    (U : Nat → Nat) (hU : ∀ j, j < lvl → Stop heap key j (U j))
    (hshape : ∀ a, shapeAt h' a = shapeAt heap a)
    (hnext : ∀ j a, nextAt h' j a =
      if j < lvl ∧ a = U j then unlinked heap key j (U j) else nextAt heap j a) :
    LinkOK h' := by
  have hkey : ∀ a, keyAt h' a = keyAt heap a := fun a => keyAt_of_shapeAt (hshape a)
  have hA : ∀ j c, (∃ q, nextAt heap j c = some q) → ∃ q, nextAt h' j c = some q := by
    intro j c hq
    rw [hnext j c]
    by_cases hc : j < lvl ∧ c = U j
    · rw [if_pos hc]; exact (hU j hc.1).unlinked_some hl
    · rw [if_neg hc]; exact hq
  intro i a b hab
  rw [hkey a, hkey b]
  rw [hnext i a] at hab
  by_cases hc : i < lvl ∧ a = U i
  · rw [if_pos hc] at hab
    obtain ⟨hi, rfl⟩ := hc
    obtain ⟨hu0, t, ht, -⟩ := hU i hi
    cases t with
    | none => simp [unlinked, ht] at hab
    | some c =>
      obtain ⟨-, hc0, hcord⟩ := hl i (U i) c ht
      by_cases hk : keyAt heap c = key
      · have hcb : nextAt heap i c = some (some b) := by
          simpa [unlinked, ht, hk] using hab
        obtain ⟨hq, hb0, hord⟩ := hl i c b hcb
        refine ⟨hA i b hq, hb0, ?_⟩
        rcases hu0 with h0 | hlt
        · exact Or.inl h0
        · right; left
          rcases hord with h | h | ⟨-, h, -⟩
          · exact absurd h hc0
          · exact lt_trans (hk ▸ hlt) h
          · rw [← h, hk]; exact hlt
      · have hcb : c = b := by simpa [unlinked, ht, hk] using hab
        subst hcb
        obtain ⟨hq, hb0, hord⟩ := hl i (U i) c ht
        exact ⟨hA i c hq, hb0, hord⟩
  · rw [if_neg hc] at hab
    obtain ⟨hq, hb0, hord⟩ := hl i a b hab
    exact ⟨hA i b hq, hb0, hord⟩

theorem Sound.head_slot {s : SkipList K V} (hs : Sound s) (i : Nat)
    (hi : (i : Int) ≤ max s.level 0) : ∃ q, nextAt s.heap i 0 = some q := by
  obtain ⟨hd, h1, h2⟩ := hs.headlen
  have hlt : i < hd.Forward.length := by
    have : (i : Int) < hd.Forward.length := by
      rw [h2]
      rcases le_max_iff.1 hi with h | h
      · exact lt_max_of_lt_right (by omega)
      · exact lt_max_of_lt_left (by omega)
    exact_mod_cast this
  exact ⟨hd.Forward[i], nextAt_eq_some.2 ⟨hd, h1, List.getElem?_eq_getElem hlt⟩⟩

/-- The search of `Insert` and `Remove` on a sound list. -/
theorem Sound.search {s : SkipList K V} (hs : Sound s) (key : K) :
    ∃ x upd, searchLoop s.heap key (s.level + 1).toNat 0
        (List.replicate (s.level + 1).toNat none) = .ok (x, upd) ∧
      (∀ j : Nat, (j : Int) ≤ s.level →
        upd[j]? = some (some (((upd[j]?).getD none).getD 0)) ∧
          Stop s.heap key j (((upd[j]?).getD none).getD 0)) ∧
      (0 ≤ s.level → x = ((upd[0]?).getD none).getD 0) ∧ (s.level = -1 → x = 0) := by
  have hlev := hs.level_ge
  obtain ⟨hd, hhd, -⟩ := hs.headlen
  have h0lt : 0 < s.heap.length := (List.getElem?_eq_some.1 hhd).1
  obtain ⟨x, upd, h1, -, h3, -, h5, h6⟩ := hs.link.searchLoop_ok key (s.level + 1).toNat 0
    (List.replicate (s.level + 1).toNat none) (by simp) h0lt
    (fun i hi => hs.head_slot i (le_max_of_le_left (by omega))) (Or.inl rfl)
  refine ⟨x, upd, h1, ?_, ?_, ?_⟩
  · intro j hj
    obtain ⟨u, hu1, hu2⟩ := h3 j (by omega)
    rw [updAt_eq hu1]
    exact ⟨hu1, hu2⟩
  · intro h0
    rw [updAt_eq (h6 (by omega))]
  · intro h
    exact h5 (by omega)

/-- Go `Remove` on a sound list: it returns, and the list stays sound, with
the same level and the same size. -/
theorem Sound.Remove_ok {s : SkipList K V} (hs : Sound s) (key : K) :
    ∃ s', Remove s key = .ok s' ∧ Sound s' ∧ s'.level = s.level ∧ s'.size = s.size := by
  have hlev := hs.level_ge
  obtain ⟨x, upd, h1, h2, -, -⟩ := hs.search key
  obtain ⟨h', e1, e2, e3⟩ := unlinkLoop_char s.heap key s.level.toNat upd
    (fun j => ((upd[j]?).getD none).getD 0)
    (fun j hj => by
      obtain ⟨a1, a2⟩ := h2 j (by omega)
      obtain ⟨t, ht, -⟩ := a2.2
      exact ⟨a1, t, ht, fun c hc => (hs.link j _ c (hc ▸ ht)).1⟩)
    s.level.toNat 0 s.heap (by omega) (fun _ => rfl) (fun j a => by simp)
  refine ⟨⟨h', s.level, s.size⟩, ?_, ⟨hs.level_ge, ?_, ?_⟩, rfl, rfl⟩
  · simp only [Remove, SkipList.Head, h1, bind, Except.bind, e1, pure, Except.pure]
  · obtain ⟨hd, hhd, hlen⟩ := hs.headlen
    obtain ⟨n, hn1, hn2⟩ := shapeAt_head (e2 0) hhd
    exact ⟨n, hn1, by rw [hn2]; exact hlen⟩
  · exact hs.link.unlink key s.level.toNat _ (fun j hj => (h2 j (by omega)).2) e2 e3

theorem LinkOK.of_same_slots {h h' : List (SkipNode K V)} (hl : LinkOK h)
    (hnext : ∀ j a, nextAt h' j a = nextAt h j a) (hkey : ∀ a, keyAt h' a = keyAt h a) :
    LinkOK h' := by
  intro i a b hab
  rw [hnext] at hab
  rw [hnext, hkey, hkey]
  exact hl i a b hab

omit [LinearOrder K] [Inhabited K] in
/-- The slots of the heap after the head has grown to `nl + 1` slots. -/
theorem nextAt_grow {heap : List (SkipNode K V)} {hd hd' : SkipNode K V} {nl : Nat}
    (hhd : heap[0]? = some hd)
    (hF : hd'.Forward = hd.Forward ++ List.replicate (nl + 1 - hd.Forward.length) none)
    (j b : Nat) :
    nextAt (heap.set 0 hd') j b =
      if b = 0 ∧ hd.Forward.length ≤ j then (if j < nl + 1 then some none else none)
      else nextAt heap j b := by
  have h0lt : 0 < heap.length := (List.getElem?_eq_some.1 hhd).1
  rw [nextAt_set j b h0lt, hF]
  by_cases hb : b = 0
  · subst hb
    by_cases hj : hd.Forward.length ≤ j
    · simp only [hj, and_self, if_true, List.getElem?_append_right hj]
      rw [List.getElem?_replicate]
      by_cases hj2 : j < nl + 1
      · simp [hj2]; omega
      · simp [hj2]; omega
    · have hj' : j < hd.Forward.length := by omega
      simp [hj, List.getElem?_append_left hj', nextAt, hhd]
  · simp [hb]

/-- Go `adjusthead` on a sound list. -/
theorem Sound.adjusthead_ok {s : SkipList K V} (hs : Sound s) (nl : Nat)
    (hnl : s.level < (nl : Int)) :
    ∃ s1, adjusthead s nl = .ok s1 ∧ Sound s1 ∧ s1.level = nl ∧ s1.size = s.size := by
  obtain ⟨hd, hhd, hlen⟩ := hs.headlen
  have hlev := hs.level_ge
  have h0lt : 0 < s.heap.length := (List.getElem?_eq_some.1 hhd).1
  have hdlen : hd.Forward.length ≤ nl + 1 := by
    have : (hd.Forward.length : Int) ≤ nl + 1 := by
      rw [hlen]; exact max_le (by omega) (by omega)
    exact_mod_cast this
  have hcopy : goCopy (List.replicate ((nl : Int) + 1).toNat none) hd.Forward =
      hd.Forward ++ List.replicate (nl + 1 - hd.Forward.length) none := by
    have : ((nl : Int) + 1).toNat = nl + 1 := by omega
    rw [this]; exact goCopy_grow _ _ _ hdlen
  obtain ⟨hd', hK, hF, hdef⟩ : ∃ hd' : SkipNode K V, hd'.Key = hd.Key ∧
      hd'.Forward = hd.Forward ++ List.replicate (nl + 1 - hd.Forward.length) none ∧
      hd' = ⟨hd.Key, hd.Value, goCopy (List.replicate ((nl : Int) + 1).toNat none) hd.Forward⟩ :=
    ⟨⟨hd.Key, hd.Value, goCopy (List.replicate ((nl : Int) + 1).toNat none) hd.Forward⟩,
      rfl, hcopy, rfl⟩
  have hnext := fun j b => @nextAt_grow K V s.heap hd hd' nl hhd hF j b
  have hkey : ∀ a, keyAt (s.heap.set 0 hd') a = keyAt s.heap a :=
    fun a => keyAt_set hhd hK a
  refine ⟨⟨s.heap.set 0 hd', nl, s.size⟩, ?_, ⟨?_, ?_, ?_⟩, rfl, rfl⟩
  · simp only [adjusthead, SkipList.Head, deref, hhd, bind, Except.bind, pure, Except.pure,
      hdef]
  · show (-1 : Int) ≤ nl
    omega
  · refine ⟨hd', List.getElem?_set_self h0lt, ?_⟩
    show ((hd'.Forward).length : Int) = max 1 ((nl : Int) + 1)
    rw [hF, max_eq_right (by omega)]
    simp
    omega
  · intro i a b hab
    have hab' : nextAt (s.heap.set 0 hd') i a = some (some b) := hab
    show (∃ q, nextAt (s.heap.set 0 hd') i b = some q) ∧ b ≠ 0 ∧
      (a = 0 ∨ keyAt (s.heap.set 0 hd') a < keyAt (s.heap.set 0 hd') b ∨
        (0 < i ∧ keyAt (s.heap.set 0 hd') a = keyAt (s.heap.set 0 hd') b ∧ b < a))
    rw [hnext i a] at hab'
    by_cases hc : a = 0 ∧ hd.Forward.length ≤ i
    · rw [if_pos hc] at hab'
      by_cases hi : i < nl + 1
      · simp [hi] at hab'
      · simp [hi] at hab'
    · rw [if_neg hc] at hab'
      obtain ⟨hq, hb0, hord⟩ := hs.link i a b hab'
      rw [hnext i b, hkey a, hkey b]
      simp only [hb0, false_and, if_false]
      exact ⟨hq, hb0, hord⟩

/-- The heap left by the splice loop has sound links. -/
theorem LinkOK.spliced {heap h' : List (SkipNode K V)} (hl : LinkOK heap) (key : K) (nl : Nat)
    (nd : SkipNode K V) (hnd : nd.Forward = List.replicate (nl + 1) none) (U : Nat → Nat)
    (hU : ∀ j, j < nl + 1 → Stop heap key j (U j))
    (hnf : ∀ b, nextAt heap 0 (U 0) = some (some b) → keyAt heap b ≠ key)
    (hkey : ∀ b, keyAt h' b = if b = heap.length then key else keyAt heap b)
    (hnext : ∀ j a, nextAt h' j a =
      if j < nl + 1 ∧ a = U j then some (some heap.length)
      else if j < nl + 1 ∧ a = heap.length then nextAt heap j (U j)
      else nextAt (heap ++ [nd]) j a) :
    LinkOK h' := by
  have hUlt : ∀ j, j < nl + 1 → U j < heap.length := by
    intro j hj
    obtain ⟨t, ht, -⟩ := (hU j hj).2
    exact nextAt_lt_length ht
  have hold : ∀ j a, a < heap.length → ¬ (j < nl + 1 ∧ a = U j) →
      nextAt h' j a = nextAt heap j a := by
    intro j a ha hc
    rw [hnext j a, if_neg hc, if_neg (fun h => Nat.ne_of_lt ha h.2), nextAt_append,
      if_neg (Nat.ne_of_lt ha)]
  have hkold : ∀ a, a < heap.length → keyAt h' a = keyAt heap a := by
    intro a ha
    rw [hkey a, if_neg (Nat.ne_of_lt ha)]
  have hknew : keyAt h' heap.length = key := by rw [hkey]; simp
  have hA : ∀ j c, (∃ q, nextAt heap j c = some q) → ∃ q, nextAt h' j c = some q := by
    intro j c hq
    have hclt : c < heap.length := by
      obtain ⟨q, hq⟩ := hq
      exact nextAt_lt_length hq
    by_cases hc : j < nl + 1 ∧ c = U j
    · exact ⟨_, by rw [hnext j c, if_pos hc]⟩
    · rw [hold j c hclt hc]; exact hq
  have hB : ∀ j, j < nl + 1 → ∃ q, nextAt h' j heap.length = some q := by
    intro j hj
    obtain ⟨t, ht, -⟩ := (hU j hj).2
    refine ⟨t, ?_⟩
    rw [hnext j _, if_neg (fun h => Nat.ne_of_lt (hUlt j hj) h.2.symm), if_pos ⟨hj, rfl⟩, ht]
  intro i a b hab
  rw [hnext i a] at hab
  by_cases c1 : i < nl + 1 ∧ a = U i
  · rw [if_pos c1] at hab
    obtain ⟨hi, rfl⟩ := c1
    have hb : b = heap.length := by simpa using hab.symm
    subst hb
    have hult := hUlt i hi
    refine ⟨hB i hi, by omega, ?_⟩
    rw [hknew, hkold _ hult]
    rcases (hU i hi).1 with h | h
    · exact Or.inl h
    · exact Or.inr (Or.inl h)
  · rw [if_neg c1] at hab
    by_cases c2 : i < nl + 1 ∧ a = heap.length
    · rw [if_pos c2] at hab
      obtain ⟨hi, rfl⟩ := c2
      obtain ⟨hq, hb0, -⟩ := hl i (U i) b hab
      have hblt : b < heap.length := by
        obtain ⟨q, hq⟩ := hq
        exact nextAt_lt_length hq
      refine ⟨hA i b hq, hb0, Or.inr ?_⟩
      rw [hknew, hkold b hblt]
      obtain ⟨t, ht, hstop⟩ := (hU i hi).2
      rw [hab] at ht
      cases ht
      have hge : key ≤ keyAt heap b := not_lt.1 (hstop b rfl)
      rcases lt_or_eq_of_le hge with h | h
      · exact Or.inl h
      · refine Or.inr ⟨?_, h, hblt⟩
        rcases Nat.eq_zero_or_pos i with h0 | h0
        · subst h0
          exact absurd h.symm (hnf b hab)
        · exact h0
    · rw [if_neg c2, nextAt_append] at hab
      by_cases ha : a = heap.length
      · rw [if_pos ha, hnd, List.getElem?_replicate] at hab
        by_cases hi : i < nl + 1
        · simp [hi] at hab
        · simp [hi] at hab
      · rw [if_neg ha] at hab
        obtain ⟨hq, hb0, hord⟩ := hl i a b hab
        have halt : a < heap.length := nextAt_lt_length hab
        have hblt : b < heap.length := by
          obtain ⟨q, hq⟩ := hq
          exact nextAt_lt_length hq
        rw [hkold a halt, hkold b hblt]
        exact ⟨hA i b hq, hb0, hord⟩

/-- The splice of a new node into a sound list, at the places found by the
search, leaves a sound list. -/
theorem Sound.splice_ok {s : SkipList K V} (hs : Sound s) (key : K) (value : V) (nl : Nat)
    (hnl : (nl : Int) ≤ s.level) (upd : List (Option Nat))
    (hupd : ∀ j : Nat, (j : Int) ≤ s.level →
      upd[j]? = some (some (((upd[j]?).getD none).getD 0)) ∧
        Stop s.heap key j (((upd[j]?).getD none).getD 0))
    (hnf : ∀ b, nextAt s.heap 0 (((upd[0]?).getD none).getD 0) = some (some b) →
      keyAt s.heap b ≠ key) :
    ∃ h', spliceLoop s.heap.length upd (nl + 1) 0 (s.heap ++ [NewSkipNode key value nl]) =
        .ok h' ∧ Sound ⟨h', s.level, s.size + 1⟩ := by
  have hndF : (NewSkipNode key value (nl : Int)).Forward = List.replicate (nl + 1) none := by
    have : ((nl : Int) + 1).toNat = nl + 1 := by omega
    simp [NewSkipNode, this]
  obtain ⟨h', e1, e2, e3, e4⟩ := spliceLoop_char s.heap (NewSkipNode key value nl) nl
    (by rw [hndF]; simp) upd (fun j => ((upd[j]?).getD none).getD 0)
    (fun j hj => by
      obtain ⟨a1, a2⟩ := hupd j (by omega)
      obtain ⟨t, ht, -⟩ := a2.2
      exact ⟨a1, t, ht⟩)
    (nl + 1) 0 (s.heap ++ [NewSkipNode key value nl]) (by omega) (by simp) (fun _ => rfl)
    (fun j a => by simp)
  refine ⟨h', e1, ⟨hs.level_ge, ?_, ?_⟩⟩
  · obtain ⟨hd, hhd, hlen⟩ := hs.headlen
    have h0lt : 0 < s.heap.length := (List.getElem?_eq_some.1 hhd).1
    have e := e3 0
    rw [shapeAt_append h0lt] at e
    obtain ⟨n, hn1, hn2⟩ := shapeAt_head e hhd
    exact ⟨n, hn1, by rw [hn2]; exact hlen⟩
  · refine hs.link.spliced key nl (NewSkipNode key value nl) hndF _
      (fun j hj => (hupd j (by omega)).2) hnf ?_ e4
    intro b
    show keyAt h' b = _
    rw [keyAt_of_shapeAt (e3 b), keyAt_append_eq]; rfl

/-- The part of `Insert` after `adjusthead`, on a sound list whose head is
tall enough: it returns and the list stays sound. -/
theorem Sound.insertBody_ok {s : SkipList K V} (hs : Sound s) (key : K) (value : V) (nl : Nat)
    (hnl : (nl : Int) ≤ s.level) :
    ∃ s', insertBody s key value nl = .ok s' ∧ Sound s' ∧ s'.level = s.level := by
  obtain ⟨x, upd, h1, h2, h3, -⟩ := hs.search key
  have hx := h3 (by omega)
  obtain ⟨-, t, ht, -⟩ := (h2 0 (by omega)).2
  rw [← hx] at ht
  obtain ⟨n, hd1, hd2, -⟩ := deref_idx_of_nextAt ht
  cases t with
  | none =>
    obtain ⟨h', e1, e2⟩ := hs.splice_ok key value nl hnl upd h2
      (fun b hb => by rw [← hx, ht] at hb; cases hb)
    refine ⟨⟨h', s.level, s.size + 1⟩, ?_, e2, rfl⟩
    simp only [insertBody, SkipList.Head, h1, bind, Except.bind, hd1, hd2, pure, Except.pure,
      e1]
  | some a =>
    obtain ⟨⟨q, hq⟩, -, -⟩ := hs.link 0 x a ht
    obtain ⟨m, hm1, -, hm3⟩ := deref_idx_of_nextAt hq
    have hka : keyAt s.heap a = m.Key := keyAt_of_get hm3
    by_cases hk : m.Key = key
    · have halt : a < s.heap.length := (List.getElem?_eq_some.1 hm3).1
      have hnext : ∀ j b, nextAt (s.heap.set a ⟨m.Key, value, m.Forward⟩) j b =
          nextAt s.heap j b := by
        intro j b
        rw [nextAt_set j b halt]
        by_cases hb : b = a
        · subst hb; simp [nextAt, hm3]
        · simp [hb]
      have hkey : ∀ b, keyAt (s.heap.set a ⟨m.Key, value, m.Forward⟩) b = keyAt s.heap b :=
        fun b => keyAt_set (n := ⟨m.Key, value, m.Forward⟩) hm3 rfl b
      refine ⟨⟨s.heap.set a ⟨m.Key, value, m.Forward⟩, s.level, s.size⟩, ?_,
        ⟨hs.level_ge, ?_, hs.link.of_same_slots hnext hkey⟩, rfl⟩
      · simp only [insertBody, SkipList.Head, h1, bind, Except.bind, hd1, hd2, pure,
          Except.pure, hm1, hk, if_true]
      · obtain ⟨hd, hhd, hlen⟩ := hs.headlen
        by_cases h0 : a = 0
        · subst h0
          rw [hm3] at hhd; cases hhd
          exact ⟨_, List.getElem?_set_self halt, hlen⟩
        · refine ⟨hd, ?_, hlen⟩
          show (s.heap.set a _)[0]? = _
          rw [List.getElem?_set_ne h0]; exact hhd
    · obtain ⟨h', e1, e2⟩ := hs.splice_ok key value nl hnl upd h2
        (fun b hb => by
          rw [← hx, ht] at hb
          cases hb
          rw [hka]; exact hk)
      refine ⟨⟨h', s.level, s.size + 1⟩, ?_, e2, rfl⟩
      simp only [insertBody, SkipList.Head, h1, bind, Except.bind, hd1, hd2, pure, Except.pure,
        hm1, hk, if_false, e1]

/-- Go `Insert` on a sound list: it returns, the list stays sound, and the
level is the larger of the old level and the drawn one. -/
theorem Sound.Insert_ok {s : SkipList K V} (hs : Sound s) (key : K) (value : V) (nl : Nat) :
    ∃ s', Insert s key value nl = .ok s' ∧ Sound s' ∧ s'.level = max s.level nl := by
  rw [Insert_eq]
  by_cases h : (nl : Int) > s.level
  · obtain ⟨s1, a1, a2, a3, -⟩ := hs.adjusthead_ok nl h
    obtain ⟨s', b1, b2, b3⟩ := a2.insertBody_ok key value nl (le_of_eq a3.symm)
    refine ⟨s', ?_, b2, ?_⟩
    · simp only [h, if_true, a1, bind, Except.bind, b1]
    · rw [b3, a3, max_eq_right (le_of_lt h)]
  · obtain ⟨s', b1, b2, b3⟩ := hs.insertBody_ok key value nl (not_lt.1 h)
    refine ⟨s', ?_, b2, ?_⟩
    · simp only [h, if_false, pure, Except.pure, bind, Except.bind, b1]
    · rw [b3, max_eq_left (not_lt.1 h)]

theorem Sound_new [Inhabited V] : Sound (NewSkipList : SkipList K V) := by
  refine ⟨le_refl _, ⟨_, rfl, ?_⟩, ?_⟩
  · show ((1 : Nat) : Int) = max 1 (-1 + 1)
    simp
  · intro i a b hab
    have : nextAt [NewSkipNode (default : K) (default : V) 0] i a = some (some b) := hab
    unfold nextAt at this
    cases a with
    | zero =>
      cases i with
      | zero => simp [NewSkipNode] at this
      | succ i => simp [NewSkipNode] at this
    | succ a => simp at this

/-- Every run of `Insert` and `Remove` calls on a sound list returns, and
leaves a sound list. -/
theorem Sound.runOps_ok (ops : List (Op K V)) :
    ∀ {s : SkipList K V}, Sound s → ∃ s', runOps s ops = .ok s' ∧ Sound s' := by
  induction ops with
  | nil => intro s hs; exact ⟨s, rfl, hs⟩
  | cons op ops ih =>
    intro s hs
    cases op with
    | insert k v nl =>
      obtain ⟨s1, h1, h2, -⟩ := hs.Insert_ok k v nl
      obtain ⟨s', g1, g2⟩ := ih h2
      exact ⟨s', by simp only [runOps, h1, bind, Except.bind, g1], g2⟩
    | remove k =>
      obtain ⟨s1, h1, h2, -, -⟩ := hs.Remove_ok k
      obtain ⟨s', g1, g2⟩ := ih h2
      exact ⟨s', by simp only [runOps, h1, bind, Except.bind, g1], g2⟩

theorem Reachable.sound [Inhabited V] {s : SkipList K V} (hr : Reachable s) : Sound s := by
  obtain ⟨ops, h⟩ := hr
  obtain ⟨s', h1, h2⟩ := Sound.runOps_ok ops (Sound_new (K := K) (V := V))
  rw [h1] at h
  cases h
  exact h2

/-- The loop of `Keys`, `Values` and `ToMap` on a heap with sound links:
it does not run out of steps and does not leave the heap. -/
theorem LinkOK.collect_ok {heap : List (SkipNode K V)} (hl : LinkOK heap) (i : Nat) :
    ∀ (fuel : Nat) (p : Option Nat) (acc : List (SkipNode K V)),
      (∀ a, p = some a → (∃ q, nextAt heap i a = some q) ∧ rankOf heap a < fuel) →
      ∃ r, collect heap (i : Int) fuel p acc = .ok r := by
  intro fuel
  induction fuel with
  | zero =>
    intro p acc hp
    cases p with
    | none => exact ⟨acc, by simp [collect, pure, Except.pure]⟩
    | some a => exact absurd (hp a rfl).2 (Nat.not_lt_zero _)
  | succ f ih =>
    intro p acc hp
    cases p with
    | none => exact ⟨acc, by simp [collect, pure, Except.pure]⟩
    | some a =>
      obtain ⟨⟨q, hq⟩, hr⟩ := hp a rfl
      obtain ⟨n, h1, h2, -⟩ := deref_idx_of_nextAt hq
      have h4 : index n.Forward (i : Int) = .ok q := by simp [index, h2]
      obtain ⟨r, hr'⟩ := ih q (acc ++ [n]) (fun b hb => by
        subst hb
        obtain ⟨hq', -, -⟩ := hl i a b hq
        refine ⟨hq', ?_⟩
        obtain ⟨q', hq'⟩ := hq'
        have := rankOf_lt_of_before (hl.before hq) (nextAt_lt_length hq')
        omega)
      exact ⟨r, by simp only [collect, h1, h4, bind, Except.bind, hr']⟩

/-- The traversal of a level between 0 and `Level()` of a sound list
returns. -/
theorem Sound.traverse_ok {s : SkipList K V} (hs : Sound s) (level : Int) (h0 : 0 ≤ level)
    (h1 : level ≤ s.level) : ∃ ns, traverse s level = .ok ns := by
  obtain ⟨i, rfl⟩ : ∃ i : Nat, level = i := ⟨level.toNat, by omega⟩
  obtain ⟨q, hq⟩ := hs.head_slot i (le_max_of_le_left h1)
  obtain ⟨n, d1, d2, -⟩ := deref_idx_of_nextAt hq
  have d3 : index n.Forward (i : Int) = .ok q := by simp [index, d2]
  obtain ⟨r, hr⟩ := hs.link.collect_ok i s.heap.length q [] (fun a ha => by
    subst ha
    obtain ⟨hq', -, -⟩ := hs.link i 0 a hq
    refine ⟨hq', ?_⟩
    obtain ⟨q', hq'⟩ := hq'
    exact rankOf_lt_length (nextAt_lt_length hq'))
  exact ⟨r, by simp only [traverse, not_lt.2 h1, if_false, SkipList.Head, d1, d3, bind,
    Except.bind, hr, gt_iff_lt]⟩

/-- A negative level passes the level check of any sound list and fails on
the slice index. -/
theorem Sound.traverse_neg {s : SkipList K V} (hs : Sound s) (level : Int) (h0 : level < 0) :
    traverse s level = .error .indexOutOfRange := by
  obtain ⟨hd, hhd, -⟩ := hs.headlen
  have h1 : ¬ level > s.level := by have := hs.level_ge; omega
  simp [traverse, h1, SkipList.Head, deref, hhd, index, h0, bind, Except.bind]

omit [LinearOrder K] [Inhabited K] in
/-- The explicit fault is raised by the level check and by nothing else. -/
theorem traverse_levelOutOfRange (s : SkipList K V) (level : Int) :
    traverse s level = .error .levelOutOfRange ↔ s.level < level := by
  have hcol : ∀ (fuel : Nat) (p : Option Nat) (acc : List (SkipNode K V)),
      collect s.heap level fuel p acc ≠ .error .levelOutOfRange := by
    intro fuel
    induction fuel with
    | zero =>
      intro p acc
      cases p <;> simp [collect, pure, Except.pure]
    | succ f ih =>
      intro p acc
      cases p with
      | none => simp [collect, pure, Except.pure]
      | some a =>
        simp only [collect, deref, index, idx, bind, Except.bind]
        cases s.heap[a]? with
        | none => simp
        | some n =>
          by_cases hl : level < 0
          · simp [hl]
          · cases hn : n.Forward[level.toNat]? with
            | none => simp [hl, hn]
            | some q => simpa [hl, hn] using ih q (acc ++ [n])
  constructor
  · intro h
    by_contra hc
    simp only [traverse, gt_iff_lt, hc, if_false, deref, index, idx, SkipList.Head, bind,
      Except.bind] at h
    cases hh : s.heap[0]? with
    | none => simp [hh] at h
    | some n =>
      by_cases hl : level < 0
      · simp [hh, hl] at h
      · cases hn : n.Forward[level.toNat]? with
        | none => simp [hh, hl, hn] at h
        | some q =>
          simp only [hh, hl, hn, if_false] at h
          exact hcol _ _ _ h
  · intro h
    simp [traverse, h]

omit [LinearOrder K] [Inhabited K] in
theorem Keys_error_iff (s : SkipList K V) (level : Int) (e : Fault) :
    Keys s level = .error e ↔ traverse s level = .error e := by
  unfold Keys
  cases traverse s level <;> simp [bind, Except.bind, pure, Except.pure]

omit [LinearOrder K] [Inhabited K] in
theorem Values_error_iff (s : SkipList K V) (level : Int) (e : Fault) :
    Values s level = .error e ↔ traverse s level = .error e := by
  unfold Values
  cases traverse s level <;> simp [bind, Except.bind, pure, Except.pure]

omit [Inhabited K] in
theorem ToMap_error_iff (s : SkipList K V) (level : Int) (e : Fault) :
    ToMap s level = .error e ↔ traverse s level = .error e := by
  unfold ToMap
  cases traverse s level <;> simp [bind, Except.bind, pure, Except.pure]

/-! ## Lists built by insertions: keys and values level by level -/

omit [LinearOrder K] [Inhabited K] in
theorem nodesAt_cons {heap : List (SkipNode K V)} {b : Nat} {n : SkipNode K V} (l : List Nat)
    (hb : heap[b]? = some n) : nodesAt heap (b :: l) = n :: nodesAt heap l := by
  simp [nodesAt, List.filterMap_cons, hb]

theorem WF.Values_spec {s : SkipList K V} {ch : Nat → List Nat} (hwf : WF s ch) (i : Nat)
    (hi : (i : Int) ≤ s.level) :
    Values s i = .ok ((nodesAt s.heap (ch i)).map (fun n => n.Value)) := by
  simp only [Values, hwf.traverse_spec i hi, bind, Except.bind, pure, Except.pure]

/-- The keys of a chain into which the new node has been spliced are the
old keys with the new key inserted in order. -/
theorem map_keyAt_insAt {heap h' : List (SkipNode K V)} {key : K} {N : Nat}
    (hk : ∀ b, keyAt h' b = if b = N then key else keyAt heap b) :
    ∀ (l : List Nat), (∀ a ∈ l, a ≠ N) →
      (insAt (below heap key) N l).map (keyAt h') =
        List.orderedInsert (· ≤ ·) key (l.map (keyAt heap)) := by
  intro l
  induction l with
  | nil => intro _; simp [insAt, hk]
  | cons b l ih =>
    intro hl
    have hbN : b ≠ N := hl b (by simp)
    have hkeep : l.map (keyAt h') = l.map (keyAt heap) := by
      apply List.map_congr_left
      intro a ha
      rw [hk a, if_neg (hl a (List.mem_cons_of_mem _ ha))]
    by_cases hb : keyAt heap b < key
    · have hpb : below heap key b = true := by simp [below, hb]
      have e : insAt (below heap key) N (b :: l) = b :: insAt (below heap key) N l := by
        simp [insAt, List.takeWhile_cons_of_pos hpb, List.dropWhile_cons_of_pos hpb]
      rw [e, List.map_cons, List.map_cons, ih (fun a ha => hl a (List.mem_cons_of_mem _ ha)),
        List.orderedInsert, if_neg (not_le.2 hb), hk b, if_neg hbN]
    · have hpb : ¬ below heap key b = true := by simp [below, hb]
      have e : insAt (below heap key) N (b :: l) = N :: b :: l := by
        simp [insAt, List.takeWhile_cons_of_neg hpb, List.dropWhile_cons_of_neg hpb]
      rw [e, List.map_cons, List.map_cons, List.map_cons, hkeep, List.orderedInsert,
        if_pos (not_lt.1 hb), hk N, if_pos rfl, hk b, if_neg hbN]

/-- The values of a chain after the value of the node of `key` has been
overwritten. -/
theorem map_value_update {h h' : List (SkipNode K V)} {key : K} {v : V} :
    ∀ (l : List Nat), (∀ b ∈ l, ∃ n, h[b]? = some n) → (∀ b ∈ l, ∃ n, h'[b]? = some n) →
      (∀ b ∈ l, valAt h' b = if keyAt h b = key then some v else valAt h b) →
      (nodesAt h' l).map (fun n => n.Value) =
        List.zipWith (fun k w => if k = key then v else w)
          ((nodesAt h l).map (fun n => n.Key)) ((nodesAt h l).map (fun n => n.Value)) := by
  intro l
  induction l with
  | nil => intro _ _ _; simp [nodesAt]
  | cons b l ih =>
    intro h1 h2 h3
    obtain ⟨n, hn⟩ := h1 b (by simp)
    obtain ⟨n', hn'⟩ := h2 b (by simp)
    have hv := h3 b (by simp)
    rw [nodesAt_cons l hn, nodesAt_cons l hn',
      List.map_cons, List.map_cons, List.map_cons, List.zipWith_cons_cons,
      ih (fun a ha => h1 a (List.mem_cons_of_mem _ ha))
        (fun a ha => h2 a (List.mem_cons_of_mem _ ha))
        (fun a ha => h3 a (List.mem_cons_of_mem _ ha))]
    congr 1
    simp only [valAt, hn', hn, Option.map_some', keyAt_of_get hn] at hv
    by_cases hk : n.Key = key
    · simpa [hk] using hv
    · simpa [hk] using hv

/-- Every run of insertions on the new list leaves a well-formed list. -/
theorem insertAll_wf [Inhabited V] (ops : List (K × V × Nat)) :
    ∃ s ch, insertAll (NewSkipList : SkipList K V) ops = .ok s ∧ WF s ch := by
  obtain ⟨s, h1, ⟨ch, hwf, -⟩, -, -⟩ := Rep_insertAll ops (Rep_new (K := K) (V := V))
  exact ⟨s, ch, h1, hwf⟩

/-- Go `Find` on a sound list returns. -/
theorem Sound.Find_ok {s : SkipList K V} (hs : Sound s) (key : K) :
    ∃ r, Find s key = .ok r := by
  have hlev := hs.level_ge
  obtain ⟨x, upd, h1, h2, h3, h4⟩ := hs.search key
  have hf := findLoop_of_searchLoop s.heap key _ _ _ _ h1
  have hx : ∃ t, nextAt s.heap 0 x = some t := by
    by_cases h0 : 0 ≤ s.level
    · obtain ⟨-, t, ht, -⟩ := (h2 0 (by simpa using h0)).2
      exact ⟨t, by rw [h3 h0]; exact ht⟩
    · rw [h4 (by omega)]
      exact hs.head_slot 0 (le_max_of_le_right (le_refl _))
  obtain ⟨t, ht⟩ := hx
  obtain ⟨n, d1, d2, -⟩ := deref_idx_of_nextAt ht
  cases t with
  | none =>
    exact ⟨none, by simp only [Find, SkipList.Head, hf, bind, Except.bind, d1, d2, pure,
      Except.pure]⟩
  | some a =>
    obtain ⟨⟨q, hq⟩, -, -⟩ := hs.link 0 x a ht
    obtain ⟨m, m1, -, -⟩ := deref_idx_of_nextAt hq
    by_cases hk : m.Key = key
    · exact ⟨some a, by simp only [Find, SkipList.Head, hf, bind, Except.bind, d1, d2, m1, hk,
        if_true, pure, Except.pure]⟩
    · exact ⟨none, by simp only [Find, SkipList.Head, hf, bind, Except.bind, d1, d2, m1, hk,
        if_false, pure, Except.pure]⟩

/-! ## Reachable lists: level 0 is sorted and every level ends -/

/-- The traversal of level 0 of a heap with sound links, started on a node
other than the head, collects nodes with strictly ascending keys. -/
theorem LinkOK.collect_sorted {heap : List (SkipNode K V)} (hl : LinkOK heap) :
    ∀ (fuel : Nat) (p : Option Nat) (acc r : List (SkipNode K V)),
      collect heap 0 fuel p acc = .ok r → (∀ a, p = some a → a ≠ 0) →
      ∃ r', r = acc ++ r' ∧ (r'.map (fun n => n.Key)).Pairwise (· < ·) ∧
        (p = none → r' = []) ∧ ∀ a, p = some a → ∀ n ∈ r', keyAt heap a ≤ n.Key := by
  intro fuel
  induction fuel with
  | zero =>
    intro p acc r h _
    cases p with
    | none =>
      simp only [collect, pure, Except.pure] at h
      cases h
      exact ⟨[], by simp, List.Pairwise.nil, fun _ => rfl, fun a ha => by cases ha⟩
    | some a => simp [collect] at h
  | succ f ih =>
    intro p acc r h hp
    cases p with
    | none =>
      simp only [collect, pure, Except.pure] at h
      cases h
      exact ⟨[], by simp, List.Pairwise.nil, fun _ => rfl, fun a ha => by cases ha⟩
    | some a =>
      simp only [collect, deref, index, idx, bind, Except.bind] at h
      cases hn : heap[a]? with
      | none => simp [hn] at h
      | some n =>
        cases hq : n.Forward[0]? with
        | none => simp [hn, hq] at h
        | some q =>
          simp only [hn, hq, lt_irrefl, if_false, Int.toNat_zero] at h
          have hnext : nextAt heap 0 a = some q := nextAt_eq_some.2 ⟨n, hn, hq⟩
          have hka : keyAt heap a = n.Key := keyAt_of_get hn
          obtain ⟨r', e1, e2, e3, e4⟩ := ih q (acc ++ [n]) r h (fun b hb => by
            subst hb
            exact (hl 0 a b hnext).2.1)
          refine ⟨n :: r', by rw [e1]; simp, ?_, (fun h => by cases h), ?_⟩
          · rw [List.map_cons, List.pairwise_cons]
            refine ⟨?_, e2⟩
            intro k hk
            obtain ⟨m, hm, rfl⟩ := List.mem_map.1 hk
            cases q with
            | none => rw [e3 rfl] at hm; cases hm
            | some b =>
              obtain ⟨-, -, hord⟩ := hl 0 a b hnext
              have hlt : keyAt heap a < keyAt heap b := by
                rcases hord with h0 | h0 | ⟨h0, -⟩
                · exact absurd h0 (hp a rfl)
                · exact h0
                · exact absurd h0 (Nat.lt_irrefl _)
              rw [← hka]
              exact lt_of_lt_of_le hlt (e4 b rfl m hm)
          · intro a' ha' m hm
            cases ha'
            rcases List.mem_cons.1 hm with rfl | hm
            · exact le_of_eq hka
            · cases q with
              | none => rw [e3 rfl] at hm; cases hm
              | some b =>
                obtain ⟨-, -, hord⟩ := hl 0 a b hnext
                have hlt : keyAt heap a < keyAt heap b := by
                  rcases hord with h0 | h0 | ⟨h0, -⟩
                  · exact absurd h0 (hp a rfl)
                  · exact h0
                  · exact absurd h0 (Nat.lt_irrefl _)
                exact le_of_lt (lt_of_lt_of_le hlt (e4 b rfl m hm))

/-- The traversal of a level between 0 and `Level()` of a sound list is
the loop started on the content of the slot of the head. -/
theorem Sound.traverse_collect {s : SkipList K V} (hs : Sound s) (i : Nat)
    (hi : (i : Int) ≤ s.level) :
    ∃ q ns, nextAt s.heap i 0 = some q ∧
      collect s.heap (i : Int) s.heap.length q [] = .ok ns ∧ traverse s i = .ok ns := by
  obtain ⟨q, hq⟩ := hs.head_slot i (le_max_of_le_left hi)
  obtain ⟨n, d1, d2, -⟩ := deref_idx_of_nextAt hq
  have d3 : index n.Forward (i : Int) = .ok q := by simp [index, d2]
  obtain ⟨r, hr⟩ := hs.link.collect_ok i s.heap.length q [] (fun a ha => by
    subst ha
    obtain ⟨hq', -, -⟩ := hs.link i 0 a hq
    refine ⟨hq', ?_⟩
    obtain ⟨q', hq'⟩ := hq'
    exact rankOf_lt_length (nextAt_lt_length hq'))
  exact ⟨q, r, hq, hr, by simp only [traverse, not_lt.2 hi, if_false, SkipList.Head, d1, d3,
    bind, Except.bind, hr, gt_iff_lt]⟩

/-- Following the slots of level `i` from a node of a heap with sound links
reaches nil, after fewer steps than the heap has nodes. -/
theorem LinkOK.linked_exists {heap : List (SkipNode K V)} (hl : LinkOK heap) (i : Nat) :
    ∀ (n x : Nat), rankOf heap x < n → (∃ q, nextAt heap i x = some q) →
      ∃ l, Linked heap i x l ∧ l.length ≤ rankOf heap x := by
  intro n
  induction n with
  | zero => intro x h; exact absurd h (Nat.not_lt_zero _)
  | succ n ih =>
    intro x hr hq
    obtain ⟨q, hq⟩ := hq
    cases q with
    | none => exact ⟨[], hq, Nat.zero_le _⟩
    | some y =>
      obtain ⟨hq', -, -⟩ := hl i x y hq
      have hylt : y < heap.length := by
        obtain ⟨q', hq'⟩ := hq'
        exact nextAt_lt_length hq'
      have hlt := rankOf_lt_of_before (hl.before hq) hylt
      obtain ⟨l, h1, h2⟩ := ih y (by omega) hq'
      exact ⟨y :: l, ⟨hq, h1⟩, by simp; omega⟩

/-- The three enumerations of a sound list return on every level between 0
and `Level()`. -/
theorem Sound.enumerate_ok {s : SkipList K V} (hs : Sound s) (level : Int) (h0 : 0 ≤ level)
    (h1 : level ≤ s.level) :
    ∃ ks vs m, Keys s level = .ok ks ∧ Values s level = .ok vs ∧ ToMap s level = .ok m := by
  obtain ⟨ns, hns⟩ := hs.traverse_ok level h0 h1
  exact ⟨ns.map (fun n => n.Key), ns.map (fun n => n.Value),
    ns.foldl (fun m n => mapSet m n.Key n.Value) [],
    by simp only [Keys, hns, bind, Except.bind, pure, Except.pure],
    by simp only [Values, hns, bind, Except.bind, pure, Except.pure],
    by simp only [ToMap, hns, bind, Except.bind, pure, Except.pure]⟩

/-- The traversal of a sound list never runs out of steps, whatever the
level asked for. -/
theorem Sound.traverse_fuel {s : SkipList K V} (hs : Sound s) (level : Int) :
    traverse s level ≠ .error .outOfFuel := by
  by_cases h1 : s.level < level
  · rw [(traverse_levelOutOfRange s level).2 h1]
    intro h; cases h
  · by_cases h0 : level < 0
    · rw [hs.traverse_neg level h0]
      intro h; cases h
    · obtain ⟨ns, hns⟩ := hs.traverse_ok level (not_lt.1 h0) (not_lt.1 h1)
      rw [hns]
      intro h; cases h

/-! ## Lists built by insertions: the map returned by `ToMap` -/

omit [LinearOrder K] [Inhabited K] in
theorem mapSet_new [DecidableEq K] (k : K) (v : V) :
    ∀ (m : List (K × V)), (∀ p ∈ m, p.1 ≠ k) → mapSet m k v = m ++ [(k, v)] := by
  intro m
  induction m with
  | nil => intro _; rfl
  | cons p m ih =>
    intro h
    obtain ⟨k', v'⟩ := p
    have hk : k' ≠ k := h (k', v') (by simp)
    simp only [mapSet, hk, if_false, List.cons_append]
    rw [ih (fun p hp => h p (List.mem_cons_of_mem _ hp))]

omit [LinearOrder K] [Inhabited K] in
/-- Filling a Go map from nodes with distinct keys, none of them in the map
yet, appends their pairs in order. -/
theorem foldl_mapSet [DecidableEq K] :
    ∀ (ns : List (SkipNode K V)) (acc : List (K × V)),
      (acc.map Prod.fst ++ ns.map (fun n => n.Key)).Nodup →
      ns.foldl (fun m n => mapSet m n.Key n.Value) acc =
        acc ++ ns.map (fun n => (n.Key, n.Value)) := by
  intro ns
  induction ns with
  | nil => intro acc _; simp
  | cons n ns ih =>
    intro acc h
    have hnew : ∀ p ∈ acc, p.1 ≠ n.Key := by
      intro p hp e
      have h1 := (List.nodup_append.1 h).2.2
      exact h1 (List.mem_map.2 ⟨p, hp, rfl⟩) (by rw [e]; simp)
    rw [List.foldl_cons, mapSet_new n.Key n.Value acc hnew, ih]
    · simp
    · have h2 : (acc.map Prod.fst ++ ([n.Key] ++ ns.map (fun n => n.Key))).Nodup := by
        simpa using h
      simpa [List.append_assoc] using h2

theorem WF.ToMap_spec {s : SkipList K V} {ch : Nat → List Nat} (hwf : WF s ch) (i : Nat)
    (hi : (i : Int) ≤ s.level) :
    ToMap s i = .ok ((nodesAt s.heap (ch i)).map (fun n => (n.Key, n.Value))) := by
  have hnd : ((nodesAt s.heap (ch i)).map (fun n => n.Key)).Nodup := by
    rw [hwf.nodesAt_map_key i]
    exact (List.pairwise_map.2 (hwf.sorted i)).imp (fun h => ne_of_lt h)
  have := foldl_mapSet (nodesAt s.heap (ch i)) [] (by simpa using hnd)
  simp only [ToMap, hwf.traverse_spec i hi, bind, Except.bind, pure, Except.pure, this,
    List.nil_append]

theorem WF.mem_pairs {s : SkipList K V} {ch : Nat → List Nat} (hwf : WF s ch) (i : Nat)
    (k : K) (v : V) :
    (k, v) ∈ (nodesAt s.heap (ch i)).map (fun n => (n.Key, n.Value)) ↔
      ∃ a ∈ ch i, keyAt s.heap a = k ∧ valAt s.heap a = some v := by
  have key : ∀ l : List Nat, (∀ a ∈ l, a ∈ ch i) →
      ((k, v) ∈ (nodesAt s.heap l).map (fun n => (n.Key, n.Value)) ↔
        ∃ a ∈ l, keyAt s.heap a = k ∧ valAt s.heap a = some v) := by
    intro l
    induction l with
    | nil => intro _; simp [nodesAt]
    | cons b l ih =>
      intro h
      obtain ⟨n, hn, -, hk⟩ := hwf.deref_mem (h b (by simp))
      have hv : valAt s.heap b = some n.Value := by simp [valAt, hn]
      rw [nodesAt_cons l hn, List.map_cons, List.mem_cons,
        ih (fun a ha => h a (List.mem_cons_of_mem _ ha))]
      constructor
      · rintro (e | ⟨a, ha, h1, h2⟩)
        · cases e
          exact ⟨b, by simp, hk, hv⟩
        · exact ⟨a, List.mem_cons_of_mem _ ha, h1, h2⟩
      · rintro ⟨a, ha, h1, h2⟩
        rcases List.mem_cons.1 ha with rfl | ha
        · left
          rw [hk] at h1
          rw [hv] at h2
          cases h2
          rw [h1]
        · exact Or.inr ⟨a, ha, h1, h2⟩
  exact key _ (fun _ h => h)

omit [Inhabited K] in
/-- The bindings of a run of insertions with pairwise distinct keys are its
pairs. -/
theorem applyOps_nodup (entries : List (K × V × Nat))
    (hnd : (entries.map (fun e => e.1)).Nodup) (k : K) (v : V) :
    applyOps (fun _ => none) entries k = some v ↔ ∃ nl, (k, v, nl) ∈ entries := by
  have hsplit : ∀ v0 nl0, (k, v0, nl0) ∈ entries →
      applyOps (fun _ => none) entries k = some v0 := by
    intro v0 nl0 hmem
    obtain ⟨pre, post, e⟩ := List.append_of_mem hmem
    rw [e]
    apply applyOps_last
    intro op hop hk
    rw [e, List.map_append, List.map_cons] at hnd
    have h1 := (List.nodup_append.1 hnd).2.1
    exact (List.nodup_cons.1 h1).1 (List.mem_map.2 ⟨op, hop, hk⟩)
  constructor
  · intro h
    have hne : applyOps (fun _ => none) entries k ≠ none := by rw [h]; simp
    rw [Ne, applyOps_eq_none] at hne
    simp only [true_and, not_forall, not_not, exists_prop] at hne
    obtain ⟨⟨k', v0, nl0⟩, hmem, hk⟩ := hne
    simp only at hk
    subst hk
    have := hsplit v0 nl0 hmem
    rw [h] at this
    cases this
    exact ⟨nl0, hmem⟩
  · rintro ⟨nl, hmem⟩
    exact hsplit v nl hmem

omit [LinearOrder K] [Inhabited K] in
/-- Lookup in a Go map given as a list of pairs with distinct keys. -/
theorem mapGet_eq_some [DecidableEq K] (k : K) (v : V) :
    ∀ (m : List (K × V)), (m.map Prod.fst).Nodup → (mapGet m k = some v ↔ (k, v) ∈ m) := by
  intro m
  induction m with
  | nil => intro _; simp [mapGet]
  | cons p m ih =>
    intro hnd
    obtain ⟨k', v'⟩ := p
    rw [List.map_cons, List.nodup_cons] at hnd
    by_cases hk : k' = k
    · subst hk
      have hnot : ∀ w, (k', w) ∉ m := fun w hw => hnd.1 (List.mem_map.2 ⟨(k', w), hw, rfl⟩)
      simp [mapGet, List.find?_cons, hnot]
      exact eq_comm
    · have : mapGet ((k', v') :: m) k = mapGet m k := by
        simp [mapGet, List.find?_cons, hk]
      rw [this, ih hnd.2, List.mem_cons]
      constructor
      · exact Or.inr
      · rintro (e | h)
        · cases e; exact absurd rfl hk
        · exact h

/-! ## The loops of `Get` -/

omit [LinearOrder K] [Inhabited K] in
theorem wrap64_of_range {z : Int} (h1 : -(2 ^ 63) ≤ z) (h2 : z < 2 ^ 63) : wrap64 z = z := by
  unfold wrap64
  omega

omit [LinearOrder K] [Inhabited K] in
theorem wrap64_range (z : Int) : -(2 ^ 63) ≤ wrap64 z ∧ wrap64 z < 2 ^ 63 := by
  unfold wrap64
  omega

omit [LinearOrder K] [Inhabited K] in
/-- The inner loop of `Get` started on `x` stops on the last node of the
chain that follows `x`. -/
theorem walkEnd_spec (heap : List (SkipNode K V)) (i : Nat) :
    ∀ (l : List Nat) (x fuel : Nat), Linked heap i x l → l.length < fuel →
      walkEnd heap (i : Int) fuel x = .ok (l.getLastD x) := by
  intro l
  induction l with
  | nil =>
    intro x fuel hl hf
    obtain ⟨n, h1, h2, -⟩ := deref_idx_of_nextAt hl
    have h3 : index n.Forward (i : Int) = .ok none := by simp [index, h2]
    obtain ⟨f, rfl⟩ : ∃ f, fuel = f + 1 := ⟨fuel - 1, by simp at hf; omega⟩
    simp [walkEnd, h1, h3, bind, Except.bind, pure, Except.pure]
  | cons b l ih =>
    intro x fuel hl hf
    obtain ⟨n, h1, h2, -⟩ := deref_idx_of_nextAt hl.1
    have h3 : index n.Forward (i : Int) = .ok (some b) := by simp [index, h2]
    obtain ⟨f, rfl⟩ : ∃ f, fuel = f + 1 := ⟨fuel - 1, by simp at hf; omega⟩
    simp only [walkEnd, h1, h3, bind, Except.bind, List.getLastD_cons]
    exact ih b f hl.2 (by simp at hf; omega)

omit [LinearOrder K] [Inhabited K] in
theorem Linked.getLastD_end {heap : List (SkipNode K V)} {i : Nat} :
    ∀ {l : List Nat} {x : Nat}, Linked heap i x l → Linked heap i (l.getLastD x) [] := by
  intro l
  induction l with
  | nil => intro x hl; exact hl
  | cons b l ih => intro x hl; rw [List.getLastD_cons]; exact ih hl.2

omit [LinearOrder K] [Inhabited K] in
/-- The outer loop of `Get` has no iteration when the index is positive. -/
theorem getLoop_positive (heap : List (SkipNode K V)) (index level : Int) (h : 1 ≤ index)
    (fuel x : Nat) : getLoop heap index level (fuel + 1) 0 x = .ok x := by
  have : ¬ (0 : Int) ≥ index := by omega
  simp [getLoop, this, pure, Except.pure]

omit [LinearOrder K] [Inhabited K] in
/-- The outer loop of `Get` for an index between `-2 ^ 63 + 1` and the
counter: every iteration leaves `x` on the end `e` of the chain. -/
theorem getLoop_run (heap : List (SkipNode K V)) (index level : Int) (e : Nat)
    (hmin : -(2 ^ 63) < index) (he : walkEnd heap level heap.length e = .ok e) :
    ∀ (n : Nat) (i : Int) (x fuel : Nat), i ≤ 0 → index ≤ i → (i - index).toNat = n →
      n + 2 ≤ fuel → walkEnd heap level heap.length x = .ok e →
      getLoop heap index level fuel i x = .ok e := by
  intro n
  induction n with
  | zero =>
    intro i x fuel hi0 hii hn hf hx
    obtain ⟨f, rfl⟩ : ∃ f, fuel = f + 2 := ⟨fuel - 2, by omega⟩
    have hw : wrap64 (i - 1) = i - 1 := wrap64_of_range (by omega) (by omega)
    have h1 : i ≥ index := hii
    have h2 : ¬ (i - 1 ≥ index) := by omega
    simp [getLoop, h1, hx, bind, Except.bind, hw, h2, pure, Except.pure]
  | succ n ih =>
    intro i x fuel hi0 hii hn hf hx
    obtain ⟨f, rfl⟩ : ∃ f, fuel = f + 1 := ⟨fuel - 1, by omega⟩
    have hw : wrap64 (i - 1) = i - 1 := wrap64_of_range (by omega) (by omega)
    have h1 : i ≥ index := hii
    simp only [getLoop, h1, if_true, hx, bind, Except.bind, hw]
    exact ih (i - 1) e f (by omega) (by omega) (by omega) (by omega) he

omit [LinearOrder K] [Inhabited K] in
/-- The outer loop of `Get` for the index `-2 ^ 63`: the test `i >= index`
holds for every value of the counter, so no number of steps is enough. -/
theorem getLoop_never (heap : List (SkipNode K V)) (level : Int) (e : Nat)
    (he : walkEnd heap level heap.length e = .ok e) :
    ∀ (fuel : Nat) (i : Int) (x : Nat), -(2 ^ 63) ≤ i →
      walkEnd heap level heap.length x = .ok e →
      getLoop heap (-(2 ^ 63)) level fuel i x = .error .outOfFuel := by
  intro fuel
  induction fuel with
  | zero => intro i x _ _; rfl
  | succ f ih =>
    intro i x hi hx
    have h1 : i ≥ -(2 ^ 63) := hi
    simp only [getLoop, h1, if_true, hx, bind, Except.bind]
    exact ih _ e (wrap64_range _).1 he

/-- Go `Get` on a well-formed list, for a level between 0 and `Level()`. -/
theorem WF.Get_spec {s : SkipList K V} {ch : Nat → List Nat} (hwf : WF s ch) (i : Nat)
    (hi : (i : Int) ≤ s.level) (index : Int) :
    (1 ≤ index → Get s index i = .ok 0) ∧
      (-(2 ^ 63) < index → index ≤ 0 → Get s index i = .ok ((ch i).getLastD 0)) := by
  have hl := hwf.linked i hi
  have hx := walkEnd_spec s.heap i (ch i) 0 s.heap.length hl (hwf.length_lt i)
  have he := walkEnd_spec s.heap i [] ((ch i).getLastD 0) s.heap.length hl.getLastD_end
    (by have := hwf.heaplen; simp; omega)
  have hng : ¬ (i : Int) > s.level := not_lt.2 hi
  constructor
  · intro h
    simp only [Get, hng, if_false, SkipList.Head]
    exact getLoop_positive s.heap index i h (2 ^ 64) 0
  · intro h1 h2
    simp only [Get, hng, if_false, SkipList.Head]
    exact getLoop_run s.heap index i _ h1 he (0 - index).toNat 0 0 (2 ^ 64 + 1) (le_refl _) h2
      rfl (by omega) hx

/-! ## `Find` after one `Remove` on a list built by insertions -/

theorem dropWhile_aboveOf {heap : List (SkipNode K V)} {key : K} {x : Nat} {l : List Nat}
    (hs : l.Pairwise (fun a b => keyAt heap a < keyAt heap b)) (hx : keyAt heap x < key) :
    (aboveOf heap x l).dropWhile (below heap key) = l.dropWhile (below heap key) := by
  have hs' : (aboveOf heap x l).Pairwise (fun a b => keyAt heap a < keyAt heap b) :=
    hs.sublist (List.filter_sublist _)
  rw [(takeWhile_eq_filter_of_pairwise (below_mono heap key) hs).2,
    (takeWhile_eq_filter_of_pairwise (below_mono heap key) hs').2]
  unfold aboveOf
  rw [List.filter_filter]
  apply List.filter_congr
  intro a _
  by_cases hb : keyAt heap a < key
  · simp [below, hb]
  · have : keyAt heap x < keyAt heap a := lt_of_lt_of_le hx (not_lt.1 hb)
    simp [below, hb, this]

theorem Desc.deref_zero {s : SkipList K V} {ch : Nat → List Nat} (hd : Desc s ch) {a : Nat}
    (ha : a ∈ ch 0) : ∃ n, s.heap[a]? = some n ∧ deref s.heap a = .ok n ∧
      keyAt s.heap a = n.Key := by
  obtain ⟨pre, suf, hsplit⟩ := List.append_of_mem ha
  have hl := hd.linked 0 (le_max_of_le_right (le_refl _))
  rw [hsplit] at hl
  obtain ⟨p, hp⟩ := hl.suffix.head_some
  obtain ⟨n, h1, -, h3⟩ := deref_idx_of_nextAt hp
  exact ⟨n, h3, h1, keyAt_of_get h3⟩

/-- The descent of `Find` on a list that satisfies `Desc`: after level 0
the search stands in front of the first node of level 0 that is not below
the key. -/
theorem Desc.descent {s : SkipList K V} {ch : Nat → List Nat} (hd : Desc s ch)
    (key : K) :
    ∀ (n x : Nat), (n : Int) ≤ s.level + 1 →
      (x = 0 ∨ (keyAt s.heap x < key ∧ ∃ j : Nat, n ≤ j ∧ (j : Int) ≤ s.level ∧ x ∈ ch j)) →
      ∃ x', findLoop s.heap key n x = .ok x' ∧ (n = 0 → x' = x) ∧
        (0 < n → Linked s.heap 0 x' ((ch 0).dropWhile (below s.heap key))) := by
  intro n
  induction n with
  | zero =>
    intro x _ _
    exact ⟨x, rfl, fun _ => rfl, fun h => absurd h (Nat.lt_irrefl _)⟩
  | succ i ih =>
    intro x hn hx
    have hiL : (i : Int) ≤ s.level := by push_cast at hn; omega
    -- the chain in front of the search on level `i`
    obtain ⟨P, hP1, hP2, hP3⟩ : ∃ P, Linked s.heap i x P ∧ P.Sublist (ch i) ∧
        (i = 0 → P.dropWhile (below s.heap key) = (ch 0).dropWhile (below s.heap key)) := by
      rcases hx with rfl | ⟨hlt, j, h1, h2, h3⟩
      · exact ⟨ch i, hd.linked i (le_max_of_le_left hiL), List.Sublist.refl _,
          fun h => by subst h; rfl⟩
      · exact ⟨aboveOf s.heap x (ch i), hd.desc i j (by omega) h2 x h3, List.filter_sublist _,
          fun h => by subst h; exact dropWhile_aboveOf (hd.sorted 0) hlt⟩
    have hlen : P.length < s.heap.length := lt_of_le_of_lt hP2.length_le (hd.short i)
    have hadv := advance_spec s.heap key i P x s.heap.length hP1 hlen
    have hx1 : lastBelow (below s.heap key) x P = 0 ∨
        (keyAt s.heap (lastBelow (below s.heap key) x P) < key ∧
          ∃ j : Nat, i ≤ j ∧ (j : Int) ≤ s.level ∧ lastBelow (below s.heap key) x P ∈ ch j) := by
      rcases lastBelow_mem (P := below s.heap key) P x with e | ⟨e1, e2⟩
      · rw [e]
        rcases hx with h | ⟨hlt, j, h1, h2, h3⟩
        · exact Or.inl h
        · exact Or.inr ⟨hlt, j, by omega, h2, h3⟩
      · exact Or.inr ⟨by simpa [below] using e2, i, le_refl _, hiL, hP2.subset e1⟩
    obtain ⟨x', e1, e2, e3⟩ := ih _ (by omega) hx1
    refine ⟨x', ?_, fun h => absurd h (Nat.succ_ne_zero _), fun _ => ?_⟩
    · simp only [findLoop, hadv, bind, Except.bind]
      exact e1
    · rcases Nat.eq_zero_or_pos i with h0 | h0
      · subst h0
        rw [e2 rfl, ← hP3 rfl]
        exact hP1.lastBelow_linked
      · exact e3 h0

/-- Go `Find` on a list that satisfies `Desc`. -/
theorem Desc.Find_hit {s : SkipList K V} {ch : Nat → List Nat} (hd : Desc s ch) (key : K) :
    Find s key = .ok (hit s.heap key (ch 0)) := by
  have hlev := hd.level_ge
  obtain ⟨x, h1, h2, h3⟩ := hd.descent key (s.level + 1).toNat 0 (by omega) (Or.inl rfl)
  have hl : Linked s.heap 0 x ((ch 0).dropWhile (below s.heap key)) := by
    by_cases h0 : (s.level + 1).toNat = 0
    · have hch : ch 0 = [] := hd.above 0 (by omega)
      rw [h2 h0, hch]
      have := hd.linked 0 (le_max_of_le_right (le_refl _))
      rw [hch] at this
      exact this
    · exact h3 (Nat.pos_of_ne_zero h0)
  obtain ⟨n, d1, d2, -⟩ := deref_idx_of_nextAt hl.nextAt_head
  simp only [Find, SkipList.Head, h1, bind, Except.bind, d1, d2, hit]
  cases hc : ((ch 0).dropWhile (below s.heap key)).head? with
  | none => simp [pure, Except.pure]
  | some a =>
    have ha : a ∈ ch 0 :=
      (List.dropWhile_sublist _).subset (List.mem_of_mem_head? hc)
    obtain ⟨m, -, hm, hk⟩ := hd.deref_zero ha
    simp only [hm, hk]
    by_cases hkey : m.Key = key <;> simp [hkey, pure, Except.pure]

theorem aboveOf_split {heap : List (SkipNode K V)} {x : Nat} {pre suf : List Nat}
    (hs : (pre ++ x :: suf).Pairwise (fun a b => keyAt heap a < keyAt heap b)) :
    aboveOf heap x (pre ++ x :: suf) = suf := by
  obtain ⟨-, h2, h3⟩ := List.pairwise_append.1 hs
  obtain ⟨h4, -⟩ := List.pairwise_cons.1 h2
  unfold aboveOf
  rw [List.filter_append, List.filter_cons]
  have e1 : pre.filter (fun a => decide (keyAt heap x < keyAt heap a)) = [] := by
    apply List.filter_eq_nil_iff.2
    intro a ha
    have := h3 a ha x (by simp)
    simpa using le_of_lt this
  have e2 : suf.filter (fun a => decide (keyAt heap x < keyAt heap a)) = suf := by
    apply List.filter_eq_self.2
    intro a ha
    simpa using h4 a ha
  simp [e1, e2]

theorem WF.sub_le {s : SkipList K V} {ch : Nat → List Nat} (hwf : WF s ch) (i : Nat) :
    ∀ d, (ch (i + d)).Sublist (ch i) := by
  intro d
  induction d with
  | zero => exact List.Sublist.refl _
  | succ d ih => exact (hwf.sub (i + d)).trans ih

/-- In a list built by insertions, the chain that follows a node of level
`i` is the part of the chain of level `i` with larger keys. -/
theorem WF.linked_above {s : SkipList K V} {ch : Nat → List Nat} (hwf : WF s ch) (key : K)
    {i x : Nat} (hi : (i : Int) ≤ s.level) (hx : x ∈ ch i) :
    Linked s.heap i x (aboveOf s.heap x (ch i)) ∧
      (keyAt s.heap x < key → lastBelow (below s.heap key) 0 (ch i) =
        lastBelow (below s.heap key) x (aboveOf s.heap x (ch i))) := by
  obtain ⟨pre, suf, hsplit⟩ := List.append_of_mem hx
  have hl := hwf.linked i hi
  have hs := hwf.sorted i
  rw [hsplit] at hl hs ⊢
  rw [aboveOf_split hs]
  refine ⟨hl.suffix, fun hlt => ?_⟩
  have hpre : ∀ a ∈ pre, below s.heap key a = true := by
    intro a ha
    have h1 : keyAt s.heap a < keyAt s.heap x :=
      (List.pairwise_append.1 hs).2.2 a ha x (by simp)
    simpa [below] using lt_trans h1 hlt
  exact lastBelow_append hpre (by simpa [below] using hlt)

/-- Bypassing the node of `key` behind the node `u` on which the search
stopped turns the chain `l` into the chain without that node. -/
theorem Linked.unsplice {h h' : List (SkipNode K V)} {i u : Nat} {key : K} :
    ∀ {l : List Nat} {x : Nat}, Linked h i x l → (x :: l).Nodup →
      l.Pairwise (fun a b => keyAt h a < keyAt h b) →
      u = lastBelow (below h key) x l →
      (∀ a ∈ x :: l, a ≠ u → nextAt h' i a = nextAt h i a) →
      nextAt h' i u = unlinked h key i u → Linked h' i x (without h key l) := by
  intro l
  induction l with
  | nil =>
    intro x hl _ _ hu _ h2
    simp only [lastBelow] at hu
    subst hu
    simp only [Linked] at hl
    show nextAt h' i u = some none
    rw [h2]
    simp [unlinked, hl]
  | cons b l ih =>
    intro x hl hnd hs hu h1 h2
    have hxb : x ∉ b :: l := (List.nodup_cons.1 hnd).1
    obtain ⟨hbl, hs'⟩ := List.pairwise_cons.1 hs
    by_cases hb : keyAt h b < key
    · have hpb : below h key b = true := by simp [below, hb]
      simp only [lastBelow, hpb, if_true] at hu
      have hux : x ≠ u := by
        intro e
        rcases lastBelow_mem (P := below h key) l b with h0 | ⟨h0, -⟩
        · exact hxb (by rw [e, hu, h0]; simp)
        · exact hxb (by rw [e, hu]; exact List.mem_cons_of_mem _ h0)
      have e : without h key (b :: l) = b :: without h key l := by
        simp [without, List.filter_cons, ne_of_lt hb]
      rw [e]
      refine ⟨by rw [h1 x (by simp) hux]; exact hl.1, ?_⟩
      exact ih hl.2 (List.nodup_cons.1 hnd).2 hs' hu
        (fun a ha => h1 a (List.mem_cons_of_mem _ ha)) h2
    · have hpb : ¬ below h key b = true := by simp [below, hb]
      simp only [lastBelow, hpb, if_false] at hu
      subst hu
      have hrest : Linked h' i b l := by
        refine Linked.congr ?_ hl.2
        intro a ha
        exact h1 a (List.mem_cons_of_mem _ ha) (fun e => hxb (e ▸ ha))
      have hall : ∀ a ∈ l, keyAt h a ≠ key := by
        intro a ha e
        exact hb (e ▸ hbl a ha)
      have hwl : without h key l = l := by
        apply List.filter_eq_self.2
        intro a ha
        simpa using hall a ha
      by_cases hk : keyAt h b = key
      · have e : without h key (b :: l) = l := by
          simp only [without, List.filter_cons, hk, ne_eq, not_true_eq_false, decide_False]
          exact hwl
        rw [e]
        have hx' : nextAt h' i u = some l.head? := by
          rw [h2]
          simp only [unlinked, hl.1, hk, if_true]
          exact hl.2.nextAt_head
        cases l with
        | nil => exact hx'
        | cons c l' =>
          refine ⟨hx', ?_⟩
          refine Linked.congr ?_ hl.2.2
          intro a ha
          exact h1 a (List.mem_cons_of_mem _ (List.mem_cons_of_mem _ ha))
            (fun e => hxb (e ▸ List.mem_cons_of_mem _ ha))
      · have e : without h key (b :: l) = b :: l := by
          simp only [without, List.filter_cons, hk, ne_eq, not_false_eq_true, decide_True,
            if_true]
          exact congrArg _ hwl
        rw [e]
        refine ⟨?_, hrest⟩
        rw [h2]
        simp [unlinked, hl.1, hk]

omit [LinearOrder K] [Inhabited K] in
theorem length_of_shapeAt {h h' : List (SkipNode K V)}
    (e : ∀ a, shapeAt h' a = shapeAt h a) : h'.length = h.length := by
  have key : ∀ (g g' : List (SkipNode K V)), (∀ a, shapeAt g' a = shapeAt g a) →
      g'.length ≤ g.length := by
    intro g g' hg
    by_contra hc
    have hlt : g.length < g'.length := not_le.1 hc
    have h1 : shapeAt g g.length = none := by simp [shapeAt]
    have h2 := hg g.length
    rw [h1] at h2
    simp [shapeAt, List.getElem?_eq_getElem hlt] at h2
  exact le_antisymm (key h h' e) (key h' h (fun a => (e a).symm))

omit [LinearOrder K] in
theorem keyAt_of_shape_all {h h' : List (SkipNode K V)} (e : ∀ a, shapeAt h' a = shapeAt h a) :
    keyAt h' = keyAt h := by
  funext a
  exact keyAt_of_shapeAt (e a)

/-- Go `Remove` on a list built by insertions: it returns, keys, values and
level are what they were, and the list left satisfies `Desc` with the
chains of the levels below `Level()` freed of the nodes of `key`. -/
theorem WF.Remove_desc {s : SkipList K V} {ch : Nat → List Nat} (hwf : WF s ch) (key : K) :
    ∃ s', Remove s key = .ok s' ∧ s'.level = s.level ∧
      (∀ a, shapeAt s'.heap a = shapeAt s.heap a) ∧
      Desc s' (fun j => if j < s.level.toNat then without s.heap key (ch j) else ch j) := by
  have hlev := hwf.level_ge
  obtain ⟨upd, hs1, -, hs3⟩ := hwf.searchLoop_spec key (s.level + 1).toNat 0
    (List.replicate (s.level + 1).toNat none) (by omega) (by simp) (Or.inl rfl)
  have hstop : ∀ j : Nat, (j : Int) ≤ s.level →
      Linked s.heap j (lastBelow (below s.heap key) 0 (ch j))
        ((ch j).dropWhile (below s.heap key)) :=
    fun j hj => (hwf.linked j hj).lastBelow_linked
  obtain ⟨h', e1, e2, e3⟩ := unlinkLoop_char s.heap key s.level.toNat upd
    (fun j => lastBelow (below s.heap key) 0 (ch j))
    (fun j hj => by
      refine ⟨by rw [hs3 j]; simp; omega, _, (hstop j (by omega)).nextAt_head, ?_⟩
      intro c hc
      have hl := hstop j (by omega)
      cases hd : (ch j).dropWhile (below s.heap key) with
      | nil => rw [hd] at hc; cases hc
      | cons c' rest =>
        rw [hd] at hc hl
        cases hc
        exact hl.2.head_some)
    s.level.toNat 0 s.heap (by omega) (fun _ => rfl) (fun j a => by simp)
  have hkey : keyAt h' = keyAt s.heap := keyAt_of_shape_all e2
  have hsame : ∀ i a, ¬ (i < s.level.toNat ∧ a = lastBelow (below s.heap key) 0 (ch i)) →
      nextAt h' i a = nextAt s.heap i a := by
    intro i a hc
    rw [e3 i a, if_neg hc]
  have hU : ∀ i, lastBelow (below s.heap key) 0 (ch i) = 0 ∨
      (lastBelow (below s.heap key) 0 (ch i) ∈ ch i ∧
        keyAt s.heap (lastBelow (below s.heap key) 0 (ch i)) < key) := by
    intro i
    rcases lastBelow_mem (P := below s.heap key) (ch i) 0 with h | ⟨h1, h2⟩
    · exact Or.inl h
    · exact Or.inr ⟨h1, by simpa [below] using h2⟩
  refine ⟨⟨h', s.level, s.size⟩, ?_, rfl, e2, ?_⟩
  · simp only [Remove, SkipList.Head, hs1, bind, Except.bind, e1, pure, Except.pure]
  · constructor
    · exact hlev
    · intro i hi
      show Linked h' i 0 (if i < s.level.toNat then _ else _)
      by_cases hil : i < s.level.toNat
      · rw [if_pos hil]
        refine (hwf.linked i (by omega)).unsplice (hwf.nodup_path i) (hwf.sorted i) rfl
          (fun a _ hne => hsame i a (fun h => hne h.2)) ?_
        rw [e3 i _, if_pos ⟨hil, rfl⟩]
      · rw [if_neg hil]
        exact Linked.congr (fun a _ => hsame i a (fun h => hil h.1)) (hwf.linked' i hi)
    · intro i hi
      show (if i < s.level.toNat then _ else _) = _
      have hi' : s.level < (i : Int) := hi
      rw [if_neg (by omega)]
      exact hwf.above i hi
    · intro i
      show (if i < s.level.toNat then _ else _ : List Nat).Pairwise
        (fun a b => keyAt h' a < keyAt h' b)
      rw [hkey]
      by_cases hil : i < s.level.toNat
      · rw [if_pos hil]
        exact (hwf.sorted i).sublist (List.filter_sublist _)
      · rw [if_neg hil]
        exact hwf.sorted i
    · intro i
      show (if i < s.level.toNat then _ else _ : List Nat).length < h'.length
      rw [length_of_shapeAt e2]
      by_cases hil : i < s.level.toNat
      · rw [if_pos hil]
        exact lt_of_le_of_lt (List.length_filter_le _ _) (hwf.length_lt i)
      · rw [if_neg hil]
        exact hwf.length_lt i
    · intro i j hij hj x hx
      have hj' : (j : Int) ≤ s.level := hj
      have hiL : (i : Int) ≤ s.level := by omega
      have hxj : x ∈ ch j := by
        have hx' : x ∈ (if j < s.level.toNat then without s.heap key (ch j) else ch j) := hx
        by_cases hjl : j < s.level.toNat
        · rw [if_pos hjl] at hx'
          exact (List.filter_sublist _).subset hx'
        · rw [if_neg hjl] at hx'
          exact hx'
      have hxi : x ∈ ch i := by
        obtain ⟨d, rfl⟩ : ∃ d, j = i + d := ⟨j - i, by omega⟩
        exact (hwf.sub_le i d).subset hxj
      obtain ⟨hold, hlast⟩ := hwf.linked_above key hiL hxi
      have hSsub : (aboveOf s.heap x (ch i)).Sublist (ch i) := List.filter_sublist _
      have hx0 : x ≠ 0 := fun e => hwf.nohead ((hwf.sub_zero i).subset (e ▸ hxi))
      show Linked h' i x (aboveOf h' x (if i < s.level.toNat then _ else _))
      unfold aboveOf
      rw [hkey]
      by_cases hil : i < s.level.toNat
      · rw [if_pos hil]
        have hcomm : (without s.heap key (ch i)).filter
            (fun a => decide (keyAt s.heap x < keyAt s.heap a)) =
            without s.heap key (aboveOf s.heap x (ch i)) := by
          unfold without aboveOf
          rw [List.filter_filter, List.filter_filter]
          apply List.filter_congr
          intro a _
          exact Bool.and_comm _ _
        rw [hcomm]
        by_cases hxk : keyAt s.heap x < key
        · have hnd : (x :: aboveOf s.heap x (ch i)).Nodup := by
            refine List.nodup_cons.2 ⟨?_, (List.nodup_cons.1 (hwf.nodup_path i)).2.sublist hSsub⟩
            intro hm
            have := (List.mem_filter.1 hm).2
            simp at this
          refine Linked.unsplice (u := lastBelow (below s.heap key) 0 (ch i)) hold hnd
            ((hwf.sorted i).sublist hSsub) (hlast hxk)
            (fun a _ hne => hsame i a (fun h => hne h.2)) ?_
          rw [e3 i _, if_pos ⟨hil, rfl⟩]
        · have hge : ∀ a ∈ x :: aboveOf s.heap x (ch i), key ≤ keyAt s.heap a ∧ a ≠ 0 := by
            intro a ha
            rcases List.mem_cons.1 ha with rfl | ha
            · exact ⟨not_lt.1 hxk, hx0⟩
            · obtain ⟨ha1, ha2⟩ := List.mem_filter.1 ha
              have hlt : keyAt s.heap x < keyAt s.heap a := by simpa using ha2
              exact ⟨le_of_lt (lt_of_le_of_lt (not_lt.1 hxk) hlt),
                fun e => hwf.nohead ((hwf.sub_zero i).subset (e ▸ ha1))⟩
          have hwl : without s.heap key (aboveOf s.heap x (ch i)) = aboveOf s.heap x (ch i) := by
            apply List.filter_eq_self.2
            intro a ha
            obtain ⟨-, ha2⟩ := List.mem_filter.1 ha
            have hlt : keyAt s.heap x < keyAt s.heap a := by simpa using ha2
            have : keyAt s.heap a ≠ key :=
              fun e => absurd (e ▸ hlt) hxk
            simpa using this
          rw [hwl]
          refine Linked.congr ?_ hold
          intro a ha
          apply hsame i a
          rintro ⟨-, e⟩
          obtain ⟨hk, h0⟩ := hge a ha
          rcases hU i with h | ⟨-, h⟩
          · exact h0 (e.trans h)
          · rw [← e] at h
            exact absurd h (not_lt.2 hk)
      · rw [if_neg hil]
        exact Linked.congr (fun a _ => hsame i a (fun h => hil h.1)) hold

omit [LinearOrder K] [Inhabited K] in
theorem getLastD_of_map_last {α β : Type} (f : α → β) (k : β) :
    ∀ (l : List α) (x : α), (l.map f).getLast? = some k →
      l.getLastD x ∈ l ∧ f (l.getLastD x) = k := by
  intro l
  induction l with
  | nil => intro x h; simp at h
  | cons b l ih =>
    intro x h
    rw [List.getLastD_cons]
    cases l with
    | nil =>
      simp at h
      simp [h]
    | cons c l =>
      have h' : ((c :: l).map f).getLast? = some k := by
        simpa [List.getLast?_cons_cons] using h
      obtain ⟨h1, h2⟩ := ih b h'
      exact ⟨List.mem_cons_of_mem _ h1, h2⟩

omit [LinearOrder K] [Inhabited K] in
theorem entry_of_shape {s s' : SkipList K V} (e : ∀ a, shapeAt s'.heap a = shapeAt s.heap a)
    (r : Option Nat) : s'.entry r = s.entry r := by
  cases r with
  | none => rfl
  | some a =>
    have := e a
    unfold shapeAt at this
    simp only [SkipList.entry, Option.some_bind]
    cases h1 : s'.heap[a]? <;> cases h2 : s.heap[a]? <;> simp [h1, h2] at this ⊢
    exact ⟨this.1, this.2.1⟩

/-! ## The claims -/

/-- C1: after any run of `Insert` calls on a new list, whatever levels are
drawn, `Find k` returns nil when `k` was never inserted, and otherwise
returns a node whose key is `k` and whose value is the one passed to the
last `Insert` of `k`. -/
theorem find_after_inserts [Inhabited V] (ops : List (K × V × Nat)) (k : K) :
    ∃ s, insertAll (NewSkipList : SkipList K V) ops = .ok s ∧
      ((∀ op ∈ ops, op.1 ≠ k) → Find s k = .ok none) ∧
      (∀ pre post v nl, ops = pre ++ (k, v, nl) :: post → (∀ op ∈ post, op.1 ≠ k) →
        ∃ a n, Find s k = .ok (some a) ∧ s.heap[a]? = some n ∧ n.Key = k ∧ n.Value = v) := by
  obtain ⟨s, h1, ⟨ch, hwf, hm⟩, -, -⟩ := Rep_insertAll ops (Rep_new (K := K) (V := V))
  refine ⟨s, h1, ?_, ?_⟩
  · intro hno
    rw [hwf.Find_spec k, (hit_eq_none (hwf.sorted 0)).2]
    intro a ha hk
    have hmem : k ∈ (ch 0).map (keyAt s.heap) := List.mem_map.2 ⟨a, ha, hk⟩
    exact (rep_mem_keys hwf hm k).1 hmem ((applyOps_eq_none ops _ k).2 ⟨rfl, hno⟩)
  · intro pre post v nl hops hpost
    have hv : applyOps (fun _ => none) ops k = some v := by
      rw [hops]; exact applyOps_last pre post k v nl hpost _
    obtain ⟨a, ha, hk, hva⟩ := (hm k v).1 hv
    obtain ⟨n, hn, -, hkn⟩ := hwf.deref_mem ha
    refine ⟨a, n, ?_, hn, by rw [← hkn, hk], ?_⟩
    · rw [hwf.Find_spec k, (hit_eq_some (hwf.sorted 0) a).2 ⟨ha, hk⟩]
    · simpa [valAt, hn] using hva

/-- Witness of C1: three insertions, the last one overwriting the key 1. -/
theorem find_after_inserts_witness :
    ∃ s, insertAll (NewSkipList : SkipList Int String)
        [(1, "One", 0), (2, "Two", 1), (1, "Uno", 2)] = .ok s ∧
      ∃ a n, Find s 1 = .ok (some a) ∧ s.heap[a]? = some n ∧ n.Key = 1 ∧ n.Value = "Uno" := by
  obtain ⟨s, h1, -, h3⟩ :=
    find_after_inserts [((1 : Int), "One", 0), (2, "Two", 1), (1, "Uno", 2)] 1
  exact ⟨s, h1, h3 [(1, "One", 0), (2, "Two", 1)] [] "Uno" 2 rfl (by simp)⟩

/-- C2: the data of `TestRemove` with level 0 drawn four times.  The key 1
is present, and after `Remove 1` the call `Find 1` still returns its node
(key 1, value "One"): with `Level() = 0` the unlink loop
`for i := 0; i < s.level; i++` has no iteration. -/
theorem remove_then_find_level_zero :
    (do
      let s ← runOps (NewSkipList : SkipList Int String)
        [Op.insert 1 "One" 0, Op.insert 2 "Two" 0, Op.insert 3 "Three" 0, Op.insert 4 "Four" 0]
      let before ← Find s 1
      let s1 ← Remove s 1
      let after ← Find s1 1
      pure (s.Level, s.entry before, s1.entry after)) =
    .ok (0, some (1, "One"), some (1, "One")) := by
  rfl

/-- C3: after any non-empty run of `Insert` calls on a new list, whatever
the order of the keys, the duplicates and the drawn levels, `Keys 0` is the
strictly ascending list of exactly the keys that were inserted. -/
theorem keys_zero_after_inserts [Inhabited V] (ops : List (K × V × Nat)) (hne : ops ≠ []) :
    ∃ s l, insertAll (NewSkipList : SkipList K V) ops = .ok s ∧ Keys s 0 = .ok l ∧
      l.Pairwise (· < ·) ∧ ∀ k, k ∈ l ↔ ∃ op ∈ ops, op.1 = k := by
  obtain ⟨s, h1, ⟨ch, hwf, hm⟩, -, hlev⟩ := Rep_insertAll ops (Rep_new (K := K) (V := V))
  refine ⟨s, (ch 0).map (keyAt s.heap), h1, ?_, ?_, ?_⟩
  · exact hwf.Keys_spec 0 (by simpa using hlev hne)
  · exact List.pairwise_map.2 (hwf.sorted 0)
  · intro k
    rw [rep_mem_keys hwf hm k, Ne, applyOps_eq_none]
    simp only [true_and, not_forall, not_not, exists_prop]

/-- Witness of C3: four insertions out of order, one of them a duplicate. -/
theorem keys_zero_after_inserts_witness :
    ∃ s l, insertAll (NewSkipList : SkipList Int String)
        [(9, "Nine", 0), (3, "Three", 2), (4, "Four", 0), (3, "Tres", 1)] = .ok s ∧
      Keys s 0 = .ok l ∧ l.Pairwise (· < ·) ∧
      ∀ k, k ∈ l ↔ ∃ op ∈ [((9 : Int), "Nine", 0), (3, "Three", 2), (4, "Four", 0),
        (3, "Tres", 1)], op.1 = k :=
  keys_zero_after_inserts _ (by simp)

/-- C4: after any run of `Insert` calls on a new list, whatever levels are
drawn, `Size()` is the number of distinct keys among the inserted pairs. -/
theorem size_after_inserts [Inhabited V] (ops : List (K × V × Nat)) :
    ∃ s, insertAll (NewSkipList : SkipList K V) ops = .ok s ∧
      s.Size = ((ops.map (fun op => op.1)).dedup.length : Int) := by
  obtain ⟨s, h1, ⟨ch, hwf, hm⟩, -, -⟩ := Rep_insertAll ops (Rep_new (K := K) (V := V))
  refine ⟨s, h1, ?_⟩
  have hnd : ((ch 0).map (keyAt s.heap)).Nodup :=
    (List.pairwise_map.2 (hwf.sorted 0)).imp (fun h => ne_of_lt h)
  have hset : ((ch 0).map (keyAt s.heap)).toFinset = (ops.map (fun op => op.1)).toFinset := by
    ext k
    rw [List.mem_toFinset, List.mem_toFinset, rep_mem_keys hwf hm k, Ne, applyOps_eq_none,
      List.mem_map]
    simp only [true_and, not_forall, not_not, exists_prop]
  have hcard := congrArg Finset.card hset
  rw [List.toFinset_card_of_nodup hnd, List.card_toFinset, List.length_map] at hcard
  show s.size = _
  rw [hwf.size, hcard]

/-- C5: scenario 3 of the specification (insert 1..4, remove 1, 2 and the
absent 5), with levels 1, 0, 2, 0 drawn.  The keys 1 and 2 are found before
and not after their removal, and `Size()` is 4 before and still 4 after:
`Remove` has no statement that changes `size`. -/
theorem remove_keeps_size :
    (do
      let s ← runOps (NewSkipList : SkipList Int String)
        [Op.insert 1 "One" 1, Op.insert 2 "Two" 0, Op.insert 3 "Three" 2, Op.insert 4 "Four" 0]
      let before1 ← Find s 1
      let before2 ← Find s 2
      let s1 ← runOps s [Op.remove 1, Op.remove 2, Op.remove 5]
      let after1 ← Find s1 1
      let after2 ← Find s1 2
      pure (s.Size, s.entry before1, s.entry before2, s1.Size, after1, after2)) =
    .ok (4, some (1, "One"), some (2, "Two"), 4, none, none) := by
  rfl

/-- C6: after `Insert(1, "One")` with level 1 drawn, the node of key 1 is
on the levels 0 and 1 and `Level() = 1`.  `Remove 1` unlinks it from level
0 only: `Keys 1`, the highest level the node occupies, still lists 1. -/
theorem remove_leaves_top_level :
    (do
      let s ← runOps (NewSkipList : SkipList Int String) [Op.insert 1 "One" 1]
      let before ← Find s 1
      let s1 ← Remove s 1
      let k0 ← Keys s1 0
      let k1 ← Keys s1 1
      pure (s.entry before, s1.Level, k0, k1)) =
    .ok (some (1, "One"), 1, [], [1]) := by
  rfl

/-- C7: after `Insert(5)` with level 1, `Remove 5` and `Insert(7)` with
level 2, the key 5 is absent (`Find 5` is nil) but its node is still linked
on level 1.  A second `Remove 5` is not a no-op: it changes `Keys 1` from
`[5, 7]` to `[7]` and `Values 1` likewise. -/
theorem remove_absent_changes_links :
    (do
      let s ← runOps (NewSkipList : SkipList Int String)
        [Op.insert 5 "Five" 1, Op.remove 5, Op.insert 7 "Seven" 2]
      let found ← Find s 5
      let k1 ← Keys s 1
      let v1 ← Values s 1
      let s1 ← Remove s 5
      let k1a ← Keys s1 1
      let v1a ← Values s1 1
      pure (found, s.Level, k1, v1, k1a, v1a)) =
    .ok (none, 2, [5, 7], ["Five", "Seven"], [7], ["Seven"]) := by
  rfl

/-- C8, as stated, fails for a negative level: on the new list (`Level()`
is -1) and on the list that holds the key 1 (`Level()` is 0), `Keys (-1)`,
`Values (-1)` and `ToMap (-1)` do not fail with the explicit
level-out-of-range fault.  The check `level > s.level` lets the level
through and the slice index `x.Forward[level]` fails. -/
theorem negative_level_not_explicit :
    (Keys (NewSkipList : SkipList Int String) (-1),
      Values (NewSkipList : SkipList Int String) (-1),
      ToMap (NewSkipList : SkipList Int String) (-1)) =
      (.error .indexOutOfRange, .error .indexOutOfRange, .error .indexOutOfRange) ∧
    (do
      let s ← Insert (NewSkipList : SkipList Int String) 1 "One" 0
      pure (s.Level, Keys s (-1), Values s (-1), ToMap s (-1))) =
      .ok (0, .error .indexOutOfRange, .error .indexOutOfRange, .error .indexOutOfRange) ∧
    Fault.indexOutOfRange ≠ Fault.levelOutOfRange := by
  refine ⟨rfl, rfl, by decide⟩

/-- C8, amended: for every list reachable from the new list by `Insert` and
`Remove` calls (the new list included) and every integer level, each of
`Keys`, `Values` and `ToMap` fails with the explicit level-out-of-range
fault exactly when `level > Level()`; for `0 ≤ level ≤ Level()` each
returns its result; for `level < 0` each fails on the slice index instead
of the explicit fault. -/
theorem level_check [Inhabited V] (s : SkipList K V) (hr : Reachable s) (level : Int) :
    ((Keys s level = .error .levelOutOfRange ↔ s.Level < level) ∧
      (Values s level = .error .levelOutOfRange ↔ s.Level < level) ∧
      (ToMap s level = .error .levelOutOfRange ↔ s.Level < level)) ∧
    (0 ≤ level → level ≤ s.Level →
      ∃ ks vs m, Keys s level = .ok ks ∧ Values s level = .ok vs ∧ ToMap s level = .ok m) ∧
    (level < 0 → Keys s level = .error .indexOutOfRange ∧
      Values s level = .error .indexOutOfRange ∧ ToMap s level = .error .indexOutOfRange) := by
  have hs := hr.sound
  refine ⟨⟨?_, ?_, ?_⟩, ?_, ?_⟩
  · rw [Keys_error_iff]; exact traverse_levelOutOfRange s level
  · rw [Values_error_iff]; exact traverse_levelOutOfRange s level
  · rw [ToMap_error_iff]; exact traverse_levelOutOfRange s level
  · intro h0 h1
    obtain ⟨ns, hns⟩ := hs.traverse_ok level h0 h1
    exact ⟨ns.map (fun n => n.Key), ns.map (fun n => n.Value),
      ns.foldl (fun m n => mapSet m n.Key n.Value) [],
      by simp only [Keys, hns, bind, Except.bind, pure, Except.pure],
      by simp only [Values, hns, bind, Except.bind, pure, Except.pure],
      by simp only [ToMap, hns, bind, Except.bind, pure, Except.pure]⟩
  · intro h0
    have := hs.traverse_neg level h0
    exact ⟨(Keys_error_iff _ _ _).2 this, (Values_error_iff _ _ _).2 this,
      (ToMap_error_iff _ _ _).2 this⟩

/-- Witness of C8: the list that holds the key 1, at the levels 0 and -1. -/
theorem level_check_witness :
    (∃ ks vs m,
      Keys (⟨[⟨0, "", [some 1]⟩, ⟨1, "One", [none]⟩], 0, 1⟩ : SkipList Int String) 0 = .ok ks ∧
      Values (⟨[⟨0, "", [some 1]⟩, ⟨1, "One", [none]⟩], 0, 1⟩ : SkipList Int String) 0 =
        .ok vs ∧
      ToMap (⟨[⟨0, "", [some 1]⟩, ⟨1, "One", [none]⟩], 0, 1⟩ : SkipList Int String) 0 =
        .ok m) ∧
    Keys (⟨[⟨0, "", [some 1]⟩, ⟨1, "One", [none]⟩], 0, 1⟩ : SkipList Int String) (-1) =
      .error .indexOutOfRange :=
  ⟨(level_check _ ⟨[Op.insert 1 "One" 0], rfl⟩ 0).2.1 (by decide) (by decide),
    ((level_check _ ⟨[Op.insert 1 "One" 0], rfl⟩ (-1)).2.2 (by decide)).1⟩

/-- C9: after `Insert(5)` with level 1, `Remove 5` and `Insert(5)` with
level 1 again, two nodes with key 5 are linked on level 1: `Keys 1` is
`[5, 5]`. -/
theorem duplicate_key_on_level :
    (do
      let s ← runOps (NewSkipList : SkipList Int String)
        [Op.insert 5 "Five" 1, Op.remove 5, Op.insert 5 "Cinq" 1]
      let k1 ← Keys s 1
      pure (s.Level, k1)) =
    .ok (1, [5, 5]) := by
  rfl

/-- C10: after `Insert(5)` with level 1, `Remove 5` and `Insert(7)` with
level 1, `Find 7` returns the node of key 7 while `Keys 0` is
empty: the new node hangs behind the node of key 5, which level 0 no longer
reaches. -/
theorem found_key_missing_from_level_zero :
    (do
      let s ← runOps (NewSkipList : SkipList Int String)
        [Op.insert 5 "Five" 1, Op.remove 5, Op.insert 7 "Seven" 1]
      let found ← Find s 7
      let k0 ← Keys s 0
      pure (s.Level, s.entry found, k0)) =
    .ok (1, some (7, "Seven"), []) := by
  rfl

/-- C11: in every list built from the new list by insertions, whatever
levels are drawn, for every level `L` with `1 ≤ L ≤ Level()` the list
`Keys L` is a subsequence of `Keys (L - 1)`, so level `L - 1` has at least
as many nodes as level `L`. -/
theorem keys_level_subsequence [Inhabited V] (ops : List (K × V × Nat)) :
    ∃ s, insertAll (NewSkipList : SkipList K V) ops = .ok s ∧
      ∀ L : Int, 1 ≤ L → L ≤ s.Level →
        ∃ hi lo, Keys s L = .ok hi ∧ Keys s (L - 1) = .ok lo ∧ hi.Sublist lo ∧
          hi.length ≤ lo.length := by
  obtain ⟨s, ch, h1, hwf⟩ := insertAll_wf (V := V) ops
  refine ⟨s, h1, ?_⟩
  intro L hL1 hL2
  obtain ⟨i, rfl⟩ : ∃ i : Nat, L = ((i + 1 : Nat) : Int) := ⟨(L - 1).toNat, by omega⟩
  have hk1 := hwf.Keys_spec (i + 1) hL2
  have hk0 := hwf.Keys_spec i (by have : ((i + 1 : Nat) : Int) ≤ s.level := hL2; omega)
  have e : (((i + 1 : Nat) : Int) - 1) = (i : Int) := by omega
  rw [e]
  exact ⟨_, _, hk1, hk0, (hwf.sub i).map _, by
    simpa using (hwf.sub i).length_le⟩

/-- Witness of C11: three insertions with the levels 1, 0 and 2, read at
level 1. -/
theorem keys_level_subsequence_witness :
    ∃ s, insertAll (NewSkipList : SkipList Int String)
        [(1, "One", 1), (2, "Two", 0), (3, "Three", 2)] = .ok s ∧
      ∃ hi lo, Keys s 1 = .ok hi ∧ Keys s (1 - 1) = .ok lo ∧ hi.Sublist lo ∧
        hi.length ≤ lo.length := by
  obtain ⟨s, h1, h2⟩ :=
    keys_level_subsequence [((1 : Int), "One", 1), (2, "Two", 0), (3, "Three", 2)]
  have hl : (insertAll (NewSkipList : SkipList Int String)
      [(1, "One", 1), (2, "Two", 0), (3, "Three", 2)]).map SkipList.Level = .ok 2 := rfl
  rw [h1] at hl
  have hl2 : s.Level = 2 := by simpa [Except.map] using hl
  exact ⟨s, h1, h2 1 (by decide) (by rw [hl2]; decide)⟩

/-- C12: in every list reachable by `Insert` and `Remove` calls, `Insert`
with drawn level `nl` returns a list whose `Level()` is the larger of the
old `Level()` and `nl`, whether or not the key was there, and `Remove`
returns a list with the same `Level()`, whatever node it unlinks; `Find`
returns a pointer and writes nothing. -/
theorem level_monotone [Inhabited V] (s : SkipList K V) (hr : Reachable s) (k : K) (v : V)
    (nl : Nat) :
    (∃ s', Insert s k v nl = .ok s' ∧ s'.Level = max s.Level nl) ∧
      (∃ s', Remove s k = .ok s' ∧ s'.Level = s.Level) ∧ ∃ r, Find s k = .ok r := by
  have hs := hr.sound
  obtain ⟨s1, a1, -, a3⟩ := hs.Insert_ok k v nl
  obtain ⟨s2, b1, -, b3, -⟩ := hs.Remove_ok k
  exact ⟨⟨s1, a1, a3⟩, ⟨s2, b1, b3⟩, hs.Find_ok k⟩

/-- Witness of C12: the list that holds the key 1 alone, on the levels 0
and 1, so that `Remove 1` takes away the only node of the top level. -/
theorem level_monotone_witness :
    (∃ s', Insert (⟨[⟨0, "", [some 1, some 1]⟩, ⟨1, "One", [none, none]⟩], 1, 1⟩ :
        SkipList Int String) 1 "Uno" 3 = .ok s' ∧ s'.Level = max 1 ((3 : Nat) : Int)) ∧
      (∃ s', Remove (⟨[⟨0, "", [some 1, some 1]⟩, ⟨1, "One", [none, none]⟩], 1, 1⟩ :
        SkipList Int String) 1 = .ok s' ∧ s'.Level = 1) ∧
      ∃ r, Find (⟨[⟨0, "", [some 1, some 1]⟩, ⟨1, "One", [none, none]⟩], 1, 1⟩ :
        SkipList Int String) 1 = .ok r :=
  level_monotone _ ⟨[Op.insert 1 "One" 1], rfl⟩ 1 "Uno" 3

/-- C13: in every list built from the new list by insertions, `Insert` of a
key `k` that `Find` does not find, with drawn level `nl`, returns a list
whose `Size()` is one more and whose `Level()` is the larger of the old
`Level()` and `nl`; on every level `i` from 0 to `nl`, `Keys i` is the
former `Keys i` (the empty list if the level did not exist) with `k`
inserted in order, and on every level `i` with `nl < i ≤ Level()`, `Keys i`
is the former `Keys i`. -/
theorem insert_new_key [Inhabited V] (ops : List (K × V × Nat)) (k : K) (v : V) (nl : Nat) :
    ∃ s, insertAll (NewSkipList : SkipList K V) ops = .ok s ∧
      (Find s k = .ok none →
        ∃ s', Insert s k v nl = .ok s' ∧ s'.Size = s.Size + 1 ∧
          s'.Level = max s.Level nl ∧
          (∀ i : Nat, i ≤ nl →
            ∃ prev, ((i : Int) ≤ s.Level → Keys s i = .ok prev) ∧
              (s.Level < (i : Int) → prev = []) ∧
              Keys s' i = .ok (List.orderedInsert (· ≤ ·) k prev)) ∧
          ∀ i : Nat, nl < i → (i : Int) ≤ s'.Level →
            ∃ prev, Keys s i = .ok prev ∧ Keys s' i = .ok prev) := by
  obtain ⟨s, ch, h1, hwf⟩ := insertAll_wf (V := V) ops
  refine ⟨s, h1, ?_⟩
  intro hfind
  rw [hwf.Find_spec k] at hfind
  have hhit : hit s.heap k (ch 0) = none := by simpa using hfind
  obtain ⟨s', ch', e1, e2, e3, e4⟩ := hwf.Insert_spec k v nl
  have e3' : s'.level = max s.level (nl : Int) := e3
  rcases e4 with ⟨a, c1, -⟩ | ⟨-, c2, c3, -, c5, -⟩
  · rw [hhit] at c1; cases c1
  · refine ⟨s', e1, c3, e3, ?_, ?_⟩
    · intro i hi
      have hi' : (i : Int) ≤ s'.level := by
        rw [e3']; exact le_max_of_le_right (by exact_mod_cast hi)
      refine ⟨(ch i).map (keyAt s.heap), fun h => hwf.Keys_spec i h, ?_, ?_⟩
      · intro h
        rw [hwf.above i h]; rfl
      · rw [e2.Keys_spec i hi', c2]
        simp only [hi, if_true]
        rw [map_keyAt_insAt c5 (ch i)
          (fun a ha => Nat.ne_of_lt (hwf.lt_heap i a (List.mem_cons_of_mem _ ha)))]
    · intro i hi hi'
      have hle : ¬ i ≤ nl := by omega
      have his : (i : Int) ≤ s.level := by
        have h : (i : Int) ≤ s'.level := hi'
        rw [e3'] at h
        rcases le_max_iff.1 h with h | h
        · exact h
        · omega
      refine ⟨(ch i).map (keyAt s.heap), hwf.Keys_spec i his, ?_⟩
      rw [e2.Keys_spec i hi', c2]
      simp only [hle, if_false]
      congr 1
      apply List.map_congr_left
      intro a ha
      rw [c5 a, if_neg (Nat.ne_of_lt (hwf.lt_heap i a (List.mem_cons_of_mem _ ha)))]

/-- Witness of C13: the key 2 is inserted with level 1 into the list that
holds 1 and 3 on level 0 only: level 0 reads 1, 2, 3 and the new level 1
reads 2. -/
theorem insert_new_key_witness :
    ∃ s s', insertAll (NewSkipList : SkipList Int String) [(1, "One", 0), (3, "Three", 0)] =
        .ok s ∧ Insert s 2 "Two" 1 = .ok s' ∧ s'.Size = s.Size + 1 ∧
      s'.Level = max s.Level ((1 : Nat) : Int) ∧ s.Level = 0 ∧ Keys s 0 = .ok [1, 3] ∧
      Keys s' 0 = .ok [1, 2, 3] ∧ Keys s' 1 = .ok [2] := by
  obtain ⟨s, h1, h2⟩ := insert_new_key [((1 : Int), "One", 0), (3, "Three", 0)] 2 "Two" 1
  have hf : (insertAll (NewSkipList : SkipList Int String) [(1, "One", 0), (3, "Three", 0)] >>=
      fun s => Find s 2) = .ok none := rfl
  have hk : (insertAll (NewSkipList : SkipList Int String) [(1, "One", 0), (3, "Three", 0)] >>=
      fun s => Keys s 0) = .ok [1, 3] := rfl
  have hl : (insertAll (NewSkipList : SkipList Int String)
      [(1, "One", 0), (3, "Three", 0)]).map SkipList.Level = .ok 0 := rfl
  rw [h1] at hf hk hl
  have hk0 : Keys s 0 = .ok [1, 3] := hk
  have hl0 : s.Level = 0 := by simpa [Except.map] using hl
  obtain ⟨s', e1, e2, e3, e4, -⟩ := h2 hf
  obtain ⟨p0, a1, -, a3⟩ := e4 0 (by decide)
  obtain ⟨p1, -, b2, b3⟩ := e4 1 (by decide)
  have a1' : Keys s 0 = .ok p0 := a1 (by rw [hl0]; decide)
  have a3' : Keys s' 0 = .ok (List.orderedInsert (· ≤ ·) 2 p0) := a3
  have b3' : Keys s' 1 = .ok (List.orderedInsert (· ≤ ·) 2 p1) := b3
  rw [hk0] at a1'
  cases a1'
  rw [b2 (by rw [hl0]; decide)] at b3'
  exact ⟨s, s', h1, e1, e2, e3, hl0, hk0, a3', b3'⟩

/-- C14: in every list built from the new list by insertions, `Insert` of a
key `k` that `Find` finds, with value `w` and any drawn level, returns a
list with the same `Size()`, the same `Keys i` on every level that existed,
an empty `Keys i` on every level it created, and a `Values 0` that is the
former one with `w` at the position of `k`. -/
theorem insert_present_key [Inhabited V] (ops : List (K × V × Nat)) (k : K) (w : V)
    (nl : Nat) :
    ∃ s, insertAll (NewSkipList : SkipList K V) ops = .ok s ∧
      ∀ a, Find s k = .ok (some a) →
        ∃ s', Insert s k w nl = .ok s' ∧ s'.Size = s.Size ∧
          (∀ i : Nat, (i : Int) ≤ s.Level → Keys s' i = Keys s i) ∧
          (∀ i : Nat, s.Level < (i : Int) → (i : Int) ≤ s'.Level → Keys s' i = .ok []) ∧
          ∃ ks vs, Keys s 0 = .ok ks ∧ Values s 0 = .ok vs ∧
            Values s' 0 = .ok (List.zipWith (fun key val => if key = k then w else val) ks vs) := by
  obtain ⟨s, ch, h1, hwf⟩ := insertAll_wf (V := V) ops
  refine ⟨s, h1, ?_⟩
  intro a hfind
  rw [hwf.Find_spec k] at hfind
  have hhit : hit s.heap k (ch 0) = some a := by simpa using hfind
  obtain ⟨ha, hka⟩ := (hit_eq_some (hwf.sorted 0) a).1 hhit
  have hlev : (0 : Int) ≤ s.level := by
    by_contra hc
    have := hwf.above 0 (by simpa using hc)
    rw [this] at ha
    cases ha
  obtain ⟨s', ch', e1, e2, e3, e4⟩ := hwf.Insert_spec k w nl
  rcases e4 with ⟨a', c1, c2, c3, -, c5, c6⟩ | ⟨c1, -⟩
  · rw [hhit] at c1
    cases c1
    rw [c2] at e2
    have hlev' : s.level ≤ s'.level := by rw [e3]; exact le_max_left _ _
    have hkeys : ∀ i : Nat, (ch i).map (keyAt s'.heap) = (ch i).map (keyAt s.heap) := by
      intro i
      apply List.map_congr_left
      intro b _
      exact c5 b
    refine ⟨s', e1, c3, ?_, ?_, (ch 0).map (keyAt s.heap),
      (nodesAt s.heap (ch 0)).map (fun n => n.Value), hwf.Keys_spec 0 hlev,
      hwf.Values_spec 0 hlev, ?_⟩
    · intro i hi
      rw [e2.Keys_spec i (le_trans hi hlev'), hwf.Keys_spec i hi, hkeys i]
    · intro i hi1 hi2
      rw [e2.Keys_spec i hi2, hwf.above i hi1]; rfl
    · have hv : Values s' 0 = _ := e2.Values_spec 0 (le_trans hlev hlev')
      rw [hv, ← hwf.nodesAt_map_key 0]
      congr 1
      refine map_value_update (ch 0) (fun b hb => ?_) (fun b hb => ?_) (fun b hb => ?_)
      · obtain ⟨n, hn, -, -⟩ := hwf.deref_mem hb
        exact ⟨n, hn⟩
      · obtain ⟨n, hn, -, -⟩ := e2.deref_mem hb
        exact ⟨n, hn⟩
      · rw [c6 b]
        by_cases hba : b = a
        · subst hba; simp [hka]
        · have : keyAt s.heap b ≠ k := fun e => hba (hwf.key_inj hb ha (e.trans hka.symm))
          simp [hba, this]
  · rw [hhit] at c1; cases c1

/-- Witness of C14: the key 1 is inserted again, with level 2, into the
list that holds 1 and 3 on level 0 only. -/
theorem insert_present_key_witness :
    ∃ s, insertAll (NewSkipList : SkipList Int String) [(1, "One", 0), (3, "Three", 0)] =
        .ok s ∧
      ∃ s', Insert s 1 "Uno" 2 = .ok s' ∧ s'.Size = s.Size ∧
        (∀ i : Nat, (i : Int) ≤ s.Level → Keys s' i = Keys s i) ∧
        (∀ i : Nat, s.Level < (i : Int) → (i : Int) ≤ s'.Level → Keys s' i = .ok []) ∧
        ∃ ks vs, Keys s 0 = .ok ks ∧ Values s 0 = .ok vs ∧
          Values s' 0 =
            .ok (List.zipWith (fun key val => if key = 1 then "Uno" else val) ks vs) := by
  obtain ⟨s, h1, h2⟩ := insert_present_key [((1 : Int), "One", 0), (3, "Three", 0)] 1 "Uno" 2
  have hf : (insertAll (NewSkipList : SkipList Int String) [(1, "One", 0), (3, "Three", 0)] >>=
      fun s => Find s 1) = .ok (some 1) := rfl
  rw [h1] at hf
  exact ⟨s, h1, h2 1 hf⟩

/-- C15, as stated, fails for the index `-2 ^ 63`, the least Go `int`: on
the list that holds the key 1, `Get(-2 ^ 63, 0)` does not return the last
node of level 0.  The test `i >= index` of its outer loop holds for every
value of the counter `i`, that wraps around, so the loop does not end,
whatever number of steps it is given. -/
theorem get_least_index_never_returns :
    insertAll (NewSkipList : SkipList Int String) [(1, "One", 0)] = .ok holdsOne ∧
      Get holdsOne (-(2 ^ 63)) 0 = .error .outOfFuel ∧
      ∀ fuel, getLoop holdsOne.heap (-(2 ^ 63)) 0 fuel 0 holdsOne.Head =
        .error .outOfFuel := by
  have he : walkEnd holdsOne.heap 0 holdsOne.heap.length 1 = .ok 1 := rfl
  have hx : walkEnd holdsOne.heap 0 holdsOne.heap.length 0 = .ok 1 := rfl
  refine ⟨rfl, ?_, fun fuel => getLoop_never holdsOne.heap 0 1 he fuel 0 0 (by omega) hx⟩
  have hng : ¬ (0 : Int) > holdsOne.level := by decide
  simp only [Get, hng, if_false]
  exact getLoop_never holdsOne.heap 0 1 he _ 0 0 (by omega) hx

/-- C15, amended: in every list built from the new list by insertions,
`Get(index, level)` returns the error for `level > Level()`; for a level
between 0 and `Level()` it returns the head for every index `≥ 1`, and for
every index with `-2 ^ 63 < index ≤ 0` the last node of the level, the one
whose slot is nil and whose key is the last of `Keys(level)`, or the head
when the level is empty: the index is not used as a rank. -/
theorem get_returns_head_or_end [Inhabited V] (ops : List (K × V × Nat)) :
    ∃ s, insertAll (NewSkipList : SkipList K V) ops = .ok s ∧
      (∀ index level : Int, s.Level < level →
        Get s index level = .error .levelOutOfRange) ∧
      ∀ index level : Int, 0 ≤ level → level ≤ s.Level →
        (1 ≤ index → Get s index level = .ok s.Head) ∧
        (-(2 ^ 63) < index → index ≤ 0 →
          ∃ a ks, Get s index level = .ok a ∧ Keys s level = .ok ks ∧
            nextAt s.heap level.toNat a = some none ∧ (ks = [] → a = s.Head) ∧
            ∀ k, ks.getLast? = some k → a ≠ s.Head ∧ keyAt s.heap a = k) := by
  obtain ⟨s, ch, h1, hwf⟩ := insertAll_wf (V := V) ops
  refine ⟨s, h1, ?_, ?_⟩
  · intro index level h
    have : level > s.level := h
    simp only [Get, this, if_true]
  · intro index level h0 hl
    obtain ⟨i, rfl⟩ : ∃ i : Nat, level = i := ⟨level.toNat, by omega⟩
    obtain ⟨g1, g2⟩ := hwf.Get_spec i hl index
    refine ⟨g1, fun hmin hle => ?_⟩
    refine ⟨(ch i).getLastD 0, (ch i).map (keyAt s.heap), g2 hmin hle, hwf.Keys_spec i hl, ?_,
      ?_, ?_⟩
    · rw [Int.toNat_ofNat]
      exact (hwf.linked i hl).getLastD_end
    · intro hnil
      have : ch i = [] := by simpa using hnil
      rw [this]; rfl
    · intro k hk
      obtain ⟨m1, m2⟩ := getLastD_of_map_last (keyAt s.heap) k (ch i) 0 hk
      refine ⟨?_, m2⟩
      intro e
      have e' : (ch i).getLastD 0 = 0 := e
      rw [e'] at m1
      exact hwf.nohead ((hwf.sub_zero i).subset m1)

/-- Witness of C15: the list that holds 1 and 3 on level 0 and 3 on
level 1, read with the indices 2 and -1 on level 1. -/
theorem get_returns_head_or_end_witness :
    ∃ s, insertAll (NewSkipList : SkipList Int String) [(1, "One", 0), (3, "Three", 1)] =
        .ok s ∧
      Get s 5 2 = .error .levelOutOfRange ∧ Get s 2 1 = .ok s.Head ∧
      ∃ a ks, Get s (-1) 1 = .ok a ∧ Keys s 1 = .ok ks ∧
        nextAt s.heap (1 : Int).toNat a = some none ∧ (ks = [] → a = s.Head) ∧
        ∀ k, ks.getLast? = some k → a ≠ s.Head ∧ keyAt s.heap a = k := by
  obtain ⟨s, h1, h2, h3⟩ :=
    get_returns_head_or_end [((1 : Int), "One", 0), (3, "Three", 1)]
  have hl : (insertAll (NewSkipList : SkipList Int String)
      [(1, "One", 0), (3, "Three", 1)]).map SkipList.Level = .ok 1 := rfl
  rw [h1] at hl
  have hl2 : s.Level = 1 := by simpa [Except.map] using hl
  exact ⟨s, h1, h2 5 2 (by rw [hl2]; decide),
    (h3 2 1 (by decide) (by rw [hl2])).1 (by decide),
    (h3 (-1) 1 (by decide) (by rw [hl2])).2 (by decide) (by decide)⟩

/-- C16: in every list built from the new list by insertions, whatever
levels are drawn, `Remove k` returns, and for every key `j` other than `k`
the call `Find j` returns afterwards what it returned before: nil, or the
same node, with the same key and value. -/
theorem remove_keeps_other_keys [Inhabited V] (ops : List (K × V × Nat)) (k : K) :
    ∃ s s', insertAll (NewSkipList : SkipList K V) ops = .ok s ∧ Remove s k = .ok s' ∧
      ∀ j, j ≠ k → ∃ r, Find s j = .ok r ∧ Find s' j = .ok r ∧ s'.entry r = s.entry r := by
  obtain ⟨s, ch, h1, hwf⟩ := insertAll_wf (V := V) ops
  obtain ⟨s', e1, -, e3, hd⟩ := hwf.Remove_desc k
  refine ⟨s, s', h1, e1, ?_⟩
  intro j hj
  refine ⟨hit s.heap j (ch 0), hwf.Find_spec j, ?_, entry_of_shape e3 _⟩
  rw [hd.Find_hit j]
  congr 1
  apply Option.ext
  intro a
  rw [Option.mem_def, Option.mem_def, hit_eq_some (hd.sorted 0) a, hit_eq_some (hwf.sorted 0) a,
    keyAt_of_shape_all e3]
  by_cases hl : 0 < s.level.toNat
  · simp only [hl, if_true, without, List.mem_filter, decide_eq_true_eq]
    constructor
    · rintro ⟨⟨h1, -⟩, h2⟩
      exact ⟨h1, h2⟩
    · rintro ⟨h1, h2⟩
      exact ⟨⟨h1, by rw [h2]; exact hj⟩, h2⟩
  · simp only [hl, if_false]

/-- Witness of C16: the key 1, on the levels 0 and 1, is removed from the
list that also holds 2, and `Find 2` is asked for. -/
theorem remove_keeps_other_keys_witness :
    ∃ s s', insertAll (NewSkipList : SkipList Int String) [(1, "One", 1), (2, "Two", 0)] =
        .ok s ∧ Remove s 1 = .ok s' ∧
      ∃ r, Find s 2 = .ok r ∧ Find s' 2 = .ok r ∧ s'.entry r = s.entry r := by
  obtain ⟨s, s', h1, h2, h3⟩ :=
    remove_keeps_other_keys [((1 : Int), "One", 1), (2, "Two", 0)] 1
  exact ⟨s, s', h1, h2, h3 2 (by decide)⟩

/-- C17: in every list reachable from the new list by `Insert` and `Remove`
calls, whatever levels are drawn, with `Level() ≥ 0`, `Keys 0` returns a
strictly ascending list. -/
theorem level_zero_sorted [Inhabited V] (s : SkipList K V) (hr : Reachable s)
    (h0 : 0 ≤ s.Level) : ∃ ks, Keys s 0 = .ok ks ∧ ks.Pairwise (· < ·) := by
  have hs := hr.sound
  obtain ⟨q, ns, c1, c2, c3⟩ := hs.traverse_collect 0 (by simpa using h0)
  obtain ⟨r', e1, e2, -, -⟩ := hs.link.collect_sorted s.heap.length q [] ns c2 (fun a ha => by
    subst ha
    exact (hs.link 0 0 a c1).2.1)
  have hk : Keys s 0 = .ok (ns.map (fun n => n.Key)) := by
    have c3' : traverse s 0 = .ok ns := c3
    simp only [Keys, c3', bind, Except.bind, pure, Except.pure]
  refine ⟨_, hk, ?_⟩
  rw [e1, List.nil_append]
  exact e2

/-- Witness of C17: the list left by `Insert(5)`, `Remove 5`, `Insert(7)`,
`Insert(3)`, `Insert(1)` and `Insert(2)`, in which the unlinked node of key
5 is still on level 1: level 0 reads 1, 2, 3. -/
theorem level_zero_sorted_witness :
    ∃ ks, Keys afterRemoveInsert 0 = .ok ks ∧ ks.Pairwise (· < ·) ∧ ks = [1, 2, 3] := by
  obtain ⟨ks, h1, h2⟩ := level_zero_sorted afterRemoveInsert ⟨[Op.insert 5 "Five" 1,
    Op.remove 5, Op.insert 7 "Seven" 1, Op.insert 3 "Three" 0, Op.insert 1 "One" 0,
    Op.insert 2 "Two" 0], by rfl⟩ (by decide)
  have h3 : Keys afterRemoveInsert 0 = .ok [1, 2, 3] := rfl
  rw [h3] at h1
  cases h1
  exact ⟨[1, 2, 3], h3, h2, rfl⟩

/-- C18: for every non-empty Go map, given by the pairs `entries` in the
order in which they are iterated (their keys are pairwise distinct) and the
level drawn for each, `NewSkipListMap` returns a list whose `ToMap 0` is
the map again, with the same pairs, one per key, and the same lookups, and
whose `Size()` is the number of entries. -/
theorem map_round_trip [Inhabited V] (entries : List (K × V × Nat)) (hne : entries ≠ [])
    (hnd : (entries.map (fun e => e.1)).Nodup) :
    ∃ s m, NewSkipListMap entries = .ok s ∧ ToMap s 0 = .ok m ∧
      (∀ k v, (k, v) ∈ m ↔ ∃ nl, (k, v, nl) ∈ entries) ∧ (m.map Prod.fst).Nodup ∧
      (∀ k, mapGet m k = mapGet (entries.map (fun e => (e.1, e.2.1))) k) ∧
      s.Size = entries.length := by
  obtain ⟨s, h1, ⟨ch, hwf, hm⟩, -, hlev⟩ := Rep_insertAll entries (Rep_new (K := K) (V := V))
  have h0 : ((0 : Nat) : Int) ≤ s.level := by simpa using hlev hne
  have hkeys : ((nodesAt s.heap (ch 0)).map (fun n => (n.Key, n.Value))).map Prod.fst =
      (ch 0).map (keyAt s.heap) := by
    rw [← hwf.nodesAt_map_key 0, List.map_map]; rfl
  have hknd : ((ch 0).map (keyAt s.heap)).Nodup :=
    (List.pairwise_map.2 (hwf.sorted 0)).imp (fun h => ne_of_lt h)
  have hmem : ∀ k v, (k, v) ∈ (nodesAt s.heap (ch 0)).map (fun n => (n.Key, n.Value)) ↔
      ∃ nl, (k, v, nl) ∈ entries := by
    intro k v
    rw [hwf.mem_pairs 0 k v, ← hm k v, applyOps_nodup entries hnd k v]
  refine ⟨s, _, h1, hwf.ToMap_spec 0 h0, hmem, by rw [hkeys]; exact hknd, ?_, ?_⟩
  · intro k
    have hnd2 : ((entries.map (fun e => (e.1, e.2.1))).map Prod.fst).Nodup := by
      rw [List.map_map]; exact hnd
    apply Option.ext
    intro v
    rw [Option.mem_def, Option.mem_def, mapGet_eq_some k v _ (by rw [hkeys]; exact hknd), mapGet_eq_some k v _ hnd2, hmem k v,
      List.mem_map]
    constructor
    · rintro ⟨nl, h⟩
      exact ⟨(k, v, nl), h, rfl⟩
    · rintro ⟨⟨k', v', nl⟩, h, e⟩
      cases e
      exact ⟨nl, h⟩
  · have hset : ((ch 0).map (keyAt s.heap)).toFinset = (entries.map (fun e => e.1)).toFinset := by
      ext k
      rw [List.mem_toFinset, List.mem_toFinset, rep_mem_keys hwf hm k, Ne, applyOps_eq_none,
        List.mem_map]
      simp only [true_and, not_forall, not_not, exists_prop]
    have hcard := congrArg Finset.card hset
    rw [List.toFinset_card_of_nodup hknd, List.toFinset_card_of_nodup hnd, List.length_map,
      List.length_map] at hcard
    show s.size = _
    rw [hwf.size, hcard]

/-- Witness of C18: a map of three entries, iterated out of order. -/
theorem map_round_trip_witness :
    ∃ s m, NewSkipListMap [((9 : Int), "Nine", 0), (3, "Three", 2), (4, "Four", 1)] = .ok s ∧
      ToMap s 0 = .ok m ∧
      (∀ k v, (k, v) ∈ m ↔
        ∃ nl, (k, v, nl) ∈ [((9 : Int), "Nine", 0), (3, "Three", 2), (4, "Four", 1)]) ∧
      (m.map Prod.fst).Nodup ∧
      (∀ k, mapGet m k = mapGet
        ([((9 : Int), "Nine", 0), (3, "Three", 2), (4, "Four", 1)].map
          (fun e => (e.1, e.2.1))) k) ∧
      s.Size = [((9 : Int), "Nine", 0), (3, "Three", 2), (4, "Four", 1)].length :=
  map_round_trip _ (by simp) (by decide)

/-- C19: in every list reachable from the new list by `Insert` and `Remove`
calls, whatever levels are drawn, `Find`, `Insert` and `Remove` return, and
`Keys`, `Values` and `ToMap` return on every level between 0 and
`Level()`: no slice is read or written out of its range, an access that
would end the call with the fault `indexOutOfRange`. -/
theorem no_index_fault [Inhabited V] (s : SkipList K V) (hr : Reachable s) (k : K) (v : V)
    (nl : Nat) (level : Int) :
    (∃ r, Find s k = .ok r) ∧ (∃ s', Insert s k v nl = .ok s') ∧
      (∃ s', Remove s k = .ok s') ∧
      (0 ≤ level → level ≤ s.Level →
        ∃ ks vs m, Keys s level = .ok ks ∧ Values s level = .ok vs ∧ ToMap s level = .ok m) := by
  have hs := hr.sound
  obtain ⟨s1, a1, -, -⟩ := hs.Insert_ok k v nl
  obtain ⟨s2, b1, -, -, -⟩ := hs.Remove_ok k
  exact ⟨hs.Find_ok k, ⟨s1, a1⟩, ⟨s2, b1⟩, hs.enumerate_ok level⟩

/-- Witness of C19: the new list, whose head has one slot, for `Find`,
`Insert` and `Remove`, and the list that holds the key 1 for the
enumerations of level 0. -/
theorem no_index_fault_witness :
    ((∃ r, Find (NewSkipList : SkipList Int String) 1 = .ok r) ∧
      (∃ s', Insert (NewSkipList : SkipList Int String) 1 "One" 2 = .ok s') ∧
      ∃ s', Remove (NewSkipList : SkipList Int String) 1 = .ok s') ∧
    ∃ ks vs m,
      Keys (⟨[⟨0, "", [some 1]⟩, ⟨1, "One", [none]⟩], 0, 1⟩ : SkipList Int String) 0 = .ok ks ∧
      Values (⟨[⟨0, "", [some 1]⟩, ⟨1, "One", [none]⟩], 0, 1⟩ : SkipList Int String) 0 =
        .ok vs ∧
      ToMap (⟨[⟨0, "", [some 1]⟩, ⟨1, "One", [none]⟩], 0, 1⟩ : SkipList Int String) 0 =
        .ok m :=
  ⟨⟨(no_index_fault _ ⟨[], rfl⟩ 1 "One" 2 0).1, (no_index_fault _ ⟨[], rfl⟩ 1 "One" 2 0).2.1,
      (no_index_fault _ ⟨[], rfl⟩ 1 "One" 2 0).2.2.1⟩,
    (no_index_fault _ ⟨[Op.insert 1 "One" 0], rfl⟩ 1 "One" 2 0).2.2.2 (by decide) (by decide)⟩

/-- C20: in every list reachable from the new list by `Insert` and `Remove`
calls, whatever levels are drawn, following `Forward[i]` from the head on
any level `i` between 0 and `Level()` reaches nil after fewer steps than
there are nodes, so the forward links have no cycle; `Find`, `Insert` and
`Remove` return, and `Keys`, `Values` and `ToMap` never run out of steps,
whatever level they are asked for. -/
theorem traversals_terminate [Inhabited V] (s : SkipList K V) (hr : Reachable s) (k : K)
    (v : V) (nl : Nat) :
    (∀ i : Nat, (i : Int) ≤ s.Level →
      ∃ l, Linked s.heap i s.Head l ∧ l.length < s.heap.length) ∧
    (∃ r, Find s k = .ok r) ∧ (∃ s', Insert s k v nl = .ok s') ∧
    (∃ s', Remove s k = .ok s') ∧
    ∀ level : Int, Keys s level ≠ .error .outOfFuel ∧ Values s level ≠ .error .outOfFuel ∧
      ToMap s level ≠ .error .outOfFuel := by
  have hs := hr.sound
  obtain ⟨s1, a1, -, -⟩ := hs.Insert_ok k v nl
  obtain ⟨s2, b1, -, -, -⟩ := hs.Remove_ok k
  refine ⟨?_, hs.Find_ok k, ⟨s1, a1⟩, ⟨s2, b1⟩, ?_⟩
  · intro i hi
    obtain ⟨hd, hhd, -⟩ := hs.headlen
    have h0lt : 0 < s.heap.length := (List.getElem?_eq_some.1 hhd).1
    have hr0 : rankOf s.heap 0 < s.heap.length := rankOf_lt_length h0lt
    obtain ⟨l, h1, h2⟩ := hs.link.linked_exists i s.heap.length 0 hr0
      (hs.head_slot i (le_max_of_le_left hi))
    exact ⟨l, h1, by omega⟩
  · intro level
    have h := hs.traverse_fuel level
    exact ⟨fun e => h ((Keys_error_iff _ _ _).1 e), fun e => h ((Values_error_iff _ _ _).1 e),
      fun e => h ((ToMap_error_iff _ _ _).1 e)⟩

/-- Witness of C20: the list left by `Insert(5)`, `Remove 5` and
`Insert(5)` again, each with level 1, on its top level. -/
theorem traversals_terminate_witness :
    ∃ l, Linked twiceInserted.heap 1 twiceInserted.Head l ∧
      l.length < twiceInserted.heap.length :=
  (traversals_terminate twiceInserted
    ⟨[Op.insert 5 "Five" 1, Op.remove 5, Op.insert 5 "Cinq" 1], by rfl⟩ 5 "Five" 0).1 1
    (by decide)

end Ordered

end Skiplist
